import Mathlib

/-!
# Tiled wavefront edit distance (`src/implementation.hpp`)

A shallow embedding of `class EditDistance` and of the record `task_info`.

* The type `S` (`int_fast32_t`) and the type `DIST` (`std::size_t`) are embedded as `Int`
  and `Nat`; every quantity of a run is far below the machine range as long as the input
  lengths are, so no wrap-around is modelled.
* A `std::vector<S>` is a `List Int`; `v[i]` is `v.getD i 0` and `v[i] = a` is `v.set i a`.
  Every vector of the engine is created with `TASK_SIZE + 1` elements and only ever swapped
  or assigned element-wise, so every access of the source is in range.
* The tile size `TASK_SIZE` is a parameter `B` of the definitions; the value of the source
  is `TASK_SIZE = 64`.
* The `#pragma omp parallel for` loop is embedded as the sequential loop over ascending
  `task_number`, executed by thread `0` (`omp_get_thread_num() = 0`).
* The symbol type `C` is any type with decidable equality.  Reading a sequence beyond its
  end (undefined in the source) yields `none`.
-/

namespace Wavefront

/-- The tile size of the source, `#define TASK_SIZE 64`. -/
def TASK_SIZE : Nat := 64

/-- The sentinel of the source, `const S infinity = 999999999`. -/
def infinity : Int := 999999999

/-- The record `task_info<C, S>`. -/
structure task_info where
  vertical : List Int
  horizontal : List Int
deriving DecidableEq, Repr

/-- The constructor `task_info()`: both vectors get `TASK_SIZE + 1` zeros. -/
def task_info.new (B : Nat) : task_info :=
  ⟨List.replicate (B + 1) 0, List.replicate (B + 1) 0⟩

/-- The carry at an index of a vector of records (`carry[i]`). -/
def at_index (l : List task_info) (i : Nat) : task_info := l.getD i ⟨[], []⟩

/-- The assignment `carry[i].vertical = v`. -/
def set_vertical (l : List task_info) (i : Nat) (v : List Int) : List task_info :=
  l.set i ⟨v, (at_index l i).horizontal⟩

/-- The assignment `carry[i].horizontal = h`. -/
def set_horizontal (l : List task_info) (i : Nat) (h : List Int) : List task_info :=
  l.set i ⟨(at_index l i).vertical, h⟩

/-- The data members of `class EditDistance` (the constant `infinity` apart). -/
structure EditDistance where
  swap_strings : Bool
  same_length_strings : Bool
  number_of_levels : Int
  worst_outcome_cached : Int
  length_in_chars : Int
  height_in_chars : Int
  height_in_tasks : Int
  length_in_tasks : Int
  thread_data : List task_info
  old_carry : List task_info
  new_carry : List task_info
deriving DecidableEq, Repr

/-- A newly constructed engine: the vectors are empty and the scalar members, which the
class does not initialise, are taken zero/false (a value-initialised object). -/
def fresh : EditDistance :=
  ⟨false, false, 0, 0, 0, 0, 0, 0, [], [], []⟩

/-- The vector `initial` of `init`: `initial[i] = i` for `i < TASK_SIZE + 1`. -/
def initial (B : Nat) : List Int := (List.range (B + 1)).map Int.ofNat

/-- The loop `for(S i=0; i < length_in_tasks + 1; ++i)` of `init`, `n` iterations:
one `push_back` on `old_carry` (first component) and on `new_carry` (second). -/
def push_carries (B : Nat) :
    Nat → List task_info × List task_info → List task_info × List task_info
  | 0, p => p
  | n + 1, p => push_carries B n (p.1 ++ [task_info.new B], p.2 ++ [task_info.new B])

/-- The loop `for(int i=0; i<omp_get_max_threads(); ++i)` of `init`, `n` iterations. -/
def push_threads (B : Nat) : Nat → List task_info → List task_info
  | 0, l => l
  | n + 1, l => push_threads B n (l ++ [task_info.new B])

/-- The method `init(len1, len2)` on the engine `e`; `T` is `omp_get_max_threads()` and
`none` is the thrown `std::exception`. -/
def init (B T : Nat) (e : EditDistance) (len1 len2 : Nat) : Option EditDistance :=
  let swapped := decide (len2 < len1)
  let l1 := if swapped then len2 else len1
  let l2 := if swapped then len1 else len2
  let swap_strings := if swapped then true else e.swap_strings
  if l1 % B ≠ 0 ∨ l2 % B ≠ 0 then none
  else
    let length_in_tasks : Int := ((l2 / B : Nat) : Int)
    let carries := push_carries B (length_in_tasks + 1).toNat (e.old_carry, e.new_carry)
    let old_carry := set_vertical carries.1 0 (initial B)
    let old_carry := set_horizontal old_carry 0 (initial B)
    some
      { swap_strings := swap_strings
        same_length_strings := decide (l2 = l1)
        number_of_levels := ((l1 / B + l2 / B : Nat) : Int) - 1
        worst_outcome_cached := (l2 : Int)
        length_in_chars := (l2 : Int)
        height_in_chars := (l1 : Int)
        height_in_tasks := ((l1 / B : Nat) : Int)
        length_in_tasks := length_in_tasks
        thread_data := push_threads B T e.thread_data
        old_carry := old_carry
        new_carry := carries.2 }

/-- The method `worst_outcome()`. -/
def worst_outcome (e : EditDistance) : Int := e.worst_outcome_cached

/-- The method `min_heuristic(x, y, value)`. -/
def min_heuristic (e : EditDistance) (x y value : Int) : Int :=
  |e.length_in_chars - x - (e.height_in_chars - y)| + value

/-- The `for` loop of `all_too_big` (the one chosen by `same_length_strings`), from index
`i` on with `n` iterations left: `false` at the first candidate within the estimate. -/
def all_too_big_loop (e : EditDistance) (inp : task_info) (y x : Int) : Nat → Int → Bool
  | 0, _ => true
  | n + 1, i =>
    if e.same_length_strings then
      if |x + i - y| + inp.horizontal.getD i.toNat 0 ≤ worst_outcome e
          ∨ |x - y - i| + inp.vertical.getD i.toNat 0 ≤ worst_outcome e then false
      else all_too_big_loop e inp y x n (i + 1)
    else
      if min_heuristic e (x + i) y (inp.horizontal.getD i.toNat 0) ≤ worst_outcome e
          ∨ min_heuristic e x (y + i) (inp.vertical.getD i.toNat 0) ≤ worst_outcome e then false
      else all_too_big_loop e inp y x n (i + 1)

/-- The method `all_too_big(in, y, x)`. -/
def all_too_big (B : Nat) (e : EditDistance) (inp : task_info) (y x : Int) : Bool :=
  all_too_big_loop e inp y x (B + 1) 0

/-- The inner loop `while(length < TASK_SIZE)` of `compute_one_task` for one row, `n`
iterations left.  `d` is `down[y + height]`, `cs` holds `left[x + length ..]`, `prev` is
`in.horizontal[length]` and the list argument holds `in.horizontal[length + 1 ..]`; the
result is the new content of `in.horizontal[length + 1 ..]`. -/
def row_loop {C : Type} [DecidableEq C] (d : Option C) :
    Nat → List C → Int → Int → List Int → List Int
  | 0, _, _, _, hs => hs
  | _ + 1, _, _, _, [] => []
  | n + 1, cs, diagonal, prev, h :: hs =>
    if d = cs.head? then
      -- ++length; std::swap(diagonal, in.horizontal[length]);
      diagonal :: row_loop d n cs.tail h diagonal hs
    else
      -- ++length; tmp = diagonal; diagonal = in.horizontal[length];
      -- in.horizontal[length] = std::min(tmp, std::min(in.horizontal[length - 1], in.horizontal[length])) + 1;
      let v := min diagonal (min prev h) + 1
      v :: row_loop d n cs.tail h v hs

/-- The outer loop `while(height < TASK_SIZE)` of `compute_one_task`, `n` iterations left;
`ds` holds `down[y + height ..]` and `left_x` holds `left[x ..]`.  The result is the pair
of `in.horizontal` and `out.vertical` after the loop. -/
def rows_loop {C : Type} [DecidableEq C] (B : Nat) (in_vertical : List Int) (left_x : List C) :
    Nat → Nat → List C → List Int → List Int → List Int × List Int
  | 0, _, _, in_horizontal, out_vertical => (in_horizontal, out_vertical)
  | n + 1, height, ds, in_horizontal, out_vertical =>
    let diagonal := in_vertical.getD height 0
    -- in.horizontal[0] = in.vertical[height + 1];
    let first := in_vertical.getD (height + 1) 0
    let hor := first :: row_loop ds.head? B left_x diagonal first in_horizontal.tail
    -- out.vertical[++height] = in.horizontal[TASK_SIZE];
    rows_loop B in_vertical left_x n (height + 1) ds.tail hor
      (out_vertical.set (height + 1) (hor.getD B 0))

/-- The loops `for(S i=0; i<TASK_SIZE + 1; ++i) min = std::min(min, a + v[i])` that end
`compute_one_task`, from index `i` on with `n` iterations left. -/
def min_loop (a : Int) (v : List Int) : Nat → Nat → Int → Int
  | 0, _, m => m
  | n + 1, i, m => min_loop a v n (i + 1) (min m (a + v.getD i 0))

/-- The method `compute_one_task(in, out, down, left, y, x)`: the new `in`, the new `out`
and the returned value. -/
def compute_one_task {C : Type} [DecidableEq C] (B : Nat) (e : EditDistance)
    (inp out : task_info) (down left : List C) (y x : Int) : task_info × task_info × Int :=
  -- out.vertical[0] = in.horizontal[TASK_SIZE];
  let out_vertical := out.vertical.set 0 (inp.horizontal.getD B 0)
  let r := rows_loop B inp.vertical (left.drop x.toNat) B 0 (down.drop y.toNat)
    inp.horizontal out_vertical
  -- in.horizontal[0] = in.vertical[TASK_SIZE];
  let in_horizontal := r.1.set 0 (inp.vertical.getD B 0)
  -- in.horizontal.swap(out.horizontal);
  let inp1 : task_info := ⟨inp.vertical, out.horizontal⟩
  let out1 : task_info := ⟨r.2, in_horizontal⟩
  let ret :=
    if e.length_in_chars - x > e.height_in_chars - y then
      min_loop (e.length_in_chars - x - B) out1.vertical (B + 1) 0 infinity
    else if e.length_in_chars - x < e.height_in_chars - y then
      min_loop (e.height_in_chars - y - B) out1.horizontal (B + 1) 0 infinity
    else out1.horizontal.getD B 0 + e.length_in_chars - x - B
  (inp1, out1, ret)

/-- The loops `for(S i=0; i<TASK_SIZE + 1; ++i) v[i] = a + i`. -/
def seed (B : Nat) (a : Int) (v : List Int) : List Int :=
  (List.range (B + 1)).foldl (fun w i => w.set i (a + i)) v

/-- The loops `for(S i=0; i<TASK_SIZE + 1; ++i) v[i] = infinity`. -/
def fill_infinity (B : Nat) (v : List Int) : List Int :=
  (List.range (B + 1)).foldl (fun w i => w.set i infinity) v

/-- The variables read and written by the body of the parallel loop.  The field
`evaluated` is a ghost record of the pairs `(next_level, task_number)` for which
`compute_one_task` has been called; nothing reads it. -/
structure LoopState where
  thread_data : List task_info
  old_carry : List task_info
  new_carry : List task_info
  global_minimum : Int
  add_infinity_column : Bool
  add_infinity_row : Bool
  evaluated : List (Int × Int)
deriving DecidableEq, Repr

/-- The body of the parallel loop of `compute` for one `task_number`.  The argument
`oracle` stands for the call `all_too_big(old_carry[task_number], y, x)`: the source is
the instance `oracle = all_too_big B`. -/
def task_body {C : Type} [DecidableEq C] (B : Nat)
    (oracle : EditDistance → task_info → Int → Int → Bool) (e : EditDistance)
    (down left : List C) (next_level shift infinity_columns infinity_rows last_task : Int)
    (s : LoopState) (task_number : Int) : LoopState :=
  let tn := task_number.toNat
  let y := (next_level - 1 - task_number) * B
  let x := task_number * B
  if ¬ oracle e (at_index s.old_carry tn) y x then
    let r := compute_one_task B e (at_index s.old_carry tn) (at_index s.thread_data 0)
      down left y x
    let t := r.2.1
    let local_minimum := r.2.2
    -- std::swap(new_carry[task_number].horizontal, t.horizontal);
    let nc1 := set_horizontal s.new_carry tn t.horizontal
    -- std::swap(new_carry[task_number + 1].vertical, t.vertical);
    let nc2 := set_vertical nc1 (tn + 1) t.vertical
    let t1 : task_info := ⟨(at_index nc1 (tn + 1)).vertical, (at_index s.new_carry tn).horizontal⟩
    let nc3 :=
      if task_number = shift + infinity_columns ∧ next_level - task_number < e.height_in_tasks then
        if task_number = 0 then
          set_vertical nc2 tn (seed B (next_level * B) (at_index nc2 tn).vertical)
        else if infinity_columns > 0 then
          set_vertical nc2 tn (fill_infinity B (at_index nc2 tn).vertical)
        else nc2
      else nc2
    let nc4 :=
      if task_number = last_task - infinity_rows - 1 ∧ task_number < e.length_in_tasks - 1 then
        if infinity_rows > 0 then
          set_horizontal nc3 (tn + 1) (fill_infinity B (at_index nc3 (tn + 1)).horizontal)
        else
          set_horizontal nc3 (tn + 1) (seed B (next_level * B) (at_index nc3 (tn + 1)).horizontal)
      else nc3
    { thread_data := s.thread_data.set 0 t1
      old_carry := s.old_carry.set tn r.1
      new_carry := nc4
      global_minimum := if local_minimum < s.global_minimum then local_minimum else s.global_minimum
      add_infinity_column := s.add_infinity_column
      add_infinity_row := s.add_infinity_row
      evaluated := s.evaluated ++ [(next_level, task_number)] }
  else
    let first := decide (task_number = shift + infinity_columns)
    let last := decide (task_number = last_task - infinity_rows - 1)
    let nc1 :=
      if first then
        set_vertical s.new_carry (tn + 1) (fill_infinity B (at_index s.new_carry (tn + 1)).vertical)
      else s.new_carry
    let nc2 := set_horizontal nc1 tn (fill_infinity B (at_index nc1 tn).horizontal)
    let nc3 :=
      if last then nc2
      else set_vertical nc2 (tn + 1) (fill_infinity B (at_index nc2 (tn + 1)).vertical)
    { thread_data := s.thread_data
      old_carry := s.old_carry
      new_carry := nc3
      global_minimum := s.global_minimum
      add_infinity_column := s.add_infinity_column || first
      add_infinity_row := s.add_infinity_row || last
      evaluated := s.evaluated }

/-- The parallel loop `for(S task_number = shift + infinity_columns; task_number <
last_task - infinity_rows; ++task_number)`, `n` iterations left. -/
def task_loop {C : Type} [DecidableEq C] (B : Nat)
    (oracle : EditDistance → task_info → Int → Int → Bool) (e : EditDistance)
    (down left : List C) (next_level shift infinity_columns infinity_rows last_task : Int) :
    Nat → Int → LoopState → LoopState
  | 0, _, s => s
  | n + 1, task_number, s =>
    task_loop B oracle e down left next_level shift infinity_columns infinity_rows last_task n
      (task_number + 1)
      (task_body B oracle e down left next_level shift infinity_columns infinity_rows last_task
        s task_number)

/-- The engine together with the local variables of `compute` that live across levels
(and the ghost record `evaluated`). -/
structure LevelState where
  engine : EditDistance
  shift : Int
  infinity_columns : Int
  infinity_rows : Int
  add_infinity_column : Bool
  add_infinity_row : Bool
  evaluated : List (Int × Int)
deriving DecidableEq, Repr

/-- One iteration of the loop over `next_level` of `compute`. -/
def level_body {C : Type} [DecidableEq C] (B : Nat)
    (oracle : EditDistance → task_info → Int → Int → Bool) (down left : List C)
    (s : LevelState) (next_level : Int) : LevelState :=
  let e := s.engine
  let fold := decide (next_level > e.height_in_tasks)
  let shift := if fold then next_level - e.height_in_tasks else s.shift
  let ic1 := if fold ∧ s.infinity_columns > 0 then s.infinity_columns - 1 else s.infinity_columns
  let ir1 :=
    if fold ∧ next_level > e.length_in_tasks ∧ s.infinity_rows > 0 then s.infinity_rows - 1
    else s.infinity_rows
  let infinity_columns := if s.add_infinity_column then ic1 + 1 else ic1
  let infinity_rows := if s.add_infinity_row then ir1 + 1 else ir1
  let last_task := min next_level e.length_in_tasks
  let ls := task_loop B oracle e down left next_level shift infinity_columns infinity_rows
    last_task (last_task - infinity_rows - (shift + infinity_columns)).toNat
    (shift + infinity_columns)
    { thread_data := e.thread_data, old_carry := e.old_carry, new_carry := e.new_carry,
      global_minimum := infinity, add_infinity_column := false, add_infinity_row := false,
      evaluated := s.evaluated }
  -- worst_outcome_cached = global_minimum; new_carry.swap(old_carry);
  { engine := { e with
      worst_outcome_cached := ls.global_minimum
      thread_data := ls.thread_data
      old_carry := ls.new_carry
      new_carry := ls.old_carry }
    shift := shift
    infinity_columns := infinity_columns
    infinity_rows := infinity_rows
    add_infinity_column := ls.add_infinity_column
    add_infinity_row := ls.add_infinity_row
    evaluated := ls.evaluated }

/-- The loop `for(S next_level = 1; next_level < number_of_levels + 1; ++next_level)`,
`n` iterations left. -/
def level_loop {C : Type} [DecidableEq C] (B : Nat)
    (oracle : EditDistance → task_info → Int → Int → Bool) (down left : List C) :
    Nat → Int → LevelState → LevelState
  | 0, _, s => s
  | n + 1, next_level, s =>
    level_loop B oracle down left n (next_level + 1) (level_body B oracle down left s next_level)

/-- What a call of `compute` leaves behind: the engine, the two argument vectors (which
`std::swap(down, left)` exchanges through the `const_cast` references), the returned value
and the ghost record of the evaluated tiles. -/
structure Outcome (C : Type) where
  engine : EditDistance
  str1 : List C
  str2 : List C
  value : Int
  evaluated : List (Int × Int)

/-- The method `compute(str1, str2)` with the call of `all_too_big` replaced by `oracle`. -/
def compute_with {C : Type} [DecidableEq C] (B : Nat)
    (oracle : EditDistance → task_info → Int → Int → Bool) (e : EditDistance)
    (str1 str2 : List C) : Outcome C :=
  let left := if e.swap_strings then str1 else str2
  let down := if e.swap_strings then str2 else str1
  let s := level_loop B oracle down left e.number_of_levels.toNat 1
    ⟨e, 0, 0, 0, false, false, []⟩
  { engine := s.engine
    str1 := down
    str2 := left
    value := ((at_index s.engine.old_carry (e.length_in_tasks - 1).toNat).horizontal).getD B 0
    evaluated := s.evaluated }

/-- The method `compute(str1, str2)`. -/
def compute {C : Type} [DecidableEq C] (B : Nat) (e : EditDistance) (str1 str2 : List C) :
    Outcome C :=
  compute_with B (all_too_big B) e str1 str2

/-- The value returned by `init(|a|, |b|)` followed by `compute(a, b)` on a fresh engine
with one worker thread; `none` when `init` throws. -/
def distance {C : Type} [DecidableEq C] (B : Nat) (a b : List C) : Option Int :=
  (init B 1 fresh a.length b.length).map fun e => (compute B e a b).value

/-! ## The reference: the full-table recurrence

`D[0][j] = j`, `D[i][0] = i` and, for `i, j > 0`,
`D[i][j] = min (D[i-1][j] + 1) (D[i][j-1] + 1) (D[i-1][j-1] + (a[i-1] ≠ b[j-1]))`. -/

/-- The cells `D[i][j+1 ..]` of row `i` of the full table, for the symbol `x = a[i-1]`,
from the symbols `b[j ..]`, the cell `diag = D[i-1][j]`, the cell `prev = D[i][j]` and the
cells `D[i-1][j+1 ..]` of the row above. -/
def naive_row {C : Type} [DecidableEq C] (x : C) : List C → Nat → Nat → List Nat → List Nat
  | [], _, _, _ => []
  | _ :: _, _, _, [] => []
  | y :: ys, diag, prev, up :: ups =>
    let v := min (min (up + 1) (prev + 1)) (diag + if x = y then 0 else 1)
    v :: naive_row x ys up v ups

/-- Row `i` of the full table from row `i - 1`, for the symbol `x = a[i-1]`. -/
def naive_next {C : Type} [DecidableEq C] (b : List C) (row : List Nat) (x : C) : List Nat :=
  (row.headD 0 + 1) :: naive_row x b (row.headD 0) (row.headD 0 + 1) row.tail

/-- The Levenshtein distance of `a` and `b` by the naive full-table recurrence: the last
cell of the last row. -/
def naive_levenshtein {C : Type} [DecidableEq C] (a b : List C) : Nat :=
  (a.foldl (naive_next b) (List.range (b.length + 1))).getD b.length 0

/-- The cell `(i, j)` of the table of `a` and `b` lies on an optimal edit path: the
distance of the prefixes `a[..i]`, `b[..j]` and the distance of the suffixes `a[i..]`,
`b[j..]` add up to the distance of `a` and `b`. -/
def on_optimal_path {C : Type} [DecidableEq C] (a b : List C) (i j : Nat) : Prop :=
  naive_levenshtein (a.take i) (b.take j) + naive_levenshtein (a.drop i) (b.drop j)
    = naive_levenshtein a b

instance {C : Type} [DecidableEq C] (a b : List C) (i j : Nat) :
    Decidable (on_optimal_path a b i j) := by
  unfold on_optimal_path; infer_instance

/-! ## A failing run at the tile size of the source -/

/-- The first input of the failing run: `0¹⁶ 1⁹⁶ 0¹⁶ 1⁶⁴`, of length `192 = 3 * 64`. -/
def bugA : List Nat :=
  List.replicate 16 0 ++ List.replicate 96 1 ++ List.replicate 16 0 ++ List.replicate 64 1

/-- The second input of the failing run: `1⁸ 0¹⁶ 1⁴⁸ 0⁴⁸ 1⁷²`, of length `192 = 3 * 64`. -/
def bugB : List Nat :=
  List.replicate 8 1 ++ List.replicate 16 0 ++ List.replicate 48 1 ++ List.replicate 48 0
    ++ List.replicate 72 1

/-- The returned value, the final estimate `worst_outcome_cached` and the evaluated tiles
of an outcome. -/
def summary {C : Type} (o : Outcome C) : Int × Int × List (Int × Int) :=
  (o.value, o.engine.worst_outcome_cached, o.evaluated)

/-- The oracle that never prunes. -/
def never_prune : EditDistance → task_info → Int → Int → Bool := fun _ _ _ _ => false

/-- Sequences of length `128` given to an engine initialised for `64` and `64`. -/
def longA : List Nat := List.replicate 128 0

/-- The second sequence of length `128`. -/
def longB : List Nat := List.replicate 64 0 ++ List.replicate 64 1

/-- The facts about the state between two levels that keep every tile of the next level
inside the table of `Ht` by `Wt` tiles. -/
structure InTable (Ht Wt : Int) (s : LevelState) : Prop where
  height : s.engine.height_in_tasks = Ht
  length : s.engine.length_in_tasks = Wt
  shift : 0 ≤ s.shift
  columns : 0 ≤ s.infinity_columns
  rows : 0 ≤ s.infinity_rows

/-! ## Invariants of a run on a sequence against itself

For `a = b` the cell `(i, j)` of the full table holds `|i - j|`. A carried value is
admissible when it is that value, or a larger one at a cell too far from the diagonal to
matter for the current estimate. -/

/-- A carried value `v` is admissible for the cell `(i, j)` of the table of a sequence
against itself under the estimate `W`: it is at least the true value `|i - j|`, and it is
that value unless the cell is too far from the diagonal to matter (`W < 2 * |i - j|`). -/
def cell_ok (W i j v : Int) : Prop :=
  max (i - j) (j - i) ≤ v ∧ (v = max (i - j) (j - i) ∨ W < 2 * max (i - j) (j - i))

/-- The vector `v` holds admissible values for the left edge of the tile with origin
`(y, x)`: the cells `(y + k, x)`, `k ≤ B`. -/
def col_ok (B : Nat) (W y x : Int) (v : List Int) : Prop :=
  v.length = B + 1 ∧ ∀ k : Nat, k ≤ B → cell_ok W (y + k) x (v.getD k 0)

/-- The vector `h` holds admissible values for the top edge of the tile with origin
`(y, x)`: the cells `(y, x + k)`, `k ≤ B`. -/
def row_ok (B : Nat) (W y x : Int) (h : List Int) : Prop :=
  h.length = B + 1 ∧ ∀ k : Nat, k ≤ B → cell_ok W y (x + k) (h.getD k 0)

/-- Every record of the vector has two vectors of `B + 1` elements. -/
def sized (B : Nat) (l : List task_info) : Prop :=
  ∀ i : Nat, i < l.length →
    (at_index l i).vertical.length = B + 1 ∧ (at_index l i).horizontal.length = B + 1

/-- The context of level `L` of a run on a sequence of `n` tiles against itself: the
engine `e` at the start of the level and the counters after their adjustment. -/
structure Lvl (B n : Nat) (e : EditDistance) (L shift ic ir : Int) : Prop where
  hB : 1 ≤ B
  hINF : (n : Int) * B ≤ infinity
  same : e.same_length_strings = true
  len : e.length_in_chars = n * B
  hgt : e.height_in_chars = n * B
  ht : e.height_in_tasks = n
  lt : e.length_in_tasks = n
  est : e.worst_outcome_cached = (n - L / 2) * B
  L1 : 1 ≤ L
  L2 : L ≤ 2 * n - 1
  sh : shift = max 0 (L - n)
  ic0 : 0 ≤ ic
  ir0 : 0 ≤ ir
  lo : shift + ic ≤ (L - 1) / 2
  hi : L / 2 < min L n - ir
  jcol : 0 < ic → n - (L + 1) / 2 < 2 * (L - 2 * (shift + ic))
  jrow : 0 < ir → n - (L + 1) / 2 < 2 * (2 * (min L n - ir) - L)
  carry : ∀ k : Int, shift + ic ≤ k → k < min L n - ir →
    col_ok B ((n - L / 2) * B) ((L - 1 - k) * B) (k * B) (at_index e.old_carry k.toNat).vertical ∧
    row_ok B ((n - L / 2) * B) ((L - 1 - k) * B) (k * B) (at_index e.old_carry k.toNat).horizontal

/-- The invariant of the loop over the tasks of level `L`, before task `c`. -/
structure TInv (B n : Nat) (e : EditDistance) (L shift ic ir c : Int) (ls : LoopState) :
    Prop where
  szo : ls.old_carry.length = n + 1
  szn : ls.new_carry.length = n + 1
  szt : 0 < ls.thread_data.length
  vo : sized B ls.old_carry
  vn : sized B ls.new_carry
  vt : sized B ls.thread_data
  keep : ∀ k : Int, c ≤ k → at_index ls.old_carry k.toNat = at_index e.old_carry k.toNat
  gm_ge : (n - (L + 1) / 2) * B ≤ ls.global_minimum
  gm_le : (L - 1) / 2 < c → ls.global_minimum ≤ (n - (L + 1) / 2) * B
  hor : ∀ k : Int, shift + ic ≤ k → k < c →
    row_ok B ((n - (L + 1) / 2) * B) ((L - k) * B) (k * B)
      (at_index ls.new_carry k.toNat).horizontal
  ver : ∀ k : Int, shift + ic < k → k ≤ c →
    (k < min L n - ir ∨ ls.add_infinity_row = false ∨ k = shift + ic + 1) →
    col_ok B ((n - (L + 1) / 2) * B) ((L - k) * B) (k * B)
      (at_index ls.new_carry k.toNat).vertical
  seedv : shift + ic < c → ls.add_infinity_column = false → L - (shift + ic) < n →
    col_ok B ((n - (L + 1) / 2) * B) ((L - (shift + ic)) * B) ((shift + ic) * B)
      (at_index ls.new_carry (shift + ic).toNat).vertical
  seedh : c = min L n - ir → ls.add_infinity_row = false → min L n - ir < n →
    row_ok B ((n - (L + 1) / 2) * B) ((L - (min L n - ir)) * B) ((min L n - ir) * B)
      (at_index ls.new_carry (min L n - ir).toNat).horizontal
  addc_init : c ≤ shift + ic → ls.add_infinity_column = false
  addc : ls.add_infinity_column = true →
    shift + ic + 1 ≤ (L - 1) / 2 ∧ n - L / 2 < 2 * (L - 2 - 2 * (shift + ic))
  addr_init : c < min L n - ir → ls.add_infinity_row = false
  addr : ls.add_infinity_row = true →
    L / 2 + 1 ≤ min L n - ir - 1 ∧ n - L / 2 < 2 * (2 * (min L n - ir) - L - 2)

/-- The new carries written by a rejected task. -/
def rejected_carry (B : Nat) (nc : List task_info) (cn : Nat) (first last : Bool) :
    List task_info :=
  let nc1 := if first then set_vertical nc (cn + 1) (fill_infinity B (at_index nc (cn + 1)).vertical)
    else nc
  let nc2 := set_horizontal nc1 cn (fill_infinity B (at_index nc1 cn).horizontal)
  if last then nc2
  else set_vertical nc2 (cn + 1) (fill_infinity B (at_index nc2 (cn + 1)).vertical)

/-- The new carries written by an evaluated task: the bottom edge `oh`, the right edge
`ov`, and the seeding of the own left carry (`sv`) and of the right neighbour's top carry
(`sh`); the codes are `0` for nothing, `1` for the boundary values and `2` for the
sentinel. -/
def evaluated_carry (B : Nat) (nc : List task_info) (cn : Nat) (oh ov : List Int) (a : Int)
    (sv sh : Nat) : List task_info :=
  let nc2 := set_vertical (set_horizontal nc cn oh) (cn + 1) ov
  let nc3 :=
    if sv = 0 then nc2
    else if sv = 1 then set_vertical nc2 cn (seed B a (at_index nc2 cn).vertical)
    else set_vertical nc2 cn (fill_infinity B (at_index nc2 cn).vertical)
  if sh = 0 then nc3
  else if sh = 1 then set_horizontal nc3 (cn + 1) (seed B a (at_index nc3 (cn + 1)).horizontal)
  else set_horizontal nc3 (cn + 1) (fill_infinity B (at_index nc3 (cn + 1)).horizontal)

/-- The code of the seeding of the own left carry by an evaluated task. -/
def seed_code_v (e : EditDistance) (L shift ic c : Int) : Nat :=
  if c = shift + ic ∧ L - c < e.height_in_tasks then
    (if c = 0 then 1 else if ic > 0 then 2 else 0)
  else 0

/-- The code of the seeding of the right neighbour's top carry by an evaluated task. -/
def seed_code_h (e : EditDistance) (ir last c : Int) : Nat :=
  if c = last - ir - 1 ∧ c < e.length_in_tasks - 1 then (if ir > 0 then 2 else 1) else 0

/-- The sizes of the vectors of the engine. -/
structure Sz (B n : Nat) (e : EditDistance) : Prop where
  szo : e.old_carry.length = n + 1
  szn : e.new_carry.length = n + 1
  szt : 0 < e.thread_data.length
  vo : sized B e.old_carry
  vn : sized B e.new_carry
  vt : sized B e.thread_data

/-- The value of `shift` used in level `L`. -/
def adj_shift (s : LevelState) (L : Int) : Int :=
  if decide (L > s.engine.height_in_tasks) = true then L - s.engine.height_in_tasks else s.shift

/-- The value of `infinity_columns` used in level `L`. -/
def adj_ic (s : LevelState) (L : Int) : Int :=
  if s.add_infinity_column = true then
    (if decide (L > s.engine.height_in_tasks) = true ∧ s.infinity_columns > 0 then
      s.infinity_columns - 1 else s.infinity_columns) + 1
  else
    (if decide (L > s.engine.height_in_tasks) = true ∧ s.infinity_columns > 0 then
      s.infinity_columns - 1 else s.infinity_columns)

/-- The value of `infinity_rows` used in level `L`. -/
def adj_ir (s : LevelState) (L : Int) : Int :=
  if s.add_infinity_row = true then
    (if decide (L > s.engine.height_in_tasks) = true ∧ L > s.engine.length_in_tasks ∧
        s.infinity_rows > 0 then s.infinity_rows - 1 else s.infinity_rows) + 1
  else
    (if decide (L > s.engine.height_in_tasks) = true ∧ L > s.engine.length_in_tasks ∧
        s.infinity_rows > 0 then s.infinity_rows - 1 else s.infinity_rows)

/-- The state of the parallel loop at the end of level `L`. -/
def level_tasks {C : Type} [DecidableEq C] (B : Nat)
    (oracle : EditDistance → task_info → Int → Int → Bool) (down left : List C)
    (s : LevelState) (L : Int) : LoopState :=
  task_loop B oracle s.engine down left L (adj_shift s L) (adj_ic s L) (adj_ir s L)
    (min L s.engine.length_in_tasks)
    (min L s.engine.length_in_tasks - adj_ir s L - (adj_shift s L + adj_ic s L)).toNat
    (adj_shift s L + adj_ic s L)
    { thread_data := s.engine.thread_data, old_carry := s.engine.old_carry,
      new_carry := s.engine.new_carry, global_minimum := infinity,
      add_infinity_column := false, add_infinity_row := false, evaluated := s.evaluated }

/-- What holds between two levels of a run on a sequence of `n` tiles against itself,
before level `L`. -/
structure LInv (B n : Nat) (s : LevelState) (L : Int) : Prop where
  sz : Sz B n s.engine
  lvl : L ≤ 2 * n - 1 → Lvl B n s.engine L (adj_shift s L) (adj_ic s L) (adj_ir s L)
  fin : L = 2 * n → ((at_index s.engine.old_carry (n - 1)).horizontal).getD B 0 = 0

/-! ## The full table, repeated calls and the states of a run before each level -/

/-- The cell `D[i][j]` of the full table of `a` and `b` by the naive recurrence:
`D[0][j] = j`, `D[i][0] = i`, and `D[i+1][j+1]` is the least of `D[i][j+1] + 1`,
`D[i+1][j] + 1` and `D[i][j] + (a[i] ≠ b[j])`. -/
def lev_cell {C : Type} [DecidableEq C] (a b : List C) : Nat → Nat → Nat
  | 0, j => j
  | i + 1, 0 => i + 1
  | i + 1, j + 1 =>
    min (min (lev_cell a b i (j + 1) + 1) (lev_cell a b (i + 1) j + 1))
      (lev_cell a b i j + if a[i]? = b[j]? then 0 else 1)

/-- The first input of the repeated call: `0³² 1³²`. -/
def repeatA : List Nat := List.replicate 32 0 ++ List.replicate 32 1

/-- The second input of the repeated call: `1³² 0³²`. -/
def repeatB : List Nat := List.replicate 32 1 ++ List.replicate 32 0

/-- The state of `compute(str1, str2)` before level `k + 1`: the loop over the levels of
`compute`, with the oracle `all_too_big`, stopped after `k` levels. -/
def compute_levels {C : Type} [DecidableEq C] (B : Nat) (e : EditDistance)
    (str1 str2 : List C) (k : Nat) : LevelState :=
  level_loop B (all_too_big B) (if e.swap_strings then str2 else str1)
    (if e.swap_strings then str1 else str2) k 1 ⟨e, 0, 0, 0, false, false, []⟩

theorem map_proj {α β γ : Type} (o : Option α) (f : α → β) (g : β → γ) (b : β)
    (h : o.map f = some b) : o.map (fun x => g (f x)) = some (g b) := by
  cases o with
  | none => simp at h
  | some x => simp at h; simp [h]

theorem bugA_length : bugA.length = 192 := by
  simp only [bugA, List.length_append, List.length_replicate]

theorem bugB_length : bugB.length = 192 := by
  simp only [bugB, List.length_append, List.length_replicate]

set_option maxRecDepth 100000 in
theorem bug_run :
    (init TASK_SIZE 1 fresh 192 192).map (fun e => summary (compute TASK_SIZE e bugA bugB))
      = some (999999999, 999999999, [(1, 0), (2, 0), (2, 1), (3, 1), (3, 2), (4, 2), (5, 2)]) := by
  decide!

set_option maxRecDepth 100000 in
theorem bug_run_swapped :
    (init TASK_SIZE 1 fresh 192 192).map (fun e => (compute TASK_SIZE e bugB bugA).value)
      = some 64 := by
  decide!

set_option maxRecDepth 100000 in
theorem bug_run_unpruned :
    (init TASK_SIZE 1 fresh 192 192).map
      (fun e => (compute_with TASK_SIZE never_prune e bugA bugB).value) = some 64 := by
  decide!

set_option maxRecDepth 100000 in
theorem bug_naive : naive_levenshtein bugA bugB = 64 := by decide!

set_option maxRecDepth 100000 in
theorem bug_before_cell : naive_levenshtein (bugA.take 128) (bugB.take 120) = 56 := by decide!

set_option maxRecDepth 100000 in
theorem bug_after_cell : naive_levenshtein (bugA.drop 128) (bugB.drop 120) = 8 := by decide!

theorem bug_on_path : on_optimal_path bugA bugB 128 120 := by
  unfold on_optimal_path
  rw [bug_before_cell, bug_after_cell, bug_naive]

set_option maxRecDepth 100000 in
theorem bug_init_estimate :
    (init TASK_SIZE 1 fresh 192 192).map (fun e => e.worst_outcome_cached) = some 192 := by
  decide!

theorem bug_distance : distance TASK_SIZE bugA bugB = some 999999999 := by
  unfold distance
  rw [bugA_length, bugB_length]
  exact map_proj _ _ (fun s => s.1) _ bug_run

/-! ## The stated properties on the failing run, and the guards of `init` and `compute` -/

/-- C1 (failing input). On `bugA`, `bugB` (lengths `192 = 3 * 64`) a fresh engine after
`init(192, 192)` returns the sentinel `999999999` from `compute`, while the distance by
the naive full-table recurrence is `64`. -/
theorem compute_differs_from_naive :
    distance TASK_SIZE bugA bugB = some 999999999 ∧ naive_levenshtein bugA bugB = 64 :=
  ⟨bug_distance, bug_naive⟩

/-- C2 (failing input). On the equal-length inputs `bugA`, `bugB` the engine returns
`999999999` for `compute(bugA, bugB)` and `64` for `compute(bugB, bugA)`. -/
theorem compute_not_symmetric :
    distance TASK_SIZE bugA bugB = some 999999999 ∧ distance TASK_SIZE bugB bugA = some 64 := by
  refine ⟨bug_distance, ?_⟩
  unfold distance
  rw [bugA_length, bugB_length]
  exact bug_run_swapped

/-- C4 (failing input). On `bugA`, `bugB` the returned value is the sentinel, which is
above the larger of the two lengths. -/
theorem compute_above_upper_bound :
    ∃ v : Int, distance TASK_SIZE bugA bugB = some v ∧
      ¬ (v ≤ ((max bugA.length bugB.length : Nat) : Int)) := by
  refine ⟨999999999, bug_distance, ?_⟩
  rw [bugA_length, bugB_length]
  norm_num

/-- C7 (failing input). On `bugA`, `bugB` the run with the oracle `all_too_big` returns
`999999999` and the run whose oracle always answers false returns `64`. -/
theorem compute_differs_from_unpruned :
    (init TASK_SIZE 1 fresh 192 192).map (fun e => (compute TASK_SIZE e bugA bugB).value)
        = some 999999999 ∧
      (init TASK_SIZE 1 fresh 192 192).map
        (fun e => (compute_with TASK_SIZE never_prune e bugA bugB).value) = some 64 :=
  ⟨map_proj _ _ (fun s => s.1) _ bug_run, bug_run_unpruned⟩

/-- C8 (failing input). In the run on `bugA`, `bugB` the tile in row `2`, column `1`
(level `4`, task `1`, origin `y = 128`, `x = 64`) is never evaluated by the tile kernel,
and the cell `(128, 120)` of its top edge lies on an optimal edit path. -/
theorem skipped_tile_on_optimal_path :
    (init TASK_SIZE 1 fresh 192 192).map
        (fun e => decide (((4 : Int), (1 : Int)) ∈ (compute TASK_SIZE e bugA bugB).evaluated))
        = some false ∧
      on_optimal_path bugA bugB 128 120 := by
  refine ⟨?_, bug_on_path⟩
  have h := map_proj _ _
    (fun s : Int × Int × List (Int × Int) => decide (((4 : Int), (1 : Int)) ∈ s.2.2)) _ bug_run
  have hb : decide (((4 : Int), (1 : Int)) ∈
      [((1 : Int), (0 : Int)), (2, 0), (2, 1), (3, 1), (3, 2), (4, 2), (5, 2)]) = false := by
    decide
  dsimp only at h
  rw [hb] at h
  exact h

/-- C9 (failing input). In the run on `bugA`, `bugB` the estimate `worst_outcome_cached`
is `192` after `init` and `999999999` after the last level. -/
theorem estimate_increases :
    (init TASK_SIZE 1 fresh 192 192).map (fun e => e.worst_outcome_cached) = some 192 ∧
      (init TASK_SIZE 1 fresh 192 192).map
        (fun e => (compute TASK_SIZE e bugA bugB).engine.worst_outcome_cached)
        = some 999999999 :=
  ⟨bug_init_estimate, map_proj _ _ (fun s => s.2.1) _ bug_run⟩

/-- C5 (counterexample). With the tile size `64`, `init(0, 64)` and `init(0, 0)` on a
fresh engine do not throw. -/
theorem init_accepts_zero :
    (init TASK_SIZE 1 fresh 0 64).isSome = true ∧ (init TASK_SIZE 1 fresh 0 0).isSome = true := by
  constructor <;> simp [init, TASK_SIZE]

/-- C5 (amended). `init(h, w)` throws if and only if `h` or `w` is not a multiple of the
tile size `B`, whatever the engine and the number of threads. -/
theorem init_fails_iff (B T : Nat) (e : EditDistance) (h w : Nat) :
    init B T e h w = none ↔ (h % B ≠ 0 ∨ w % B ≠ 0) := by
  unfold init
  by_cases hlt : w < h <;> simp [hlt] <;> tauto

set_option maxRecDepth 100000 in
/-- C6 (counterexample). An engine initialised with `init(64, 64)` is given two sequences
of length `128`: `compute` raises no error, evaluates the tile of level `1`, returns `0`
and moves the estimate `worst_outcome_cached` from `64` to `0`. -/
theorem compute_runs_on_mismatched_lengths :
    longA.length = 128 ∧ longB.length = 128 ∧
      (init TASK_SIZE 1 fresh 64 64).map
        (fun e => (e.worst_outcome_cached, summary (compute TASK_SIZE e longA longB)))
        = some (64, 0, 0, [(1, 0)]) := by
  decide!

/-! ## `compute` reads only the declared prefixes -/

theorem row_loop_append {C : Type} [DecidableEq C] (d : Option C) (ext : List C) :
    ∀ (n : Nat) (cs : List C) (diagonal prev : Int) (hs : List Int), n ≤ cs.length →
      row_loop d n (cs ++ ext) diagonal prev hs = row_loop d n cs diagonal prev hs := by
  intro n
  induction n with
  | zero => intro cs diagonal prev hs _; simp [row_loop]
  | succ n ih =>
    intro cs diagonal prev hs hlen
    cases hs with
    | nil => simp [row_loop]
    | cons h hs =>
      cases cs with
      | nil => simp at hlen
      | cons c cs =>
        have hlen1 : n ≤ cs.length := by simpa using hlen
        simp only [row_loop, List.cons_append, List.head?_cons, List.tail_cons, ih _ _ _ _ hlen1]

theorem rows_loop_append {C : Type} [DecidableEq C] (B : Nat) (iv : List Int)
    (left_x e1 e2 : List C) (hB : B ≤ left_x.length) :
    ∀ (n height : Nat) (ds : List C) (hor ov : List Int), n ≤ ds.length →
      rows_loop B iv (left_x ++ e1) n height (ds ++ e2) hor ov
        = rows_loop B iv left_x n height ds hor ov := by
  intro n
  induction n with
  | zero => intro height ds hor ov _; simp [rows_loop]
  | succ n ih =>
    intro height ds hor ov hlen
    cases ds with
    | nil => simp at hlen
    | cons c ds =>
      have hlen1 : n ≤ ds.length := by simpa using hlen
      simp only [rows_loop, List.cons_append, List.head?_cons, List.tail_cons,
        row_loop_append _ e1 B left_x _ _ _ hB, ih _ _ _ _ hlen1]

theorem compute_one_task_append {C : Type} [DecidableEq C] (B : Nat) (e : EditDistance)
    (inp out : task_info) (down left e2 e1 : List C) (y x : Int)
    (hy : y.toNat + B ≤ down.length) (hx : x.toNat + B ≤ left.length) :
    compute_one_task B e inp out (down ++ e2) (left ++ e1) y x
      = compute_one_task B e inp out down left y x := by
  have h1 : (left ++ e1).drop x.toNat = left.drop x.toNat ++ e1 :=
    List.drop_append_of_le_length (by omega)
  have h2 : (down ++ e2).drop y.toNat = down.drop y.toNat ++ e2 :=
    List.drop_append_of_le_length (by omega)
  have h3 : B ≤ (left.drop x.toNat).length := by rw [List.length_drop]; omega
  have h4 : B ≤ (down.drop y.toNat).length := by rw [List.length_drop]; omega
  simp only [compute_one_task, h1, h2, rows_loop_append B _ _ e1 e2 h3 B 0 _ _ _ h4]

theorem task_body_append {C : Type} [DecidableEq C] (B : Nat)
    (oracle : EditDistance → task_info → Int → Int → Bool) (e : EditDistance)
    (down left e2 e1 : List C) (next_level shift infinity_columns infinity_rows last_task : Int)
    (s : LoopState) (task_number : Int)
    (hy : ((next_level - 1 - task_number) * B).toNat + B ≤ down.length)
    (hx : (task_number * B).toNat + B ≤ left.length) :
    task_body B oracle e (down ++ e2) (left ++ e1) next_level shift infinity_columns
        infinity_rows last_task s task_number
      = task_body B oracle e down left next_level shift infinity_columns infinity_rows
        last_task s task_number := by
  simp only [task_body, compute_one_task_append B e _ _ down left e2 e1 _ _ hy hx]

theorem task_loop_append {C : Type} [DecidableEq C] (B : Nat)
    (oracle : EditDistance → task_info → Int → Int → Bool) (e : EditDistance)
    (down left e2 e1 : List C) (next_level shift infinity_columns infinity_rows last_task : Int)
    (Ht Wt : Int) (hdown : Ht * B ≤ down.length) (hleft : Wt * B ≤ left.length) :
    ∀ (n : Nat) (task_number : Int) (s : LoopState), 0 ≤ task_number →
      task_number + n ≤ Wt → task_number + n ≤ next_level → next_level - task_number ≤ Ht →
      task_loop B oracle e (down ++ e2) (left ++ e1) next_level shift infinity_columns
          infinity_rows last_task n task_number s
        = task_loop B oracle e down left next_level shift infinity_columns infinity_rows
          last_task n task_number s := by
  intro n
  induction n with
  | zero => intro task_number s _ _ _ _; simp [task_loop]
  | succ n ih =>
    intro task_number s h0 hW hL hH
    have hB : (0 : Int) ≤ (B : Int) := Int.ofNat_nonneg B
    have hy : ((next_level - 1 - task_number) * B).toNat + B ≤ down.length := by
      have h1 : (next_level - 1 - task_number + 1) * (B : Int) ≤ Ht * B :=
        mul_le_mul_of_nonneg_right (by omega) hB
      have h2 : 0 ≤ (next_level - 1 - task_number) * (B : Int) :=
        mul_nonneg (by push_cast at hL; omega) hB
      rw [add_mul, one_mul] at h1
      omega
    have hx : (task_number * B).toNat + B ≤ left.length := by
      have h1 : (task_number + 1) * (B : Int) ≤ Wt * B :=
        mul_le_mul_of_nonneg_right (by push_cast at hW; omega) hB
      have h2 : 0 ≤ task_number * (B : Int) := mul_nonneg h0 hB
      rw [add_mul, one_mul] at h1
      omega
    simp only [task_loop, task_body_append B oracle e down left e2 e1 _ _ _ _ _ s _ hy hx]
    exact ih _ _ (by omega) (by push_cast at hW ⊢; omega) (by push_cast at hL ⊢; omega)
      (by omega)

theorem level_body_inTable {C : Type} [DecidableEq C] (B : Nat)
    (oracle : EditDistance → task_info → Int → Int → Bool) (down left : List C)
    (Ht Wt : Int) (s : LevelState) (next_level : Int) (hs : InTable Ht Wt s) :
    InTable Ht Wt (level_body B oracle down left s next_level) := by
  obtain ⟨h1, h2, h3, h4, h5⟩ := hs
  refine ⟨h1, h2, ?_, ?_, ?_⟩
  · simp only [level_body]
    split
    · rename_i h; simp only [decide_eq_true_eq] at h; omega
    · exact h3
  · simp only [level_body]
    split <;> split <;> omega
  · simp only [level_body]
    split <;> split <;> omega

theorem level_body_append {C : Type} [DecidableEq C] (B : Nat)
    (oracle : EditDistance → task_info → Int → Int → Bool) (down left e2 e1 : List C)
    (Ht Wt : Int) (hdown : Ht * B ≤ down.length) (hleft : Wt * B ≤ left.length)
    (s : LevelState) (next_level : Int) (hs : InTable Ht Wt s) :
    level_body B oracle (down ++ e2) (left ++ e1) s next_level
      = level_body B oracle down left s next_level := by
  obtain ⟨h1, h2, h3, h4, h5⟩ := hs
  have key : ∀ (shift ic ir : Int) (ls : LoopState), 0 ≤ ic → 0 ≤ ir → 0 ≤ shift →
      next_level - Ht ≤ shift →
      task_loop B oracle s.engine (down ++ e2) (left ++ e1) next_level shift ic ir
          (min next_level Wt) (min next_level Wt - ir - (shift + ic)).toNat (shift + ic) ls
        = task_loop B oracle s.engine down left next_level shift ic ir
          (min next_level Wt) (min next_level Wt - ir - (shift + ic)).toNat (shift + ic) ls := by
    intro shift ic ir ls hic hir hsh hfold
    by_cases hn : (min next_level Wt - ir - (shift + ic)).toNat = 0
    · rw [hn]; simp [task_loop]
    · exact task_loop_append B oracle s.engine down left e2 e1 next_level shift ic ir _ Ht Wt
        hdown hleft _ _ ls (by omega) (by omega) (by omega) (by omega)
  simp only [level_body, h1, h2]
  rw [key]
  · split <;> split <;> omega
  · split <;> split <;> omega
  · split
    · rename_i h; simp only [decide_eq_true_eq] at h; omega
    · exact h3
  · split
    · omega
    · rename_i h; simp only [decide_eq_true_eq] at h; omega

theorem level_loop_append {C : Type} [DecidableEq C] (B : Nat)
    (oracle : EditDistance → task_info → Int → Int → Bool) (down left e2 e1 : List C)
    (Ht Wt : Int) (hdown : Ht * B ≤ down.length) (hleft : Wt * B ≤ left.length) :
    ∀ (n : Nat) (next_level : Int) (s : LevelState), InTable Ht Wt s →
      level_loop B oracle (down ++ e2) (left ++ e1) n next_level s
        = level_loop B oracle down left n next_level s := by
  intro n
  induction n with
  | zero => intro next_level s _; simp [level_loop]
  | succ n ih =>
    intro next_level s hs
    simp only [level_loop, level_body_append B oracle down left e2 e1 Ht Wt hdown hleft s _ hs]
    exact ih _ _ (level_body_inTable B oracle down left Ht Wt s next_level hs)

theorem init_scalars (B T : Nat) (e0 e : EditDistance) (len1 len2 : Nat)
    (h : init B T e0 len1 len2 = some e) :
    min len1 len2 % B = 0 ∧ max len1 len2 % B = 0 ∧
    e.swap_strings = (decide (len2 < len1) || e0.swap_strings) ∧
    e.same_length_strings = decide (len1 = len2) ∧
    e.number_of_levels = ((min len1 len2 / B + max len1 len2 / B : Nat) : Int) - 1 ∧
    e.worst_outcome_cached = (max len1 len2 : Nat) ∧
    e.length_in_chars = (max len1 len2 : Nat) ∧
    e.height_in_chars = (min len1 len2 : Nat) ∧
    e.height_in_tasks = (min len1 len2 / B : Nat) ∧
    e.length_in_tasks = (max len1 len2 / B : Nat) := by
  unfold init at h
  by_cases hlt : len2 < len1
  · have hmin : min len1 len2 = len2 := by omega
    have hmax : max len1 len2 = len1 := by omega
    rw [hmin, hmax]
    simp only [hlt, decide_True, if_true] at h
    split at h
    · simp at h
    · rename_i hmod
      simp only [Option.some.injEq] at h
      subst h
      exact ⟨by omega, by omega, by simp [hlt], rfl, rfl, rfl, rfl, rfl, rfl, rfl⟩
  · have hmin : min len1 len2 = len1 := by omega
    have hmax : max len1 len2 = len2 := by omega
    rw [hmin, hmax]
    simp only [hlt, decide_False, if_false, Bool.false_eq_true] at h
    split at h
    · simp at h
    · rename_i hmod
      simp only [Option.some.injEq] at h
      subst h
      refine ⟨by omega, by omega, by simp [hlt], ?_, rfl, rfl, rfl, rfl, rfl, rfl⟩
      simp only [decide_eq_decide]; omega

/-- C6 (amended). `compute` never looks at the lengths of its arguments: after
`init(|a|, |b|)` on a fresh engine, a call with the longer sequences `a ++ a'` and
`b ++ b'` runs the scheduler exactly as the call with `a` and `b` does: same returned
value, same final engine state, same evaluated tiles. -/
theorem compute_ignores_excess {C : Type} [DecidableEq C] (B T : Nat) (a b a' b' : List C)
    (e : EditDistance) (hinit : init B T fresh a.length b.length = some e) :
    (compute B e (a ++ a') (b ++ b')).value = (compute B e a b).value ∧
    (compute B e (a ++ a') (b ++ b')).engine = (compute B e a b).engine ∧
    (compute B e (a ++ a') (b ++ b')).evaluated = (compute B e a b).evaluated := by
  obtain ⟨hm1, hm2, hsw, -, -, -, -, -, hHt, hWt⟩ := init_scalars B T fresh e _ _ hinit
  have hdiv1 : min a.length b.length / B * B = min a.length b.length :=
    Nat.div_mul_cancel (Nat.dvd_of_mod_eq_zero hm1)
  have hdiv2 : max a.length b.length / B * B = max a.length b.length :=
    Nat.div_mul_cancel (Nat.dvd_of_mod_eq_zero hm2)
  have h0 : InTable e.height_in_tasks e.length_in_tasks ⟨e, 0, 0, 0, false, false, []⟩ :=
    ⟨rfl, rfl, le_refl _, le_refl _, le_refl _⟩
  by_cases hlt : b.length < a.length
  · have hs : e.swap_strings = true := by simp [hsw, hlt]
    have hdown : e.height_in_tasks * B ≤ (b.length : Int) := by
      rw [hHt]; exact_mod_cast (by rw [hdiv1]; omega : min a.length b.length / B * B ≤ b.length)
    have hleft : e.length_in_tasks * B ≤ (a.length : Int) := by
      rw [hWt]; exact_mod_cast (by rw [hdiv2]; omega : max a.length b.length / B * B ≤ a.length)
    have key := level_loop_append B (all_too_big B) b a b' a' _ _ hdown hleft
      e.number_of_levels.toNat 1 _ h0
    simp only [compute, compute_with, hs, if_true, key, and_self]
  · have hs : e.swap_strings = false := by simp [hsw, hlt, fresh]
    have hdown : e.height_in_tasks * B ≤ (a.length : Int) := by
      rw [hHt]; exact_mod_cast (by rw [hdiv1]; omega : min a.length b.length / B * B ≤ a.length)
    have hleft : e.length_in_tasks * B ≤ (b.length : Int) := by
      rw [hWt]; exact_mod_cast (by rw [hdiv2]; omega : max a.length b.length / B * B ≤ b.length)
    have key := level_loop_append B (all_too_big B) a b a' b' _ _ hdown hleft
      e.number_of_levels.toNat 1 _ h0
    simp only [compute, compute_with, hs, Bool.false_eq_true, if_false, key, and_self]

/-- C6 (witness). The engine initialised for two sequences of length `1` with tile size
`1` treats `[0, 5]`, `[1, 7]` as it treats `[0]`, `[1]`. -/
theorem compute_ignores_excess_witness :
    (compute 1 (Option.get (init 1 1 fresh 1 1) rfl) ([0] ++ [5]) ([1] ++ [7])).value
      = (compute 1 (Option.get (init 1 1 fresh 1 1) rfl) [0] [1]).value :=
  (compute_ignores_excess 1 1 [0] [1] [5] [7] _ (by simp)).1

/-! ## `compute(a, a)` returns `0` -/

/-! ## A sequence against itself -/

theorem cell_ok_mono {W W1 i j v : Int} (hW : W1 ≤ W) (h : cell_ok W i j v) :
    cell_ok W1 i j v := by
  unfold cell_ok at *
  omega

theorem head_drop_self {C : Type} (a : List C) (i : Nat) : (a.drop i).head? = a[i]? := by
  simp [List.head?_drop]

theorem row_loop_length {C : Type} [DecidableEq C] (d : Option C) :
    ∀ (hs : List Int) (n : Nat) (cs : List C) (diagonal prev : Int),
      (row_loop d n cs diagonal prev hs).length = hs.length := by
  intro hs
  induction hs with
  | nil => intro n cs diagonal prev; cases n <;> simp [row_loop]
  | cons h hs ih =>
    intro n cs diagonal prev
    cases n with
    | zero => simp [row_loop]
    | succ n =>
      simp only [row_loop]
      split <;> simp [ih]

/-- One row of the kernel keeps the cells admissible: from the row `i` (cells `diagonal`
at `(i, j)` and `hs` from `(i, j + 1)` on) and the cell `prev` at `(i + 1, j)` the loop
produces admissible values for the cells of row `i + 1` from `(i + 1, j + 1)` on. -/
theorem row_loop_ok {C : Type} [DecidableEq C] (a : List C) (W : Int) (i : Nat)
    (d : Option C) (hdi : d = (a.drop i).head?) :
    ∀ (hs : List Int) (j : Nat) (diagonal prev : Int),
      cell_ok W i j diagonal → cell_ok W (i + 1) j prev →
      (∀ k : Nat, k < hs.length → cell_ok W i (j + 1 + k) (hs.getD k 0)) →
      ∀ k : Nat, k < hs.length →
        cell_ok W (i + 1) (j + 1 + k)
          ((row_loop d hs.length (a.drop j) diagonal prev hs).getD k 0) := by
  intro hs
  induction hs with
  | nil => intro j diagonal prev _ _ _ k hk; simp at hk
  | cons h hs ih =>
    intro j diagonal prev hd hp hh k hk
    have hh0 : cell_ok W i (j + 1) h := by
      have := hh 0 (by simp)
      simpa using this
    have hrest : ∀ k : Nat, k < hs.length → cell_ok W i ((j + 1 : Nat) + 1 + k) (hs.getD k 0) := by
      intro k hk
      have := hh (k + 1) (by simp; omega)
      simp only [List.getD_cons_succ] at this
      have e : ((j : Int) + 1 + ((k + 1 : Nat) : Int)) = (((j + 1 : Nat) : Int) + 1 + k) := by
        push_cast; ring
      rw [e] at this
      exact this
    have htail : List.tail (List.drop j a) = List.drop (j + 1) a := by
      simp [List.tail_drop]
    simp only [List.length_cons, row_loop, htail]
    by_cases hm : d = (a.drop j).head?
    · rw [if_pos hm]
      have hnew : cell_ok W (i + 1) (j + 1) diagonal := by
        unfold cell_ok at *
        omega
      cases k with
      | zero => simpa using hnew
      | succ k =>
        have hk1 : k < hs.length := by simpa using hk
        have := ih (j + 1) h diagonal hh0 (by push_cast; exact hnew) hrest k hk1
        simp only [List.getD_cons_succ]
        have e : ((j : Int) + 1 + ((k + 1 : Nat) : Int)) = (((j + 1 : Nat) : Int) + 1 + k) := by
          push_cast; ring
        rw [e]
        exact this
    · rw [if_neg hm]
      have hij : i ≠ j := by
        intro e; apply hm; rw [hdi, e]
      have hnew : cell_ok W (i + 1) (j + 1) (min diagonal (min prev h) + 1) := by
        unfold cell_ok at *
        omega
      cases k with
      | zero => simpa using hnew
      | succ k =>
        have hk1 : k < hs.length := by simpa using hk
        have := ih (j + 1) h (min diagonal (min prev h) + 1) hh0 (by push_cast; exact hnew)
          hrest k hk1
        simp only [List.getD_cons_succ]
        have e : ((j : Int) + 1 + ((k + 1 : Nat) : Int)) = (((j + 1 : Nat) : Int) + 1 + k) := by
          push_cast; ring
        rw [e]
        exact this

theorem col_ok_mono {B : Nat} {W W1 y x : Int} {v : List Int} (hW : W1 ≤ W)
    (h : col_ok B W y x v) : col_ok B W1 y x v :=
  ⟨h.1, fun k hk => cell_ok_mono hW (h.2 k hk)⟩

theorem row_ok_mono {B : Nat} {W W1 y x : Int} {v : List Int} (hW : W1 ≤ W)
    (h : row_ok B W y x v) : row_ok B W1 y x v :=
  ⟨h.1, fun k hk => cell_ok_mono hW (h.2 k hk)⟩

theorem rows_loop_ok {C : Type} [DecidableEq C] (a : List C) (B : Nat) (W : Int) (y0 x0 : Nat)
    (iv : List Int) (hiv : col_ok B W y0 x0 iv) :
    ∀ (n height : Nat) (hor ov : List Int), n + height = B →
      hor.length = B + 1 →
      (∀ k : Nat, 1 ≤ k → k ≤ B → cell_ok W (y0 + height) (x0 + k) (hor.getD k 0)) →
      ov.length = B + 1 →
      (∀ k : Nat, k ≤ height → cell_ok W (y0 + k) (x0 + B) (ov.getD k 0)) →
      ((rows_loop B iv (a.drop x0) n height (a.drop (y0 + height)) hor ov).1.length = B + 1 ∧
        (∀ k : Nat, 1 ≤ k → k ≤ B → cell_ok W (y0 + B) (x0 + k)
          ((rows_loop B iv (a.drop x0) n height (a.drop (y0 + height)) hor ov).1.getD k 0))) ∧
      ((rows_loop B iv (a.drop x0) n height (a.drop (y0 + height)) hor ov).2.length = B + 1 ∧
        (∀ k : Nat, k ≤ B → cell_ok W (y0 + k) (x0 + B)
          ((rows_loop B iv (a.drop x0) n height (a.drop (y0 + height)) hor ov).2.getD k 0))) := by
  intro n
  induction n with
  | zero =>
    intro height hor ov hn hl hh ol oh
    have : height = B := by omega
    subst this
    simp only [rows_loop]
    exact ⟨⟨hl, hh⟩, ol, oh⟩
  | succ n ih =>
    intro height hor ov hn hl hh ol oh
    have htl : hor.tail.length = B := by simp [hl]
    have hdiag : cell_ok W ((y0 + height : Nat) : Int) (x0 : Nat) (iv.getD height 0) := by
      have := hiv.2 height (by omega)
      push_cast; exact this
    have hfirst : cell_ok W (((y0 + height : Nat) : Int) + 1) (x0 : Nat)
        (iv.getD (height + 1) 0) := by
      have := hiv.2 (height + 1) (by omega)
      push_cast at this ⊢
      have e : (y0 : Int) + height + 1 = y0 + (height + 1) := by ring
      rw [e]; exact this
    have hcells : ∀ k : Nat, k < hor.tail.length →
        cell_ok W ((y0 + height : Nat) : Int) ((x0 : Nat) + 1 + k) (hor.tail.getD k 0) := by
      intro k hk
      have := hh (k + 1) (by omega) (by omega)
      have e : hor.getD (k + 1) 0 = hor.tail.getD k 0 := by
        cases hor with
        | nil => simp at hl
        | cons h0 hs => simp
      rw [e] at this
      push_cast at this ⊢
      have e2 : (x0 : Int) + (k + 1) = x0 + 1 + k := by ring
      rw [e2] at this; exact this
    have hrow := row_loop_ok a W (y0 + height) (a.drop (y0 + height)).head? rfl hor.tail x0
      (iv.getD height 0) (iv.getD (height + 1) 0) hdiag hfirst hcells
    rw [htl] at hrow
    have htail : (a.drop (y0 + height)).tail = a.drop (y0 + (height + 1)) := by
      simp [List.tail_drop, Nat.add_assoc]
    simp only [rows_loop, htail]
    apply ih (height + 1)
    · omega
    · simp [row_loop_length, htl]
    · intro k hk1 hkB
      obtain ⟨k1, rfl⟩ : ∃ k1, k = k1 + 1 := ⟨k - 1, by omega⟩
      have := hrow k1 (by omega)
      simp only [List.getD_cons_succ]
      push_cast at this ⊢
      have e1 : (y0 : Int) + (height + 1) = y0 + height + 1 := by ring
      have e2 : (x0 : Int) + (k1 + 1) = x0 + 1 + k1 := by ring
      rw [e1, e2]; exact this
    · simp [ol]
    · intro k hk
      by_cases hk1 : k = height + 1
      · subst hk1
        rw [List.getD_eq_getElem _ _ (by simp [ol]; omega)]
        simp only [List.getElem_set_self]
        obtain ⟨b1, hb1⟩ : ∃ b1, B = b1 + 1 := ⟨B - 1, by omega⟩
        have := hrow b1 (by omega)
        rw [hb1]
        simp only [List.getD_cons_succ]
        rw [← hb1]
        push_cast at this ⊢
        have e1 : (y0 : Int) + (height + 1) = y0 + height + 1 := by ring
        have e2 : (x0 : Int) + B = x0 + 1 + b1 := by rw [hb1]; push_cast; ring
        rw [e1, e2]; exact this
      · have hk2 : k ≤ height := by omega
        have := oh k hk2
        rw [List.getD_eq_getElem _ _ (by simp [ol]; omega)]
        rw [List.getElem_set_ne (by omega)]
        rw [List.getD_eq_getElem _ _ (by omega)] at this
        exact this

theorem min_loop_le_init (a : Int) (v : List Int) :
    ∀ (n i : Nat) (m : Int), min_loop a v n i m ≤ m := by
  intro n
  induction n with
  | zero => intro i m; simp [min_loop]
  | succ n ih =>
    intro i m
    simp only [min_loop]
    exact le_trans (ih _ _) (min_le_left _ _)

theorem min_loop_le_elem (a : Int) (v : List Int) :
    ∀ (n i : Nat) (m : Int) (k : Nat), i ≤ k → k < i + n →
      min_loop a v n i m ≤ a + v.getD k 0 := by
  intro n
  induction n with
  | zero => intro i m k h1 h2; omega
  | succ n ih =>
    intro i m k h1 h2
    simp only [min_loop]
    by_cases hk : k = i
    · subst hk
      exact le_trans (min_loop_le_init _ _ _ _ _) (min_le_right _ _)
    · exact ih _ _ k (by omega) (by omega)

theorem le_min_loop (a : Int) (v : List Int) (c : Int) :
    ∀ (n i : Nat) (m : Int), c ≤ m → (∀ k : Nat, i ≤ k → k < i + n → c ≤ a + v.getD k 0) →
      c ≤ min_loop a v n i m := by
  intro n
  induction n with
  | zero => intro i m hm _; simpa [min_loop] using hm
  | succ n ih =>
    intro i m hm hall
    simp only [min_loop]
    apply ih
    · exact le_min hm (hall i (le_refl _) (by omega))
    · intro k h1 h2
      exact hall k (by omega) (by omega)

/-- The tile kernel on a sequence against itself: admissible left and top edges give
admissible bottom and right edges. -/
theorem compute_one_task_ok {C : Type} [DecidableEq C] (a : List C) (B : Nat) (hB : 1 ≤ B)
    (W : Int) (e : EditDistance) (inp out : task_info) (y0 x0 : Nat)
    (hv : col_ok B W y0 x0 inp.vertical) (hh : row_ok B W y0 x0 inp.horizontal)
    (ho : out.vertical.length = B + 1) :
    row_ok B W (y0 + B) x0 (compute_one_task B e inp out a a y0 x0).2.1.horizontal ∧
    col_ok B W y0 (x0 + B) (compute_one_task B e inp out a a y0 x0).2.1.vertical := by
  have hov : ∀ k : Nat, k ≤ 0 → cell_ok W (y0 + k) (x0 + B)
      ((out.vertical.set 0 (inp.horizontal.getD B 0)).getD k 0) := by
    intro k hk
    have hk0 : k = 0 := by omega
    subst hk0
    rw [List.getD_eq_getElem _ _ (by simp [ho])]
    simp only [List.getElem_set_self]
    have := hh.2 B (le_refl _)
    simpa using this
  have hhor : ∀ k : Nat, 1 ≤ k → k ≤ B →
      cell_ok W ((y0 : Int) + (0 : Nat)) (x0 + k) (inp.horizontal.getD k 0) := by
    intro k _ hk
    simpa using hh.2 k hk
  have key := rows_loop_ok a B W y0 x0 inp.vertical hv B 0 inp.horizontal
    (out.vertical.set 0 (inp.horizontal.getD B 0)) (by omega) hh.1 hhor (by simp [ho]) hov
  simp only [Nat.add_zero] at key
  obtain ⟨⟨k1, k2⟩, k3, k4⟩ := key
  simp only [compute_one_task, Int.toNat_ofNat]
  have hlen : (List.set (rows_loop B inp.vertical (List.drop x0 a) B 0 (List.drop y0 a)
      inp.horizontal (out.vertical.set 0 (inp.horizontal.getD B 0))).1 0
      (inp.vertical.getD B 0)).length = B + 1 := by
    rw [List.length_set]; exact k1
  refine ⟨⟨hlen, ?_⟩, k3, k4⟩
  intro k hk
  by_cases hk0 : k = 0
  · subst hk0
    rw [List.getD_eq_getElem _ _ (by omega)]
    simp only [List.getElem_set_self]
    have := hv.2 B (le_refl _)
    simpa using this
  · rw [List.getD_eq_getElem _ _ (by omega)]
    rw [List.getElem_set_ne (by omega)]
    have := k2 k (by omega) hk
    rw [List.getD_eq_getElem _ _ (by omega)] at this
    exact this

/-! ### Vectors of carry records -/

theorem length_set_vertical (l : List task_info) (i : Nat) (v : List Int) :
    (set_vertical l i v).length = l.length := by
  simp [set_vertical]

theorem length_set_horizontal (l : List task_info) (i : Nat) (h : List Int) :
    (set_horizontal l i h).length = l.length := by
  simp [set_horizontal]

theorem at_index_set_self (l : List task_info) (i : Nat) (t : task_info) (h : i < l.length) :
    at_index (l.set i t) i = t := by
  simp [at_index, List.getD_eq_getElem?_getD, h]

theorem at_index_set_ne (l : List task_info) (i j : Nat) (t : task_info) (h : i ≠ j) :
    at_index (l.set i t) j = at_index l j := by
  simp [at_index, List.getD_eq_getElem?_getD, List.getElem?_set_ne h]

theorem at_index_set_vertical_self (l : List task_info) (i : Nat) (v : List Int)
    (h : i < l.length) :
    at_index (set_vertical l i v) i = ⟨v, (at_index l i).horizontal⟩ := by
  unfold set_vertical; exact at_index_set_self _ _ _ h

theorem at_index_set_vertical_ne (l : List task_info) (i j : Nat) (v : List Int) (h : i ≠ j) :
    at_index (set_vertical l i v) j = at_index l j := by
  unfold set_vertical; exact at_index_set_ne _ _ _ _ h

theorem at_index_set_horizontal_self (l : List task_info) (i : Nat) (v : List Int)
    (h : i < l.length) :
    at_index (set_horizontal l i v) i = ⟨(at_index l i).vertical, v⟩ := by
  unfold set_horizontal; exact at_index_set_self _ _ _ h

theorem at_index_set_horizontal_ne (l : List task_info) (i j : Nat) (v : List Int)
    (h : i ≠ j) :
    at_index (set_horizontal l i v) j = at_index l j := by
  unfold set_horizontal; exact at_index_set_ne _ _ _ _ h

theorem sized_set (B : Nat) (l : List task_info) (i : Nat) (t : task_info) (hl : sized B l)
    (h1 : t.vertical.length = B + 1) (h2 : t.horizontal.length = B + 1) :
    sized B (l.set i t) := by
  intro j hj
  rw [List.length_set] at hj
  by_cases hij : i = j
  · subst hij; rw [at_index_set_self _ _ _ hj]; exact ⟨h1, h2⟩
  · rw [at_index_set_ne _ _ _ _ hij]; exact hl j hj

theorem sized_set_vertical (B : Nat) (l : List task_info) (i : Nat) (v : List Int)
    (hl : sized B l) (h1 : v.length = B + 1) : sized B (set_vertical l i v) := by
  intro j hj
  rw [length_set_vertical] at hj
  by_cases hij : i = j
  · subst hij; rw [at_index_set_vertical_self _ _ _ hj]; exact ⟨h1, (hl i hj).2⟩
  · rw [at_index_set_vertical_ne _ _ _ _ hij]; exact hl j hj

theorem sized_set_horizontal (B : Nat) (l : List task_info) (i : Nat) (v : List Int)
    (hl : sized B l) (h1 : v.length = B + 1) : sized B (set_horizontal l i v) := by
  intro j hj
  rw [length_set_horizontal] at hj
  by_cases hij : i = j
  · subst hij; rw [at_index_set_horizontal_self _ _ _ hj]; exact ⟨(hl i hj).1, h1⟩
  · rw [at_index_set_horizontal_ne _ _ _ _ hij]; exact hl j hj

/-! ### The seeding loops -/

theorem foldl_set_range (f : Nat → Int) (v : List Int) :
    ∀ n : Nat, n ≤ v.length →
      ((List.range n).foldl (fun w i => w.set i (f i)) v).length = v.length ∧
      ∀ k : Nat, k < v.length →
        ((List.range n).foldl (fun w i => w.set i (f i)) v).getD k 0
          = if k < n then f k else v.getD k 0 := by
  intro n
  induction n with
  | zero => intro _; simp
  | succ n ih =>
    intro hn
    obtain ⟨h1, h2⟩ := ih (by omega)
    rw [List.range_succ, List.foldl_append]
    simp only [List.foldl_cons, List.foldl_nil]
    refine ⟨by simp [h1], ?_⟩
    intro k hk
    by_cases hkn : k = n
    · subst hkn
      rw [List.getD_eq_getElem _ _ (by simp [h1]; omega)]
      simp
    · rw [List.getD_eq_getElem _ _ (by simp [h1]; omega)]
      rw [List.getElem_set_ne (by omega)]
      have := h2 k hk
      rw [List.getD_eq_getElem _ _ (by omega)] at this
      rw [this]
      by_cases hlt : k < n
      · simp [hlt, show k < n + 1 by omega]
      · simp [hlt, show ¬ k < n + 1 by omega]

theorem fill_infinity_spec (B : Nat) (v : List Int) (hv : v.length = B + 1) :
    (fill_infinity B v).length = B + 1 ∧
      ∀ k : Nat, k ≤ B → (fill_infinity B v).getD k 0 = infinity := by
  obtain ⟨h1, h2⟩ := foldl_set_range (fun _ => infinity) v (B + 1) (by omega)
  refine ⟨by unfold fill_infinity; rw [h1, hv], ?_⟩
  intro k hk
  unfold fill_infinity
  rw [h2 k (by omega)]
  simp [show k < B + 1 by omega]

theorem seed_spec (B : Nat) (a : Int) (v : List Int) (hv : v.length = B + 1) :
    (seed B a v).length = B + 1 ∧
      ∀ k : Nat, k ≤ B → (seed B a v).getD k 0 = a + k := by
  obtain ⟨h1, h2⟩ := foldl_set_range (fun i => a + (i : Int)) v (B + 1) (by omega)
  refine ⟨by unfold seed; rw [h1, hv], ?_⟩
  intro k hk
  unfold seed
  rw [h2 k (by omega)]
  simp [show k < B + 1 by omega]

/-! ### The oracle -/

theorem all_too_big_loop_true (e : EditDistance) (inp : task_info) (y x : Int)
    (hs : e.same_length_strings = true) :
    ∀ (n i : Nat), all_too_big_loop e inp y x n i = true →
      ∀ k : Nat, i ≤ k → k < i + n →
        e.worst_outcome_cached < |x + k - y| + inp.horizontal.getD k 0 ∧
        e.worst_outcome_cached < |x - y - k| + inp.vertical.getD k 0 := by
  intro n
  induction n with
  | zero => intro i _ k h1 h2; omega
  | succ n ih =>
    intro i h k h1 h2
    simp only [all_too_big_loop, hs, if_true, worst_outcome, Int.toNat_ofNat] at h
    split at h
    · simp at h
    · rename_i hc
      by_cases hk : k = i
      · subst hk
        constructor <;> omega
      · have h' : all_too_big_loop e inp y x n ((i + 1 : Nat) : Int) = true := by
          push_cast; exact h
        exact ih (i + 1) h' k (by omega) (by omega)

theorem all_too_big_true (B : Nat) (e : EditDistance) (inp : task_info) (y x : Int)
    (hs : e.same_length_strings = true) (h : all_too_big B e inp y x = true) (k : Nat)
    (hk : k ≤ B) :
    e.worst_outcome_cached < |x + k - y| + inp.horizontal.getD k 0 ∧
    e.worst_outcome_cached < |x - y - k| + inp.vertical.getD k 0 := by
  have := all_too_big_loop_true e inp y x hs (B + 1) 0 (by simpa [all_too_big] using h) k
    (by omega) (by omega)
  exact this

theorem all_too_big_loop_false (e : EditDistance) (inp : task_info) (y x : Int)
    (hs : e.same_length_strings = true) (k : Nat)
    (hk : |x + k - y| + inp.horizontal.getD k 0 ≤ e.worst_outcome_cached ∨
      |x - y - k| + inp.vertical.getD k 0 ≤ e.worst_outcome_cached) :
    ∀ (n i : Nat), i ≤ k → k < i + n → all_too_big_loop e inp y x n i = false := by
  intro n
  induction n with
  | zero => intro i h1 h2; omega
  | succ n ih =>
    intro i h1 h2
    simp only [all_too_big_loop, hs, if_true, worst_outcome, Int.toNat_ofNat]
    split
    · rfl
    · rename_i hc
      by_cases hki : k = i
      · subst hki; exact absurd hk hc
      · have := ih (i + 1) (by omega) (by omega)
        push_cast at this; exact this

theorem all_too_big_false (B : Nat) (e : EditDistance) (inp : task_info) (y x : Int)
    (hs : e.same_length_strings = true) (k : Nat) (hkB : k ≤ B)
    (hk : |x + k - y| + inp.horizontal.getD k 0 ≤ e.worst_outcome_cached ∨
      |x - y - k| + inp.vertical.getD k 0 ≤ e.worst_outcome_cached) :
    all_too_big B e inp y x = false := by
  have := all_too_big_loop_false e inp y x hs k hk (B + 1) 0 (by omega) (by omega)
  simpa [all_too_big] using this

/-! ### Admissible vectors -/

theorem cell_ok_junk {W i j : Int} (h1 : i - j ≤ infinity) (h2 : j - i ≤ infinity)
    (h3 : W < 2 * (i - j) ∨ W < 2 * (j - i)) : cell_ok W i j infinity := by
  unfold cell_ok
  omega

theorem cell_ok_exact {W i j v : Int} (h : (v = i - j ∧ j ≤ i) ∨ (v = j - i ∧ i ≤ j)) :
    cell_ok W i j v := by
  unfold cell_ok
  omega

theorem cell_ok_nonneg {W i j v : Int} (h : cell_ok W i j v) : 0 ≤ v := by
  unfold cell_ok at h
  omega

theorem cell_ok_diag {W i v : Int} (hW : 0 ≤ W) (h : cell_ok W i i v) : v = 0 := by
  unfold cell_ok at h
  omega

theorem cell_ok_evidence {W i j v : Int} (h : cell_ok W i j v)
    (hp : W < max (i - j) (j - i) + v) : W < 2 * max (i - j) (j - i) := by
  unfold cell_ok at h
  omega

theorem row_ok_fill (B : Nat) (W y x : Int) (v : List Int) (hv : v.length = B + 1)
    (h : ∀ k : Nat, k ≤ B → cell_ok W y (x + k) infinity) :
    row_ok B W y x (fill_infinity B v) := by
  obtain ⟨h1, h2⟩ := fill_infinity_spec B v hv
  exact ⟨h1, fun k hk => by rw [h2 k hk]; exact h k hk⟩

theorem col_ok_fill (B : Nat) (W y x : Int) (v : List Int) (hv : v.length = B + 1)
    (h : ∀ k : Nat, k ≤ B → cell_ok W (y + k) x infinity) :
    col_ok B W y x (fill_infinity B v) := by
  obtain ⟨h1, h2⟩ := fill_infinity_spec B v hv
  exact ⟨h1, fun k hk => by rw [h2 k hk]; exact h k hk⟩

theorem row_ok_seed (B : Nat) (W y x a : Int) (v : List Int) (hv : v.length = B + 1)
    (h : ∀ k : Nat, k ≤ B → cell_ok W y (x + k) (a + k)) :
    row_ok B W y x (seed B a v) := by
  obtain ⟨h1, h2⟩ := seed_spec B a v hv
  exact ⟨h1, fun k hk => by rw [h2 k hk]; exact h k hk⟩

theorem col_ok_seed (B : Nat) (W y x a : Int) (v : List Int) (hv : v.length = B + 1)
    (h : ∀ k : Nat, k ≤ B → cell_ok W (y + k) x (a + k)) :
    col_ok B W y x (seed B a v) := by
  obtain ⟨h1, h2⟩ := seed_spec B a v hv
  exact ⟨h1, fun k hk => by rw [h2 k hk]; exact h k hk⟩

/-! ### Multiples of the tile size -/

theorem tiles_le (B : Nat) {p q : Int} (h : p ≤ q) : p * (B : Int) ≤ q * B :=
  mul_le_mul_of_nonneg_right h (Int.ofNat_nonneg B)

theorem tiles_lt (B : Nat) {p q : Int} (h : p < q) : p * (B : Int) + B ≤ q * B := by
  have := tiles_le B (show p + 1 ≤ q by omega)
  rw [add_mul, one_mul] at this
  exact this

theorem tiles_lt_cancel (B : Nat) {p q : Int} (h : p * (B : Int) < q * B) : p < q := by
  by_contra hc
  have := tiles_le B (show q ≤ p by omega)
  omega

/-! ### The tile kernel with integer origins -/

theorem compute_one_task_ok_int {C : Type} [DecidableEq C] (a : List C) (B : Nat) (hB : 1 ≤ B)
    (W : Int) (e : EditDistance) (inp out : task_info) (y x : Int) (hy : 0 ≤ y) (hx : 0 ≤ x)
    (hv : col_ok B W y x inp.vertical) (hh : row_ok B W y x inp.horizontal)
    (ho : out.vertical.length = B + 1) :
    row_ok B W (y + B) x (compute_one_task B e inp out a a y x).2.1.horizontal ∧
    col_ok B W y (x + B) (compute_one_task B e inp out a a y x).2.1.vertical := by
  obtain ⟨y0, rfl⟩ := Int.eq_ofNat_of_zero_le hy
  obtain ⟨x0, rfl⟩ := Int.eq_ofNat_of_zero_le hx
  exact compute_one_task_ok a B hB W e inp out y0 x0 hv hh ho

theorem compute_one_task_in {C : Type} [DecidableEq C] (B : Nat) (e : EditDistance)
    (inp out : task_info) (down left : List C) (y x : Int) :
    (compute_one_task B e inp out down left y x).1 = ⟨inp.vertical, out.horizontal⟩ := rfl

theorem compute_one_task_ret {C : Type} [DecidableEq C] (B : Nat) (e : EditDistance)
    (inp out : task_info) (down left : List C) (y x : Int) :
    (compute_one_task B e inp out down left y x).2.2 =
      if e.length_in_chars - x > e.height_in_chars - y then
        min_loop (e.length_in_chars - x - B)
          (compute_one_task B e inp out down left y x).2.1.vertical (B + 1) 0 infinity
      else if e.length_in_chars - x < e.height_in_chars - y then
        min_loop (e.height_in_chars - y - B)
          (compute_one_task B e inp out down left y x).2.1.horizontal (B + 1) 0 infinity
      else (compute_one_task B e inp out down left y x).2.1.horizontal.getD B 0
        + e.length_in_chars - x - B := rfl

/-- A lower bound of the value returned by the kernel, from admissible output edges. -/
theorem ret_lower {C : Type} [DecidableEq C] (B : Nat) (e : EditDistance) (N W : Int)
    (inp out : task_info) (a : List C) (y x c0 : Int)
    (hlen : e.length_in_chars = N) (hhgt : e.height_in_chars = N)
    (hoh : row_ok B W (y + B) x (compute_one_task B e inp out a a y x).2.1.horizontal)
    (hov : col_ok B W y (x + B) (compute_one_task B e inp out a a y x).2.1.vertical)
    (hc : c0 ≤ infinity) (h1 : x < y → c0 ≤ N - x - B) (h2 : y < x → c0 ≤ N - y - B)
    (h3 : y = x → c0 ≤ N - x - B) :
    c0 ≤ (compute_one_task B e inp out a a y x).2.2 := by
  rw [compute_one_task_ret, hlen, hhgt]
  split
  · rename_i h
    apply le_min_loop _ _ _ _ _ _ hc
    intro k _ hk
    have := cell_ok_nonneg (hov.2 k (by omega))
    have := h1 (by omega)
    omega
  · split
    · rename_i h
      apply le_min_loop _ _ _ _ _ _ hc
      intro k _ hk
      have := cell_ok_nonneg (hoh.2 k (by omega))
      have := h2 (by omega)
      omega
    · have := cell_ok_nonneg (hoh.2 B (le_refl _))
      have := h3 (by omega)
      omega

/-- The value returned by the kernel for a tile on the diagonal or just below it. -/
theorem ret_upper {C : Type} [DecidableEq C] (B : Nat) (e : EditDistance) (N W : Int)
    (hW : 0 ≤ W) (inp out : task_info) (a : List C) (y x : Int)
    (hlen : e.length_in_chars = N) (hhgt : e.height_in_chars = N)
    (hoh : row_ok B W (y + B) x (compute_one_task B e inp out a a y x).2.1.horizontal)
    (hov : col_ok B W y (x + B) (compute_one_task B e inp out a a y x).2.1.vertical)
    (hyx : y = x ∨ y = x + B) :
    (compute_one_task B e inp out a a y x).2.2 ≤ N - x - B := by
  rw [compute_one_task_ret, hlen, hhgt]
  rcases hyx with h | h
  · subst h
    have h0 := hoh.2 B (le_refl _)
    have := cell_ok_diag hW h0
    rw [if_neg (by omega), if_neg (by omega), this]
    omega
  · subst h
    have h0 := hov.2 0 (Nat.zero_le _)
    simp only [Nat.cast_zero, add_zero] at h0
    have hz := cell_ok_diag hW h0
    by_cases hB : (B : Int) = 0
    · rw [if_neg (by omega), if_neg (by omega)]
      have h1 := hoh.2 B (le_refl _)
      have e1 : x + (B : Int) + B = x + B := by omega
      rw [e1] at h1
      have := cell_ok_diag hW h1
      omega
    · rw [if_pos (by omega)]
      have := min_loop_le_elem (N - x - B)
        (compute_one_task B e inp out a a (x + B) x).2.1.vertical (B + 1) 0 infinity 0
        (le_refl _) (by omega)
      rw [hz] at this
      omega

/-! ### Edges of tiles, in tile units

The tile in tile row `r` and tile column `c` has origin `(r * B, c * B)`; the estimate is
`w * B`. -/

theorem junk_row (B n : Nat) (hB1 : 1 ≤ B) (hINF : (n : Int) * B ≤ infinity) (w r c : Int) (v : List Int)
    (hv : v.length = B + 1) (h0 : 0 ≤ r) (h1 : r ≤ n) (h2 : 0 ≤ c) (h3 : c + 1 ≤ n)
    (hfar : w < 2 * (r - c - 1) ∨ w < 2 * (c - r)) :
    row_ok B (w * B) (r * B) (c * B) (fill_infinity B v) := by
  apply row_ok_fill B _ _ _ v hv
  intro k hk
  have hk1 : (k : Int) ≤ B := by exact_mod_cast hk
  have hk0 : (0 : Int) ≤ k := Int.ofNat_nonneg k
  have hB2 : (1 : Int) ≤ B := by exact_mod_cast hB1
  have e1 := tiles_le B h0
  have e2 := tiles_le B h1
  have e3 := tiles_le B h2
  have e4 := tiles_le B h3
  rw [add_mul, one_mul] at e4
  rw [zero_mul] at e1 e3
  apply cell_ok_junk
  · linarith
  · linarith
  · rcases hfar with h | h
    · left
      have := tiles_lt B h
      have e5 : 2 * (r - c - 1) * (B : Int) = 2 * (r * B - (c * B + B)) := by ring
      rw [e5] at this
      linarith
    · right
      have := tiles_lt B h
      have e5 : 2 * (c - r) * (B : Int) = 2 * (c * B - r * B) := by ring
      rw [e5] at this
      have hB : (0 : Int) ≤ B := Int.ofNat_nonneg B
      linarith

theorem junk_col (B n : Nat) (hB1 : 1 ≤ B) (hINF : (n : Int) * B ≤ infinity) (w r c : Int) (v : List Int)
    (hv : v.length = B + 1) (h0 : 0 ≤ r) (h1 : r + 1 ≤ n) (h2 : 0 ≤ c) (h3 : c ≤ n)
    (hfar : w < 2 * (r - c) ∨ w < 2 * (c - r - 1)) :
    col_ok B (w * B) (r * B) (c * B) (fill_infinity B v) := by
  apply col_ok_fill B _ _ _ v hv
  intro k hk
  have hk1 : (k : Int) ≤ B := by exact_mod_cast hk
  have hk0 : (0 : Int) ≤ k := Int.ofNat_nonneg k
  have hB2 : (1 : Int) ≤ B := by exact_mod_cast hB1
  have e1 := tiles_le B h0
  have e2 := tiles_le B h1
  have e3 := tiles_le B h2
  have e4 := tiles_le B h3
  rw [add_mul, one_mul] at e2
  rw [zero_mul] at e1 e3
  apply cell_ok_junk
  · linarith
  · linarith
  · rcases hfar with h | h
    · left
      have := tiles_lt B h
      have e5 : 2 * (r - c) * (B : Int) = 2 * (r * B - c * B) := by ring
      rw [e5] at this
      have hB : (0 : Int) ≤ B := Int.ofNat_nonneg B
      linarith
    · right
      have := tiles_lt B h
      have e5 : 2 * (c - r - 1) * (B : Int) = 2 * (c * B - (r * B + B)) := by ring
      rw [e5] at this
      linarith

theorem seed_col (B : Nat) (W L c : Int) (v : List Int) (hv : v.length = B + 1) (hL : 0 ≤ L)
    (hc : c = 0) : col_ok B W (L * B) (c * B) (seed B (L * B) v) := by
  subst hc
  apply col_ok_seed B _ _ _ _ v hv
  intro k _
  have e1 := tiles_le B hL
  rw [zero_mul] at e1 ⊢
  have hk0 : (0 : Int) ≤ k := Int.ofNat_nonneg k
  apply cell_ok_exact
  left
  constructor <;> linarith

theorem seed_row (B : Nat) (W L r : Int) (v : List Int) (hv : v.length = B + 1) (hL : 0 ≤ L)
    (hr : r = 0) : row_ok B W (r * B) (L * B) (seed B (L * B) v) := by
  subst hr
  apply row_ok_seed B _ _ _ _ v hv
  intro k _
  have e1 := tiles_le B hL
  rw [zero_mul] at e1 ⊢
  have hk0 : (0 : Int) ≤ k := Int.ofNat_nonneg k
  apply cell_ok_exact
  right
  constructor <;> linarith

/-- The oracle keeps a tile that touches the diagonal. -/
theorem near_diagonal_kept (B : Nat) (e : EditDistance) (w r c : Int) (inp : task_info)
    (hs : e.same_length_strings = true) (he : e.worst_outcome_cached = w * B) (hw : 0 ≤ w)
    (hv : col_ok B (w * B) (r * B) (c * B) inp.vertical)
    (hh : row_ok B (w * B) (r * B) (c * B) inp.horizontal)
    (hnear : r = c ∨ r = c + 1 ∨ r + 1 = c) :
    all_too_big B e inp (r * B) (c * B) = false := by
  have hW : (0 : Int) ≤ w * B := mul_nonneg hw (Int.ofNat_nonneg B)
  rcases hnear with h | h | h
  · subst h
    apply all_too_big_false B e inp _ _ hs 0 (Nat.zero_le _)
    right
    have := hv.2 0 (Nat.zero_le _)
    simp only [Nat.cast_zero, add_zero] at this
    rw [cell_ok_diag hW this, he]
    simpa using hW
  · subst h
    apply all_too_big_false B e inp _ _ hs B (le_refl _)
    left
    have := hh.2 B (le_refl _)
    have e1 : (c + 1) * (B : Int) = c * B + B := by ring
    rw [e1] at this ⊢
    rw [cell_ok_diag hW this, he]
    simpa using hW
  · subst h
    apply all_too_big_false B e inp _ _ hs B (le_refl _)
    right
    have := hv.2 B (le_refl _)
    have e1 : (r + 1) * (B : Int) = r * B + B := by ring
    rw [e1] at this ⊢
    rw [cell_ok_diag hW this, he]
    simpa using hW

/-- A tile rejected by the oracle is at least two tiles away from the diagonal, and then
the estimate is below twice the distance of its nearest corner from the diagonal. -/
theorem rejected_far (B : Nat) (hB : 1 ≤ B) (e : EditDistance) (w r c : Int) (inp : task_info)
    (hs : e.same_length_strings = true) (he : e.worst_outcome_cached = w * B) (hw : 0 ≤ w)
    (hv : col_ok B (w * B) (r * B) (c * B) inp.vertical)
    (hh : row_ok B (w * B) (r * B) (c * B) inp.horizontal)
    (hp : all_too_big B e inp (r * B) (c * B) = true) :
    (c + 2 ≤ r ∧ w < 2 * (r - c - 1)) ∨ (r + 2 ≤ c ∧ w < 2 * (c - r - 1)) := by
  have hnear : ¬ (r = c ∨ r = c + 1 ∨ r + 1 = c) := by
    intro h
    rw [near_diagonal_kept B e w r c inp hs he hw hv hh h] at hp
    exact Bool.false_ne_true hp
  have hB0 : (1 : Int) ≤ B := by exact_mod_cast hB
  rcases lt_or_ge c r with hlt | hge
  · left
    refine ⟨by omega, ?_⟩
    have h1 := (all_too_big_true B e inp _ _ hs hp B (le_refl _)).1
    have h2 := cell_ok_evidence (hh.2 B (le_refl _)) (by
      rw [he] at h1
      simp only [abs_eq_max_neg] at h1
      have e1 : -(c * (B : Int) + B - r * B) = r * B - (c * B + B) := by ring
      rw [e1, max_comm] at h1
      exact h1)
    have e2 := tiles_le B (show c + 1 ≤ r by omega)
    rw [add_mul, one_mul] at e2
    rw [max_eq_left (by linarith)] at h2
    apply tiles_lt_cancel B
    have e3 : 2 * (r - c - 1) * (B : Int) = 2 * (r * B - (c * B + B)) := by ring
    rw [e3]; exact h2
  · right
    refine ⟨by omega, ?_⟩
    have h1 := (all_too_big_true B e inp _ _ hs hp B (le_refl _)).2
    have h2 := cell_ok_evidence (hv.2 B (le_refl _)) (by
      rw [he] at h1
      simp only [abs_eq_max_neg] at h1
      have e1 : -(c * (B : Int) - r * B - B) = r * B + B - c * B := by ring
      have e0 : c * (B : Int) - r * B - B = c * B - (r * B + B) := by ring
      rw [e1, e0, max_comm] at h1
      exact h1)
    have e2 := tiles_le B (show r + 1 ≤ c by omega)
    rw [add_mul, one_mul] at e2
    rw [max_eq_right (by linarith)] at h2
    apply tiles_lt_cancel B
    have e3 : 2 * (c - r - 1) * (B : Int) = 2 * (c * B - (r * B + B)) := by ring
    rw [e3]; exact h2

theorem sized_fill_v (B : Nat) (l : List task_info) (i : Nat) (hl : sized B l)
    (hi : i < l.length) :
    sized B (set_vertical l i (fill_infinity B (at_index l i).vertical)) :=
  sized_set_vertical B l i _ hl (fill_infinity_spec B _ (hl i hi).1).1

theorem sized_fill_h (B : Nat) (l : List task_info) (i : Nat) (hl : sized B l)
    (hi : i < l.length) :
    sized B (set_horizontal l i (fill_infinity B (at_index l i).horizontal)) :=
  sized_set_horizontal B l i _ hl (fill_infinity_spec B _ (hl i hi).2).1

theorem rejected_carry_spec (B n : Nat) (nc : List task_info) (cn : Nat) (first last : Bool)
    (hlen : nc.length = n + 1) (hs : sized B nc) (hcn : cn + 1 < n + 1) :
    (rejected_carry B nc cn first last).length = n + 1 ∧
    sized B (rejected_carry B nc cn first last) ∧
    (∀ j : Nat, j ≠ cn →
      (at_index (rejected_carry B nc cn first last) j).horizontal = (at_index nc j).horizontal) ∧
    (∀ j : Nat, j ≠ cn + 1 →
      (at_index (rejected_carry B nc cn first last) j).vertical = (at_index nc j).vertical) ∧
    (∃ v : List Int, v.length = B + 1 ∧
      (at_index (rejected_carry B nc cn first last) cn).horizontal = fill_infinity B v) ∧
    (first = true ∨ last = false → ∃ v : List Int, v.length = B + 1 ∧
      (at_index (rejected_carry B nc cn first last) (cn + 1)).vertical = fill_infinity B v) := by
  have hc1 : cn + 1 < nc.length := by omega
  have hc0 : cn < nc.length := by omega
  cases first <;> cases last <;>
    simp only [rejected_carry, if_true, if_false, Bool.false_eq_true]
  · -- not first, not last
    have s2 := sized_fill_h B nc cn hs hc0
    have l2 : (set_horizontal nc cn (fill_infinity B (at_index nc cn).horizontal)).length
        = nc.length := length_set_horizontal _ _ _
    refine ⟨by rw [length_set_vertical, l2, hlen], sized_fill_v B _ _ s2 (by omega), ?_, ?_, ?_, ?_⟩
    · intro j hj
      by_cases hj1 : cn + 1 = j
      · subst hj1
        rw [at_index_set_vertical_self _ _ _ (by omega)]
        simp only []
        rw [at_index_set_horizontal_ne _ _ _ _ (by omega)]
      · rw [at_index_set_vertical_ne _ _ _ _ hj1, at_index_set_horizontal_ne _ _ _ _ (Ne.symm hj)]
    · intro j hj
      rw [at_index_set_vertical_ne _ _ _ _ (Ne.symm hj)]
      by_cases hj0 : cn = j
      · subst hj0; rw [at_index_set_horizontal_self _ _ _ hc0]
      · rw [at_index_set_horizontal_ne _ _ _ _ hj0]
    · refine ⟨(at_index nc cn).horizontal, (hs cn hc0).2, ?_⟩
      rw [at_index_set_vertical_ne _ _ _ _ (by omega), at_index_set_horizontal_self _ _ _ hc0]
    · intro _
      refine ⟨_, (s2 (cn + 1) (by omega)).1, ?_⟩
      rw [at_index_set_vertical_self _ _ _ (by omega)]
  · -- not first, last
    refine ⟨by rw [length_set_horizontal, hlen], sized_fill_h B nc cn hs hc0, ?_, ?_, ?_, ?_⟩
    · intro j hj
      rw [at_index_set_horizontal_ne _ _ _ _ (Ne.symm hj)]
    · intro j _
      by_cases hj0 : cn = j
      · subst hj0; rw [at_index_set_horizontal_self _ _ _ hc0]
      · rw [at_index_set_horizontal_ne _ _ _ _ hj0]
    · refine ⟨(at_index nc cn).horizontal, (hs cn hc0).2, ?_⟩
      rw [at_index_set_horizontal_self _ _ _ hc0]
    · intro h; simp at h
  · -- first, not last
    have s1 := sized_fill_v B nc (cn + 1) hs hc1
    have l1 : (set_vertical nc (cn + 1) (fill_infinity B (at_index nc (cn + 1)).vertical)).length
        = nc.length := length_set_vertical _ _ _
    have s2 := sized_fill_h B _ cn s1 (by omega)
    have l2 := length_set_horizontal
      (set_vertical nc (cn + 1) (fill_infinity B (at_index nc (cn + 1)).vertical)) cn
      (fill_infinity B (at_index
        (set_vertical nc (cn + 1) (fill_infinity B (at_index nc (cn + 1)).vertical)) cn).horizontal)
    refine ⟨by rw [length_set_vertical, l2, l1, hlen], sized_fill_v B _ _ s2 (by omega),
      ?_, ?_, ?_, ?_⟩
    · intro j hj
      by_cases hj1 : cn + 1 = j
      · subst hj1
        rw [at_index_set_vertical_self _ _ _ (by omega)]
        simp only []
        rw [at_index_set_horizontal_ne _ _ _ _ (by omega),
          at_index_set_vertical_self _ _ _ (by omega)]
      · rw [at_index_set_vertical_ne _ _ _ _ hj1, at_index_set_horizontal_ne _ _ _ _ (Ne.symm hj),
          at_index_set_vertical_ne _ _ _ _ hj1]
    · intro j hj
      rw [at_index_set_vertical_ne _ _ _ _ (Ne.symm hj)]
      by_cases hj0 : cn = j
      · subst hj0
        rw [at_index_set_horizontal_self _ _ _ (by omega),
          at_index_set_vertical_ne _ _ _ _ (by omega)]
      · rw [at_index_set_horizontal_ne _ _ _ _ hj0, at_index_set_vertical_ne _ _ _ _ (Ne.symm hj)]
    · refine ⟨_, (s1 cn (by omega)).2, ?_⟩
      rw [at_index_set_vertical_ne _ _ _ _ (by omega),
        at_index_set_horizontal_self _ _ _ (by omega)]
    · intro _
      refine ⟨_, (s2 (cn + 1) (by omega)).1, ?_⟩
      rw [at_index_set_vertical_self _ _ _ (by omega)]
  · -- first, last
    have s1 := sized_fill_v B nc (cn + 1) hs hc1
    have l1 : (set_vertical nc (cn + 1) (fill_infinity B (at_index nc (cn + 1)).vertical)).length
        = nc.length := length_set_vertical _ _ _
    refine ⟨by rw [length_set_horizontal, l1, hlen], sized_fill_h B _ cn s1 (by omega),
      ?_, ?_, ?_, ?_⟩
    · intro j hj
      rw [at_index_set_horizontal_ne _ _ _ _ (Ne.symm hj)]
      by_cases hj1 : cn + 1 = j
      · subst hj1; rw [at_index_set_vertical_self _ _ _ (by omega)]
      · rw [at_index_set_vertical_ne _ _ _ _ hj1]
    · intro j hj
      by_cases hj0 : cn = j
      · subst hj0
        rw [at_index_set_horizontal_self _ _ _ (by omega),
          at_index_set_vertical_ne _ _ _ _ (by omega)]
      · rw [at_index_set_horizontal_ne _ _ _ _ hj0, at_index_set_vertical_ne _ _ _ _ (Ne.symm hj)]
    · refine ⟨_, (s1 cn (by omega)).2, ?_⟩
      rw [at_index_set_horizontal_self _ _ _ (by omega)]
    · intro _
      refine ⟨_, (hs (cn + 1) hc1).1, ?_⟩
      rw [at_index_set_horizontal_ne _ _ _ _ (by omega),
        at_index_set_vertical_self _ _ _ (by omega)]

theorem evaluated_carry_spec (B n : Nat) (nc : List task_info) (cn : Nat) (oh ov : List Int)
    (a : Int) (sv sh : Nat) (hlen : nc.length = n + 1) (hs : sized B nc) (hcn : cn + 1 < n + 1)
    (hoh : oh.length = B + 1) (hov : ov.length = B + 1) :
    (evaluated_carry B nc cn oh ov a sv sh).length = n + 1 ∧
    sized B (evaluated_carry B nc cn oh ov a sv sh) ∧
    (at_index (evaluated_carry B nc cn oh ov a sv sh) cn).horizontal = oh ∧
    (at_index (evaluated_carry B nc cn oh ov a sv sh) (cn + 1)).vertical = ov ∧
    (∀ j : Nat, j ≠ cn → j ≠ cn + 1 →
      at_index (evaluated_carry B nc cn oh ov a sv sh) j = at_index nc j) ∧
    (at_index (evaluated_carry B nc cn oh ov a sv sh) cn).vertical =
      (if sv = 0 then (at_index nc cn).vertical
       else if sv = 1 then seed B a (at_index nc cn).vertical
       else fill_infinity B (at_index nc cn).vertical) ∧
    (at_index (evaluated_carry B nc cn oh ov a sv sh) (cn + 1)).horizontal =
      (if sh = 0 then (at_index nc (cn + 1)).horizontal
       else if sh = 1 then seed B a (at_index nc (cn + 1)).horizontal
       else fill_infinity B (at_index nc (cn + 1)).horizontal) := by
  have hc1 : cn + 1 < nc.length := by omega
  have hc0 : cn < nc.length := by omega
  -- the two unconditional writes
  have l1 : (set_horizontal nc cn oh).length = nc.length := length_set_horizontal _ _ _
  have s1 : sized B (set_horizontal nc cn oh) := sized_set_horizontal B nc cn oh hs hoh
  have l2 : (set_vertical (set_horizontal nc cn oh) (cn + 1) ov).length = nc.length := by
    rw [length_set_vertical, l1]
  have s2 : sized B (set_vertical (set_horizontal nc cn oh) (cn + 1) ov) :=
    sized_set_vertical B _ _ ov s1 hov
  have a2c : at_index (set_vertical (set_horizontal nc cn oh) (cn + 1) ov) cn
      = ⟨(at_index nc cn).vertical, oh⟩ := by
    rw [at_index_set_vertical_ne _ _ _ _ (by omega), at_index_set_horizontal_self _ _ _ hc0]
  have a2c1 : at_index (set_vertical (set_horizontal nc cn oh) (cn + 1) ov) (cn + 1)
      = ⟨ov, (at_index nc (cn + 1)).horizontal⟩ := by
    rw [at_index_set_vertical_self _ _ _ (by omega), at_index_set_horizontal_ne _ _ _ _ (by omega)]
  have a2j : ∀ j : Nat, j ≠ cn → j ≠ cn + 1 →
      at_index (set_vertical (set_horizontal nc cn oh) (cn + 1) ov) j = at_index nc j := by
    intro j h1 h2
    rw [at_index_set_vertical_ne _ _ _ _ (Ne.symm h2),
      at_index_set_horizontal_ne _ _ _ _ (Ne.symm h1)]
  -- the third write, on the vertical of `cn`
  obtain ⟨nc3, h3def, l3, s3, a3c, a3c1, a3j⟩ :
      ∃ nc3 : List task_info,
        nc3 = (if sv = 0 then set_vertical (set_horizontal nc cn oh) (cn + 1) ov
          else if sv = 1 then
            set_vertical (set_vertical (set_horizontal nc cn oh) (cn + 1) ov) cn
              (seed B a (at_index (set_vertical (set_horizontal nc cn oh) (cn + 1) ov) cn).vertical)
          else
            set_vertical (set_vertical (set_horizontal nc cn oh) (cn + 1) ov) cn
              (fill_infinity B
                (at_index (set_vertical (set_horizontal nc cn oh) (cn + 1) ov) cn).vertical)) ∧
        nc3.length = nc.length ∧ sized B nc3 ∧
        at_index nc3 cn = ⟨(if sv = 0 then (at_index nc cn).vertical
          else if sv = 1 then seed B a (at_index nc cn).vertical
          else fill_infinity B (at_index nc cn).vertical), oh⟩ ∧
        at_index nc3 (cn + 1) = ⟨ov, (at_index nc (cn + 1)).horizontal⟩ ∧
        (∀ j : Nat, j ≠ cn → j ≠ cn + 1 → at_index nc3 j = at_index nc j) := by
    refine ⟨_, rfl, ?_⟩
    have hvl : (at_index nc cn).vertical.length = B + 1 := (hs cn hc0).1
    by_cases h0 : sv = 0
    · simp only [h0, if_true]
      exact ⟨l2, s2, a2c, a2c1, a2j⟩
    · by_cases h1 : sv = 1
      · simp only [h1, if_true, if_false, one_ne_zero, a2c]
        refine ⟨by rw [length_set_vertical, l2],
          sized_set_vertical B _ _ _ s2 (seed_spec B a _ hvl).1, ?_, ?_, ?_⟩
        · rw [at_index_set_vertical_self _ _ _ (by omega), a2c]
        · rw [at_index_set_vertical_ne _ _ _ _ (by omega), a2c1]
        · intro j h1 h2
          rw [at_index_set_vertical_ne _ _ _ _ (Ne.symm h1), a2j j h1 h2]
      · simp only [h0, h1, if_false, a2c]
        refine ⟨by rw [length_set_vertical, l2],
          sized_set_vertical B _ _ _ s2 (fill_infinity_spec B _ hvl).1, ?_, ?_, ?_⟩
        · rw [at_index_set_vertical_self _ _ _ (by omega), a2c]
        · rw [at_index_set_vertical_ne _ _ _ _ (by omega), a2c1]
        · intro j h1 h2
          rw [at_index_set_vertical_ne _ _ _ _ (Ne.symm h1), a2j j h1 h2]
  have hhl : (at_index nc (cn + 1)).horizontal.length = B + 1 := (hs (cn + 1) hc1).2
  have hE : evaluated_carry B nc cn oh ov a sv sh =
      (if sh = 0 then nc3
       else if sh = 1 then set_horizontal nc3 (cn + 1) (seed B a (at_index nc3 (cn + 1)).horizontal)
       else set_horizontal nc3 (cn + 1) (fill_infinity B (at_index nc3 (cn + 1)).horizontal)) := by
    rw [h3def]; rfl
  rw [hE]
  by_cases h0 : sh = 0
  · simp only [h0, if_true]
    refine ⟨by omega, s3, by rw [a3c], by rw [a3c1], a3j, by rw [a3c], by rw [a3c1]⟩
  · by_cases h1 : sh = 1
    · simp only [h1, if_true, if_false, one_ne_zero, a3c1]
      refine ⟨by rw [length_set_horizontal]; omega,
        sized_set_horizontal B _ _ _ s3 (seed_spec B a _ hhl).1, ?_, ?_, ?_, ?_, ?_⟩
      · rw [at_index_set_horizontal_ne _ _ _ _ (by omega), a3c]
      · rw [at_index_set_horizontal_self _ _ _ (by omega), a3c1]
      · intro j h1 h2
        rw [at_index_set_horizontal_ne _ _ _ _ (Ne.symm h2), a3j j h1 h2]
      · rw [at_index_set_horizontal_ne _ _ _ _ (by omega), a3c]
      · rw [at_index_set_horizontal_self _ _ _ (by omega)]
    · simp only [h0, h1, if_false, a3c1]
      refine ⟨by rw [length_set_horizontal]; omega,
        sized_set_horizontal B _ _ _ s3 (fill_infinity_spec B _ hhl).1, ?_, ?_, ?_, ?_, ?_⟩
      · rw [at_index_set_horizontal_ne _ _ _ _ (by omega), a3c]
      · rw [at_index_set_horizontal_self _ _ _ (by omega), a3c1]
      · intro j h1 h2
        rw [at_index_set_horizontal_ne _ _ _ _ (Ne.symm h2), a3j j h1 h2]
      · rw [at_index_set_horizontal_ne _ _ _ _ (by omega), a3c]
      · rw [at_index_set_horizontal_self _ _ _ (by omega)]

theorem task_body_rejected {C : Type} [DecidableEq C] (B : Nat)
    (oracle : EditDistance → task_info → Int → Int → Bool) (e : EditDistance)
    (down left : List C) (L shift ic ir last : Int) (s : LoopState) (c : Int)
    (h : oracle e (at_index s.old_carry c.toNat) ((L - 1 - c) * B) (c * B) = true) :
    task_body B oracle e down left L shift ic ir last s c =
      { thread_data := s.thread_data
        old_carry := s.old_carry
        new_carry := rejected_carry B s.new_carry c.toNat (decide (c = shift + ic))
          (decide (c = last - ir - 1))
        global_minimum := s.global_minimum
        add_infinity_column := s.add_infinity_column || decide (c = shift + ic)
        add_infinity_row := s.add_infinity_row || decide (c = last - ir - 1)
        evaluated := s.evaluated } := by
  simp only [task_body, h, rejected_carry]
  simp

theorem task_body_evaluated {C : Type} [DecidableEq C] (B : Nat)
    (oracle : EditDistance → task_info → Int → Int → Bool) (e : EditDistance)
    (down left : List C) (L shift ic ir last : Int) (s : LoopState) (c : Int)
    (h : oracle e (at_index s.old_carry c.toNat) ((L - 1 - c) * B) (c * B) = false) :
    task_body B oracle e down left L shift ic ir last s c =
      { thread_data := s.thread_data.set 0
          ⟨(at_index (set_horizontal s.new_carry c.toNat
              (compute_one_task B e (at_index s.old_carry c.toNat) (at_index s.thread_data 0)
                down left ((L - 1 - c) * B) (c * B)).2.1.horizontal) (c.toNat + 1)).vertical,
            (at_index s.new_carry c.toNat).horizontal⟩
        old_carry := s.old_carry.set c.toNat
          (compute_one_task B e (at_index s.old_carry c.toNat) (at_index s.thread_data 0)
            down left ((L - 1 - c) * B) (c * B)).1
        new_carry := evaluated_carry B s.new_carry c.toNat
          (compute_one_task B e (at_index s.old_carry c.toNat) (at_index s.thread_data 0)
            down left ((L - 1 - c) * B) (c * B)).2.1.horizontal
          (compute_one_task B e (at_index s.old_carry c.toNat) (at_index s.thread_data 0)
            down left ((L - 1 - c) * B) (c * B)).2.1.vertical
          (L * B) (seed_code_v e L shift ic c) (seed_code_h e ir last c)
        global_minimum :=
          if (compute_one_task B e (at_index s.old_carry c.toNat) (at_index s.thread_data 0)
            down left ((L - 1 - c) * B) (c * B)).2.2 < s.global_minimum then
            (compute_one_task B e (at_index s.old_carry c.toNat) (at_index s.thread_data 0)
              down left ((L - 1 - c) * B) (c * B)).2.2
          else s.global_minimum
        add_infinity_column := s.add_infinity_column
        add_infinity_row := s.add_infinity_row
        evaluated := s.evaluated ++ [(L, c)] } := by
  simp only [task_body, h, Bool.false_eq_true, not_false_eq_true, if_true, evaluated_carry,
    seed_code_v, seed_code_h]
  congr 1
  by_cases p1 : c = shift + ic ∧ L - c < e.height_in_tasks <;>
  by_cases p2 : c = last - ir - 1 ∧ c < e.length_in_tasks - 1 <;>
  by_cases z : c = 0 <;> by_cases i1 : ic > 0 <;> by_cases i2 : ir > 0
  all_goals (first | simp only [if_pos p1] | simp only [if_neg p1])
  all_goals (first | simp only [if_pos p2] | simp only [if_neg p2])
  all_goals (first | simp only [if_pos z] | simp only [if_neg z] | skip)
  all_goals (first | simp only [if_pos i1] | simp only [if_neg i1] | skip)
  all_goals (first | simp only [if_pos i2] | simp only [if_neg i2] | skip)
  all_goals rfl

theorem task_body_inv_rejected {C : Type} [DecidableEq C] (a : List C) (B n : Nat)
    (e : EditDistance) (L shift ic ir c : Int) (ls : LoopState)
    (hl : Lvl B n e L shift ic ir) (hc1 : shift + ic ≤ c) (hc2 : c < min L n - ir)
    (h : TInv B n e L shift ic ir c ls)
    (hp : all_too_big B e (at_index ls.old_carry c.toNat) ((L - 1 - c) * B) (c * B) = true) :
    TInv B n e L shift ic ir (c + 1)
      (task_body B (all_too_big B) e a a L shift ic ir (min L n) ls c) := by
  have hsh := hl.sh
  have hic0 := hl.ic0
  have hir0 := hl.ir0
  have hL1 := hl.L1
  have hL2 := hl.L2
  have hlo := hl.lo
  have hhi := hl.hi
  have hc0 : 0 ≤ c := by omega
  have hcn : c.toNat + 1 < n + 1 := by omega
  have hw : (0 : Int) ≤ n - L / 2 := by omega
  have hinp := h.keep c (le_refl c)
  obtain ⟨hv, hh⟩ := hl.carry c hc1 hc2
  rw [← hinp] at hv hh
  have far := rejected_far B hl.hB e (n - L / 2) (L - 1 - c) c _ hl.same hl.est hw hv hh hp
  obtain ⟨s1, s2, s3, s4, s5, s6⟩ := rejected_carry_spec B n ls.new_carry c.toNat
    (decide (c = shift + ic)) (decide (c = min L n - ir - 1)) h.szn h.vn hcn
  rw [task_body_rejected B (all_too_big B) e a a L shift ic ir (min L n) ls c hp]
  refine
    { szo := h.szo, szn := s1, szt := h.szt, vo := h.vo, vn := s2, vt := h.vt
      keep := fun k hk => h.keep k (by omega)
      gm_ge := h.gm_ge
      gm_le := fun hk => h.gm_le (by omega)
      hor := ?_, ver := ?_, seedv := ?_, seedh := ?_
      addc_init := fun hk => by omega
      addc := ?_
      addr_init := ?_
      addr := ?_ }
  · -- hor
    intro k hk1 hk2
    by_cases hkc : k = c
    · subst hkc
      obtain ⟨v, hvl, hveq⟩ := s5
      simp only [] at hveq ⊢
      rw [hveq]
      exact junk_row B n hl.hB hl.hINF _ _ _ v hvl (by omega) (by omega) (by omega) (by omega)
        (by omega)
    · simp only []
      rw [s3 k.toNat (by omega)]
      exact h.hor k hk1 (by omega)
  · -- ver
    intro k hk1 hk2 hk3
    simp only [] at hk3 ⊢
    by_cases hkc : k = c + 1
    · subst hkc
      have hfl : decide (c = shift + ic) = true ∨ decide (c = min L n - ir - 1) = false := by
        rcases hk3 with h1 | h1 | h1
        · right; simp only [decide_eq_false_iff_not]; omega
        · right
          simp only [Bool.or_eq_false_iff] at h1
          exact h1.2
        · left; simp only [decide_eq_true_eq]; omega
      obtain ⟨v, hvl, hveq⟩ := s6 hfl
      have e1 : (c + 1).toNat = c.toNat + 1 := by omega
      rw [e1, hveq]
      have e2 : (L - (c + 1)) = L - 1 - c := by ring
      rw [e2]
      exact junk_col B n hl.hB hl.hINF _ _ _ v hvl (by omega) (by omega) (by omega) (by omega)
        (by omega)
    · rw [s4 k.toNat (by omega)]
      exact h.ver k hk1 (by omega) (by left; omega)
  · -- seedv
    intro hk1 hk2 hk3
    simp only [Bool.or_eq_false_iff, decide_eq_false_iff_not] at hk2
    simp only []
    rw [s4 _ (by omega)]
    exact h.seedv (by omega) hk2.1 hk3
  · -- seedh
    intro hk1 hk2 _
    simp only [Bool.or_eq_false_iff, decide_eq_false_iff_not] at hk2
    omega
  · -- addc
    intro hk
    simp only [Bool.or_eq_true, decide_eq_true_eq] at hk
    rcases hk with hk | hk
    · exact h.addc hk
    · subst hk
      omega
  · -- addr_init
    intro hk
    simp only [Bool.or_eq_false_iff, decide_eq_false_iff_not]
    exact ⟨h.addr_init (by omega), by omega⟩
  · -- addr
    intro hk
    simp only [Bool.or_eq_true, decide_eq_true_eq] at hk
    have := h.addr_init hc2
    rcases hk with hk | hk
    · rw [this] at hk; exact absurd hk Bool.false_ne_true
    · omega

theorem tiles_eq_cancel (B : Nat) (hB : 1 ≤ B) {p q : Int} (h : p * (B : Int) = q * B) :
    p = q := by
  have hB0 : (B : Int) ≠ 0 := by
    have : (1 : Int) ≤ B := by exact_mod_cast hB
    omega
  exact Int.eq_of_mul_eq_mul_right hB0 h

theorem task_body_inv_evaluated {C : Type} [DecidableEq C] (a : List C) (B n : Nat)
    (e : EditDistance) (L shift ic ir c : Int) (ls : LoopState)
    (hl : Lvl B n e L shift ic ir) (hc1 : shift + ic ≤ c) (hc2 : c < min L n - ir)
    (h : TInv B n e L shift ic ir c ls)
    (hp : all_too_big B e (at_index ls.old_carry c.toNat) ((L - 1 - c) * B) (c * B) = false) :
    TInv B n e L shift ic ir (c + 1)
      (task_body B (all_too_big B) e a a L shift ic ir (min L n) ls c) := by
  have hsh := hl.sh
  have hic0 := hl.ic0
  have hir0 := hl.ir0
  have hL1 := hl.L1
  have hL2 := hl.L2
  have hlo := hl.lo
  have hhi := hl.hi
  have hB := hl.hB
  have hB1 : (1 : Int) ≤ B := by exact_mod_cast hB
  have hc0 : 0 ≤ c := by omega
  have hcn : c.toNat + 1 < n + 1 := by omega
  have hw : (0 : Int) ≤ n - L / 2 := by omega
  have hW : (0 : Int) ≤ (n - L / 2) * B := mul_nonneg hw (by omega)
  have hinp := h.keep c (le_refl c)
  obtain ⟨hv, hh⟩ := hl.carry c hc1 hc2
  rw [← hinp] at hv hh
  have htv : (at_index ls.thread_data 0).vertical.length = B + 1 := (h.vt 0 h.szt).1
  have hth : (at_index ls.thread_data 0).horizontal.length = B + 1 := (h.vt 0 h.szt).2
  have hy : (0 : Int) ≤ (L - 1 - c) * B := mul_nonneg (by omega) (by omega)
  have hx : (0 : Int) ≤ c * B := mul_nonneg hc0 (by omega)
  obtain ⟨koh, kov⟩ := compute_one_task_ok_int a B hB ((n - L / 2) * B) e
    (at_index ls.old_carry c.toNat) (at_index ls.thread_data 0) _ _ hy hx hv hh htv
  have hWle : ((n : Int) - (L + 1) / 2) * B ≤ (n - L / 2) * B := tiles_le B (by omega)
  have ey : (L - 1 - c) * (B : Int) + B = (L - c) * B := by ring
  have ex : c * (B : Int) + B = (c + 1) * B := by ring
  have ey1 : (L - 1 - c) * (B : Int) = (L - (c + 1)) * B := by ring
  have koh1 := row_ok_mono hWle koh
  rw [ey] at koh1
  have kov1 : col_ok B (((n : Int) - (L + 1) / 2) * B) ((L - (c + 1)) * B) ((c + 1) * B)
      (compute_one_task B e (at_index ls.old_carry c.toNat) (at_index ls.thread_data 0) a a
        ((L - 1 - c) * B) (c * B)).2.1.vertical := by
    rw [← ey1, ← ex]; exact col_ok_mono hWle kov
  obtain ⟨s1, s2, s3, s4, s5, s6, s7⟩ := evaluated_carry_spec B n ls.new_carry c.toNat _ _
    (L * B) (seed_code_v e L shift ic c) (seed_code_h e ir (min L n) c) h.szn h.vn hcn
    koh.1 kov.1
  -- the returned value
  have hret_ge : ((n : Int) - (L + 1) / 2) * B ≤
      (compute_one_task B e (at_index ls.old_carry c.toNat) (at_index ls.thread_data 0) a a
        ((L - 1 - c) * B) (c * B)).2.2 := by
    apply ret_lower B e (n * B) ((n - L / 2) * B) _ _ a _ _ _ hl.len hl.hgt koh kov
    · have := tiles_le B (show (n : Int) - (L + 1) / 2 ≤ n by omega)
      have := hl.hINF
      omega
    · intro hxy
      have := tiles_lt_cancel B hxy
      have := tiles_le B (show (n : Int) - (L + 1) / 2 ≤ n - c - 1 by omega)
      have e1 : ((n : Int) - c - 1) * B = n * B - c * B - B := by ring
      omega
    · intro hxy
      have := tiles_lt_cancel B hxy
      have := tiles_le B (show (n : Int) - (L + 1) / 2 ≤ n - (L - 1 - c) - 1 by omega)
      have e1 : ((n : Int) - (L - 1 - c) - 1) * B = n * B - (L - 1 - c) * B - B := by ring
      omega
    · intro hxy
      have := tiles_eq_cancel B hB hxy
      have := tiles_le B (show (n : Int) - (L + 1) / 2 ≤ n - c - 1 by omega)
      have e1 : ((n : Int) - c - 1) * B = n * B - c * B - B := by ring
      omega
  have hret_le : c = (L - 1) / 2 →
      (compute_one_task B e (at_index ls.old_carry c.toNat) (at_index ls.thread_data 0) a a
        ((L - 1 - c) * B) (c * B)).2.2 ≤ ((n : Int) - (L + 1) / 2) * B := by
    intro hcp
    have hyx : (L - 1 - c) * (B : Int) = c * B ∨ (L - 1 - c) * (B : Int) = c * B + B := by
      rcases Int.emod_two_eq L with h2 | h2
      · right
        have : L - 1 - c = c + 1 := by omega
        rw [this]; ring
      · left
        have : L - 1 - c = c := by omega
        rw [this]
    have := ret_upper B e (n * B) ((n - L / 2) * B) hW _ _ a _ _ hl.len hl.hgt koh kov hyx
    have e1 : ((n : Int) - (L + 1) / 2) * B = n * B - c * B - B := by
      have : (L + 1) / 2 = c + 1 := by omega
      rw [this]; ring
    omega
  rw [task_body_evaluated B (all_too_big B) e a a L shift ic ir (min L n) ls c hp]
  refine
    { szo := by simp only [List.length_set]; exact h.szo
      szn := s1
      szt := by simp only [List.length_set]; exact h.szt
      vo := sized_set B _ _ _ h.vo hv.1 hth
      vn := s2
      vt := sized_set B _ _ _ h.vt ?_ (h.vn c.toNat (by rw [h.szn]; omega)).2
      keep := ?_, gm_ge := ?_, gm_le := ?_, hor := ?_, ver := ?_, seedv := ?_, seedh := ?_
      addc_init := fun hk => by omega
      addc := h.addc
      addr_init := fun hk => h.addr_init (by omega)
      addr := h.addr }
  · -- the scratch keeps vectors of the right size
    simp only []
    rw [at_index_set_horizontal_ne _ _ _ _ (by omega)]
    exact (h.vn (c.toNat + 1) (by rw [h.szn]; omega)).1
  · -- keep
    intro k hk
    simp only []
    rw [at_index_set_ne _ _ _ _ (by omega)]
    exact h.keep k (by omega)
  · -- gm_ge
    simp only []
    split
    · exact hret_ge
    · exact h.gm_ge
  · -- gm_le
    intro hk
    simp only []
    by_cases hcp : c = (L - 1) / 2
    · have := hret_le hcp
      split <;> omega
    · have := h.gm_le (by omega)
      split <;> omega
  · -- hor
    intro k hk1 hk2
    simp only []
    by_cases hkc : k = c
    · subst hkc
      rw [s3]; exact koh1
    · rw [s5 k.toNat (by omega) (by omega)]
      exact h.hor k hk1 (by omega)
  · -- ver
    intro k hk1 hk2 hk3
    simp only [] at hk3 ⊢
    by_cases hkc : k = c + 1
    · subst hkc
      have e1 : (c + 1).toNat = c.toNat + 1 := by omega
      rw [e1, s4]; exact kov1
    · by_cases hkc2 : k = c
      · subst hkc2
        have hsv : seed_code_v e L shift ic k = 0 := by
          unfold seed_code_v
          rw [if_neg (by omega)]
        rw [s6, hsv]
        simp only [if_true]
        exact h.ver k hk1 (le_refl _) (by left; omega)
      · rw [s5 k.toNat (by omega) (by omega)]
        exact h.ver k hk1 (by omega) (by left; omega)
  · -- seedv
    intro hk1 hk2 hk3
    simp only [] at hk2 ⊢
    by_cases hkc : c = shift + ic
    · rw [← hkc] at hk3 ⊢
      have hvl : (at_index ls.new_carry c.toNat).vertical.length = B + 1 :=
        (h.vn c.toNat (by rw [h.szn]; omega)).1
      rw [s6]
      by_cases hz : c = 0
      · have hsv : seed_code_v e L shift ic c = 1 := by
          unfold seed_code_v
          rw [if_pos ⟨hkc, by rw [hl.ht]; exact hk3⟩, if_pos hz]
        rw [hsv]
        simp only [one_ne_zero, if_false, if_true]
        have e1 : (L - c) * (B : Int) = L * B := by rw [hz]; ring
        rw [e1]
        exact seed_col B _ L c _ hvl (by omega) hz
      · have hic : ic > 0 := by omega
        have hsv : seed_code_v e L shift ic c = 2 := by
          unfold seed_code_v
          rw [if_pos ⟨hkc, by rw [hl.ht]; exact hk3⟩, if_neg hz, if_pos hic]
        rw [hsv]
        simp only [OfNat.ofNat_ne_zero, OfNat.ofNat_ne_one, if_false]
        have hj := hl.jcol hic
        exact junk_col B n hB hl.hINF _ _ _ _ hvl (by omega) (by omega) (by omega) (by omega)
          (by left; omega)
    · rw [s5 _ (by omega) (by omega)]
      exact h.seedv (by omega) hk2 hk3
  · -- seedh
    intro hk1 hk2 hk3
    simp only [] at hk2 ⊢
    have e1 : (min L ↑n - ir).toNat = c.toNat + 1 := by omega
    have hhl : (at_index ls.new_carry (c.toNat + 1)).horizontal.length = B + 1 :=
      (h.vn (c.toNat + 1) (by rw [h.szn]; omega)).2
    rw [e1, s7]
    by_cases hir : ir > 0
    · have hsh : seed_code_h e ir (min L n) c = 2 := by
        unfold seed_code_h
        rw [if_pos ⟨by omega, by rw [hl.lt]; omega⟩, if_pos hir]
      rw [hsh]
      simp only [OfNat.ofNat_ne_zero, OfNat.ofNat_ne_one, if_false]
      have hj := hl.jrow hir
      exact junk_row B n hB hl.hINF _ _ _ _ hhl (by omega) (by omega) (by omega) (by omega)
        (by right; omega)
    · have hsh : seed_code_h e ir (min L n) c = 1 := by
        unfold seed_code_h
        rw [if_pos ⟨by omega, by rw [hl.lt]; omega⟩, if_neg hir]
      rw [hsh]
      simp only [one_ne_zero, if_false, if_true]
      have e2 : min L (n : Int) - ir = L := by omega
      rw [e2]
      exact seed_row B _ L (L - L) _ hhl (by omega) (by omega)

theorem task_body_inv {C : Type} [DecidableEq C] (a : List C) (B n : Nat)
    (e : EditDistance) (L shift ic ir c : Int) (ls : LoopState)
    (hl : Lvl B n e L shift ic ir) (hc1 : shift + ic ≤ c) (hc2 : c < min L n - ir)
    (h : TInv B n e L shift ic ir c ls) :
    TInv B n e L shift ic ir (c + 1)
      (task_body B (all_too_big B) e a a L shift ic ir (min L n) ls c) := by
  cases hp : all_too_big B e (at_index ls.old_carry c.toNat) ((L - 1 - c) * B) (c * B)
  · exact task_body_inv_evaluated a B n e L shift ic ir c ls hl hc1 hc2 h hp
  · exact task_body_inv_rejected a B n e L shift ic ir c ls hl hc1 hc2 h hp

theorem task_loop_inv {C : Type} [DecidableEq C] (a : List C) (B n : Nat)
    (e : EditDistance) (L shift ic ir : Int) (hl : Lvl B n e L shift ic ir) :
    ∀ (m : Nat) (c : Int) (ls : LoopState), shift + ic ≤ c → c + m = min L n - ir →
      TInv B n e L shift ic ir c ls →
      TInv B n e L shift ic ir (min L n - ir)
        (task_loop B (all_too_big B) e a a L shift ic ir (min L n) m c ls) := by
  intro m
  induction m with
  | zero =>
    intro c ls _ hc h
    have : c = min L n - ir := by simpa using hc
    subst this
    simpa [task_loop] using h
  | succ m ih =>
    intro c ls hc1 hc h
    simp only [task_loop]
    apply ih (c + 1) _ (by omega) (by push_cast at hc; omega)
    exact task_body_inv a B n e L shift ic ir c ls hl hc1 (by push_cast at hc; omega) h

theorem tinv_start (B n : Nat) (e : EditDistance) (L shift ic ir : Int)
    (hl : Lvl B n e L shift ic ir) (hs : Sz B n e) (ev : List (Int × Int)) :
    TInv B n e L shift ic ir (shift + ic)
      { thread_data := e.thread_data, old_carry := e.old_carry, new_carry := e.new_carry,
        global_minimum := infinity, add_infinity_column := false, add_infinity_row := false,
        evaluated := ev } := by
  have hlo := hl.lo
  have hhi := hl.hi
  have hL1 := hl.L1
  have hL2 := hl.L2
  refine
    { szo := hs.szo, szn := hs.szn, szt := hs.szt, vo := hs.vo, vn := hs.vn, vt := hs.vt
      keep := fun _ _ => rfl
      gm_ge := ?_
      gm_le := fun hk => by omega
      hor := fun k h1 h2 => by omega
      ver := fun k h1 h2 _ => by omega
      seedv := fun hk => by omega
      seedh := fun hk => by omega
      addc_init := fun _ => rfl
      addc := fun hk => by simp at hk
      addr_init := fun _ => rfl
      addr := fun hk => by simp at hk }
  have := tiles_le B (show (n : Int) - (L + 1) / 2 ≤ n by omega)
  have := hl.hINF
  simp only []
  omega

theorem level_body_eq {C : Type} [DecidableEq C] (B : Nat)
    (oracle : EditDistance → task_info → Int → Int → Bool) (down left : List C)
    (s : LevelState) (L : Int) :
    level_body B oracle down left s L =
      { engine := { s.engine with
          worst_outcome_cached := (level_tasks B oracle down left s L).global_minimum
          thread_data := (level_tasks B oracle down left s L).thread_data
          old_carry := (level_tasks B oracle down left s L).new_carry
          new_carry := (level_tasks B oracle down left s L).old_carry }
        shift := adj_shift s L
        infinity_columns := adj_ic s L
        infinity_rows := adj_ir s L
        add_infinity_column := (level_tasks B oracle down left s L).add_infinity_column
        add_infinity_row := (level_tasks B oracle down left s L).add_infinity_row
        evaluated := (level_tasks B oracle down left s L).evaluated } := rfl

/-! ### The counters of the next level -/

theorem next_ic0 (n L aic dc bc : Int) (hic0 : 0 ≤ aic)
    (hdc : (L + 1 > n ∧ aic > 0) ∧ dc = aic - 1 ∨ ¬ (L + 1 > n ∧ aic > 0) ∧ dc = aic)
    (hb : bc = 0 ∨ bc = 1) : 0 ≤ dc + bc := by
  omega

theorem next_lo (n L ash aic dc bc : Int) (hsh : ash = max 0 (L - n)) (hic0 : 0 ≤ aic)
    (hlo : ash + aic ≤ (L - 1) / 2) (hL1 : 1 ≤ L) (hL2 : L + 1 ≤ 2 * n - 1)
    (hdc : (L + 1 > n ∧ aic > 0) ∧ dc = aic - 1 ∨ ¬ (L + 1 > n ∧ aic > 0) ∧ dc = aic)
    (hb : bc = 0 ∨ bc = 1)
    (haddc : bc = 1 →
      ash + aic + 1 ≤ (L - 1) / 2 ∧ n - L / 2 < 2 * (L - 2 - 2 * (ash + aic))) :
    max 0 (L + 1 - n) + (dc + bc) ≤ (L + 1 - 1) / 2 := by
  omega

theorem next_hi (n L air dr br : Int) (hir0 : 0 ≤ air)
    (hhi : L / 2 < min L n - air) (hL1 : 1 ≤ L) (hL2 : L + 1 ≤ 2 * n - 1)
    (hdr : (L + 1 > n ∧ air > 0) ∧ dr = air - 1 ∨ ¬ (L + 1 > n ∧ air > 0) ∧ dr = air)
    (hb : br = 0 ∨ br = 1)
    (haddr : br = 1 →
      L / 2 + 1 ≤ min L n - air - 1 ∧ n - L / 2 < 2 * (2 * (min L n - air) - L - 2)) :
    (L + 1) / 2 < min (L + 1) n - (dr + br) := by
  omega

theorem next_jcol (n L ash aic dc bc : Int) (hsh : ash = max 0 (L - n)) (hic0 : 0 ≤ aic)
    (_hlo : ash + aic ≤ (L - 1) / 2) (_hL1 : 1 ≤ L) (hL2 : L + 1 ≤ 2 * n - 1)
    (hdc : (L + 1 > n ∧ aic > 0) ∧ dc = aic - 1 ∨ ¬ (L + 1 > n ∧ aic > 0) ∧ dc = aic)
    (hb : bc = 0 ∨ bc = 1)
    (haddc : bc = 1 →
      ash + aic + 1 ≤ (L - 1) / 2 ∧ n - L / 2 < 2 * (L - 2 - 2 * (ash + aic)))
    (hjc : 0 < aic → n - (L + 1) / 2 < 2 * (L - 2 * (ash + aic)))
    (h : 0 < dc + bc) :
    n - (L + 1 + 1) / 2 < 2 * (L + 1 - 2 * (max 0 (L + 1 - n) + (dc + bc))) := by
  omega

theorem next_jrow (n L air dr br : Int) (hir0 : 0 ≤ air)
    (_hhi : L / 2 < min L n - air) (_hL1 : 1 ≤ L) (hL2 : L + 1 ≤ 2 * n - 1)
    (hdr : (L + 1 > n ∧ air > 0) ∧ dr = air - 1 ∨ ¬ (L + 1 > n ∧ air > 0) ∧ dr = air)
    (hb : br = 0 ∨ br = 1)
    (haddr : br = 1 →
      L / 2 + 1 ≤ min L n - air - 1 ∧ n - L / 2 < 2 * (2 * (min L n - air) - L - 2))
    (hjr : 0 < air → n - (L + 1) / 2 < 2 * (2 * (min L n - air) - L))
    (h : 0 < dr + br) :
    n - (L + 1 + 1) / 2 < 2 * (2 * (min (L + 1) n - (dr + br)) - (L + 1)) := by
  omega

/-- Where the next level starts, relative to this one. -/
theorem next_range_lo (n L ash aic dc bc k : Int) (hsh : ash = max 0 (L - n)) (hic0 : 0 ≤ aic)
    (_hL1 : 1 ≤ L)
    (hdc : (L + 1 > n ∧ aic > 0) ∧ dc = aic - 1 ∨ ¬ (L + 1 > n ∧ aic > 0) ∧ dc = aic)
    (hb : bc = 0 ∨ bc = 1) (hk1 : max 0 (L + 1 - n) + (dc + bc) ≤ k) :
    ash + aic ≤ k ∧ (k = ash + aic → bc = 0 ∧ L - (ash + aic) < n) := by
  omega

/-- Where the next level ends, relative to this one. -/
theorem next_range_hi (n L air dr br k : Int) (hir0 : 0 ≤ air) (_hL1 : 1 ≤ L)
    (hdr : (L + 1 > n ∧ air > 0) ∧ dr = air - 1 ∨ ¬ (L + 1 > n ∧ air > 0) ∧ dr = air)
    (hb : br = 0 ∨ br = 1) (hk2 : k < min (L + 1) n - (dr + br)) :
    k ≤ min L n - air ∧ (k = min L n - air → br = 0 ∧ min L n - air < n) := by
  omega

theorem bool_code (p : Bool) : ∃ b : Int, (if p = true then (1 : Int) else 0) = b ∧
    ((p = true ∧ b = 1) ∨ (p = false ∧ b = 0)) := by
  cases p
  · exact ⟨0, by simp, Or.inr ⟨rfl, rfl⟩⟩
  · exact ⟨1, by simp, Or.inl ⟨rfl, rfl⟩⟩

theorem dec_code (P : Prop) [Decidable P] (x : Int) : ∃ d : Int, (if P then x - 1 else x) = d ∧
    (P ∧ d = x - 1 ∨ ¬ P ∧ d = x) := by
  by_cases h : P
  · exact ⟨x - 1, by simp [h], Or.inl ⟨h, rfl⟩⟩
  · exact ⟨x, by simp [h], Or.inr ⟨h, rfl⟩⟩

theorem adj_shift_next (s1 : LevelState) (L : Int) (n : Nat)
    (hht : s1.engine.height_in_tasks = n) (hsh : s1.shift = max 0 (L - n)) :
    adj_shift s1 (L + 1) = max 0 (L + 1 - n) := by
  simp only [adj_shift, hht, decide_eq_true_eq]
  split <;> omega

theorem adj_ic_next (s1 : LevelState) (L : Int) (n : Nat)
    (hht : s1.engine.height_in_tasks = n) :
    adj_ic s1 (L + 1) =
      (if L + 1 > (n : Int) ∧ s1.infinity_columns > 0 then s1.infinity_columns - 1
        else s1.infinity_columns)
      + (if s1.add_infinity_column = true then 1 else 0) := by
  simp only [adj_ic, hht, decide_eq_true_eq]
  split <;> simp

theorem adj_ir_next (s1 : LevelState) (L : Int) (n : Nat)
    (hht : s1.engine.height_in_tasks = n) (hlt : s1.engine.length_in_tasks = n) :
    adj_ir s1 (L + 1) =
      (if L + 1 > (n : Int) ∧ s1.infinity_rows > 0 then s1.infinity_rows - 1
        else s1.infinity_rows)
      + (if s1.add_infinity_row = true then 1 else 0) := by
  simp only [adj_ir, hht, hlt, decide_eq_true_eq, and_self_left]
  split <;> simp

theorem linv_next (B n : Nat) (e : EditDistance) (L ash aic air : Int) (ls : LoopState)
    (s1 : LevelState)
    (h_eng : s1.engine = { e with
      worst_outcome_cached := ls.global_minimum
      thread_data := ls.thread_data
      old_carry := ls.new_carry
      new_carry := ls.old_carry })
    (h_sh : s1.shift = ash) (h_ic : s1.infinity_columns = aic) (h_ir : s1.infinity_rows = air)
    (h_ac : s1.add_infinity_column = ls.add_infinity_column)
    (h_ar : s1.add_infinity_row = ls.add_infinity_row)
    (_hL : L ≤ 2 * n - 1) (hl : Lvl B n e L ash aic air)
    (t1 : TInv B n e L ash aic air (min L n - air) ls) :
    LInv B n s1 (L + 1) := by
  have g_same : s1.engine.same_length_strings = true := by rw [h_eng]; exact hl.same
  have g_len : s1.engine.length_in_chars = n * B := by rw [h_eng]; exact hl.len
  have g_hgt : s1.engine.height_in_chars = n * B := by rw [h_eng]; exact hl.hgt
  have g_ht : s1.engine.height_in_tasks = n := by rw [h_eng]; exact hl.ht
  have g_lt : s1.engine.length_in_tasks = n := by rw [h_eng]; exact hl.lt
  have g_w : s1.engine.worst_outcome_cached = ls.global_minimum := by rw [h_eng]
  have g_oc : s1.engine.old_carry = ls.new_carry := by rw [h_eng]
  have g_nc : s1.engine.new_carry = ls.old_carry := by rw [h_eng]
  have g_td : s1.engine.thread_data = ls.thread_data := by rw [h_eng]
  have hsh := hl.sh
  have hic0 := hl.ic0
  have hir0 := hl.ir0
  have hL1 := hl.L1
  have hlo := hl.lo
  have hhi := hl.hi
  have hgm : ls.global_minimum = ((n : Int) - (L + 1) / 2) * B :=
    le_antisymm (t1.gm_le (by omega)) t1.gm_ge
  obtain ⟨bc, ebc, hbc⟩ := bool_code ls.add_infinity_column
  obtain ⟨br, ebr, hbr⟩ := bool_code ls.add_infinity_row
  obtain ⟨dc, edc, hdc⟩ := dec_code (L + 1 > (n : Int) ∧ aic > 0) aic
  obtain ⟨dr, edr, hdr⟩ := dec_code (L + 1 > (n : Int) ∧ air > 0) air
  have haddc : bc = 1 →
      ash + aic + 1 ≤ (L - 1) / 2 ∧ n - L / 2 < 2 * (L - 2 - 2 * (ash + aic)) := by
    intro h1
    rcases hbc with ⟨h2, _⟩ | ⟨_, h3⟩
    · exact t1.addc h2
    · omega
  have haddr : br = 1 →
      L / 2 + 1 ≤ min L n - air - 1 ∧ n - L / 2 < 2 * (2 * (min L n - air) - L - 2) := by
    intro h1
    rcases hbr with ⟨h2, _⟩ | ⟨_, h3⟩
    · exact t1.addr h2
    · omega
  have hbc0 : bc = 0 → ls.add_infinity_column = false := by
    intro h1
    rcases hbc with ⟨_, h3⟩ | ⟨h2, _⟩
    · omega
    · exact h2
  have hbr0 : br = 0 → ls.add_infinity_row = false := by
    intro h1
    rcases hbr with ⟨_, h3⟩ | ⟨h2, _⟩
    · omega
    · exact h2
  have hbc1 : bc = 0 ∨ bc = 1 := by
    rcases hbc with ⟨_, h3⟩ | ⟨_, h3⟩ <;> omega
  have hbr1 : br = 0 ∨ br = 1 := by
    rcases hbr with ⟨_, h3⟩ | ⟨_, h3⟩ <;> omega
  refine ⟨⟨by rw [g_oc]; exact t1.szn, by rw [g_nc]; exact t1.szo, by rw [g_td]; exact t1.szt,
    by rw [g_oc]; exact t1.vn, by rw [g_nc]; exact t1.vo, by rw [g_td]; exact t1.vt⟩, ?_, ?_⟩
  · intro hL2
    have e_sh := adj_shift_next s1 L n g_ht (by rw [h_sh]; exact hsh)
    have e_ic : adj_ic s1 (L + 1) = dc + bc := by
      rw [adj_ic_next s1 L n g_ht, h_ic, h_ac, edc, ebc]
    have e_ir : adj_ir s1 (L + 1) = dr + br := by
      rw [adj_ir_next s1 L n g_ht g_lt, h_ir, h_ar, edr, ebr]
    rw [e_sh, e_ic, e_ir]
    refine
      { hB := hl.hB, hINF := hl.hINF, same := g_same, len := g_len, hgt := g_hgt, ht := g_ht
        lt := g_lt, est := by rw [g_w]; exact hgm, L1 := by omega, L2 := hL2, sh := rfl
        ic0 := next_ic0 n L aic dc bc hic0 hdc hbc1
        ir0 := next_ic0 n L air dr br hir0 hdr hbr1
        lo := next_lo n L ash aic dc bc hsh hic0 hlo hL1 hL2 hdc hbc1 haddc
        hi := next_hi n L air dr br hir0 hhi hL1 hL2 hdr hbr1 haddr
        jcol := next_jcol n L ash aic dc bc hsh hic0 hlo hL1 hL2 hdc hbc1 haddc hl.jcol
        jrow := next_jrow n L air dr br hir0 hhi hL1 hL2 hdr hbr1 haddr hl.jrow
        carry := ?_ }
    intro k hk1 hk2
    obtain ⟨r1, r2⟩ := next_range_lo n L ash aic dc bc k hsh hic0 hL1 hdc hbc1 hk1
    obtain ⟨r3, r4⟩ := next_range_hi n L air dr br k hir0 hL1 hdr hbr1 hk2
    have ek : L + 1 - 1 - k = L - k := by ring
    rw [ek, g_oc]
    constructor
    · -- vertical
      by_cases hklo : k = ash + aic
      · have := r2 hklo
        rw [hklo]
        exact t1.seedv (by omega) (hbc0 this.1) this.2
      · apply t1.ver k (by omega) r3
        by_cases h1 : k < min L (n : Int) - air
        · left; exact h1
        · right; left; exact hbr0 (r4 (by omega)).1
    · -- horizontal
      by_cases hkhi : k < min L (n : Int) - air
      · exact t1.hor k r1 hkhi
      · have hk5 : k = min L (n : Int) - air := by omega
        have := r4 hk5
        rw [hk5]
        exact t1.seedh rfl (hbr0 this.1) this.2
  · -- the last level
    intro hfin
    rw [g_oc]
    have hrow := t1.hor (n - 1) (by omega) (by omega)
    have e1 : ((n : Int) - 1).toNat = n - 1 := by omega
    rw [e1] at hrow
    have hcell := hrow.2 B (le_refl _)
    have e2 : (L - ((n : Int) - 1)) * B = (n - 1) * B + B := by
      have : L - ((n : Int) - 1) = n := by omega
      rw [this]; ring
    rw [e2] at hcell
    have e3 : ((n : Int) - (L + 1) / 2) * B = 0 := by
      have : (n : Int) - (L + 1) / 2 = 0 := by omega
      rw [this]; ring
    rw [e3] at hcell
    exact cell_ok_diag (le_refl _) hcell

theorem level_body_inv {C : Type} [DecidableEq C] (a : List C) (B n : Nat) (s : LevelState)
    (L : Int) (hL : L ≤ 2 * n - 1) (h : LInv B n s L) :
    LInv B n (level_body B (all_too_big B) a a s L) (L + 1) := by
  have hl := h.lvl hL
  have hlo := hl.lo
  have hhi := hl.hi
  have t0 := tinv_start B n s.engine L _ _ _ hl h.sz s.evaluated
  have hm : adj_shift s L + adj_ic s L
      + ((min L (n : Int) - adj_ir s L - (adj_shift s L + adj_ic s L)).toNat : Int)
      = min L n - adj_ir s L := by omega
  have t1 := task_loop_inv a B n s.engine L _ _ _ hl _ _ _ (le_refl _) hm t0
  have hT : level_tasks B (all_too_big B) a a s L =
      task_loop B (all_too_big B) s.engine a a L (adj_shift s L) (adj_ic s L) (adj_ir s L)
        (min L n) (min L (n : Int) - adj_ir s L - (adj_shift s L + adj_ic s L)).toNat
        (adj_shift s L + adj_ic s L)
        { thread_data := s.engine.thread_data, old_carry := s.engine.old_carry,
          new_carry := s.engine.new_carry, global_minimum := infinity,
          add_infinity_column := false, add_infinity_row := false, evaluated := s.evaluated } := by
    unfold level_tasks; rw [hl.lt]
  rw [← hT] at t1
  rw [level_body_eq]
  exact linv_next B n s.engine L _ _ _ _ _ rfl rfl rfl rfl rfl rfl hL hl t1

theorem level_loop_inv {C : Type} [DecidableEq C] (a : List C) (B n : Nat) :
    ∀ (m : Nat) (L : Int) (s : LevelState), L + m = 2 * n → LInv B n s L →
      LInv B n (level_loop B (all_too_big B) a a m L s) (2 * n) := by
  intro m
  induction m with
  | zero =>
    intro L s hL h
    have : L = 2 * n := by simpa using hL
    subst this
    simpa [level_loop] using h
  | succ m ih =>
    intro L s hL h
    simp only [level_loop]
    apply ih (L + 1) _ (by push_cast at hL; omega)
    exact level_body_inv a B n s L (by push_cast at hL; omega) h

/-! ### The state after `init` -/

theorem push_carries_spec (B : Nat) :
    ∀ (m : Nat) (p : List task_info × List task_info),
      push_carries B m p
        = (p.1 ++ List.replicate m (task_info.new B), p.2 ++ List.replicate m (task_info.new B)) := by
  intro m
  induction m with
  | zero => intro p; simp [push_carries]
  | succ m ih =>
    intro p
    simp only [push_carries, ih, List.append_assoc, List.singleton_append]
    simp [List.replicate_succ]

theorem push_threads_spec (B : Nat) :
    ∀ (m : Nat) (l : List task_info),
      push_threads B m l = l ++ List.replicate m (task_info.new B) := by
  intro m
  induction m with
  | zero => intro l; simp [push_threads]
  | succ m ih =>
    intro l
    simp only [push_threads, ih, List.append_assoc, List.singleton_append]
    simp [List.replicate_succ]

theorem sized_replicate (B m : Nat) : sized B (List.replicate m (task_info.new B)) := by
  intro i hi
  rw [List.length_replicate] at hi
  simp [at_index, List.getD_eq_getElem?_getD, hi, task_info.new]

theorem initial_spec (B : Nat) :
    (initial B).length = B + 1 ∧ ∀ k : Nat, k ≤ B → (initial B).getD k 0 = k := by
  constructor
  · simp [initial]
  · intro k hk
    simp [initial, List.getD_eq_getElem?_getD, show k < B + 1 by omega]

theorem init_vectors (B T : Nat) (e : EditDistance) (len1 len2 : Nat)
    (h : init B T fresh len1 len2 = some e) :
    e.old_carry = set_horizontal (set_vertical
        (List.replicate (max len1 len2 / B + 1) (task_info.new B)) 0 (initial B)) 0 (initial B) ∧
    e.new_carry = List.replicate (max len1 len2 / B + 1) (task_info.new B) ∧
    e.thread_data = List.replicate T (task_info.new B) := by
  unfold init at h
  by_cases hlt : len2 < len1
  · have hmax : max len1 len2 = len1 := by omega
    rw [hmax]
    simp only [hlt, decide_True, if_true] at h
    split at h
    · simp at h
    · simp only [Option.some.injEq] at h
      subst h
      have hk : (((len1 / B : Nat) : Int) + 1).toNat = len1 / B + 1 :=
        Int.toNat_ofNat (len1 / B + 1)
      simp only [push_carries_spec, push_threads_spec, fresh, hk, List.nil_append, and_self]
  · have hmax : max len1 len2 = len2 := by omega
    rw [hmax]
    simp only [hlt, decide_False, if_false, Bool.false_eq_true] at h
    split at h
    · simp at h
    · simp only [Option.some.injEq] at h
      subst h
      have hk : (((len2 / B : Nat) : Int) + 1).toNat = len2 / B + 1 :=
        Int.toNat_ofNat (len2 / B + 1)
      simp only [push_carries_spec, push_threads_spec, fresh, hk, List.nil_append, and_self]

theorem linv_init (B n T : Nat) (e : EditDistance) (hB : 1 ≤ B) (hn : 1 ≤ n) (hT : 1 ≤ T)
    (hINF : (n : Int) * B ≤ infinity)
    (h : init B T fresh (n * B) (n * B) = some e) :
    LInv B n ⟨e, 0, 0, 0, false, false, []⟩ 1 := by
  have hsc := init_scalars B T fresh e (n * B) (n * B) h
  have hv := init_vectors B T e (n * B) (n * B) h
  have hdiv : n * B / B = n := Nat.mul_div_cancel n (by omega)
  simp only [min_self, max_self, hdiv] at hsc hv
  obtain ⟨-, -, -, hsame, -, hworst, hlen, hhgt, hht, hlt⟩ := hsc
  obtain ⟨hold, hnew, hthr⟩ := hv
  have hi := initial_spec B
  have hrep := sized_replicate B (n + 1)
  have hlenrep : (List.replicate (n + 1) (task_info.new B)).length = n + 1 :=
    List.length_replicate _ _
  have h0 : at_index e.old_carry 0 = ⟨initial B, initial B⟩ := by
    rw [hold, at_index_set_horizontal_self _ _ _
      (by rw [length_set_vertical, hlenrep]; omega),
      at_index_set_vertical_self _ _ _ (by rw [hlenrep]; omega)]
  have a1 : adj_shift ⟨e, 0, 0, 0, false, false, []⟩ 1 = 0 := by
    simp only [adj_shift, hht]
    rw [if_neg]
    simp only [gt_iff_lt, decide_eq_true_eq]
    omega
  have a2 : adj_ic ⟨e, 0, 0, 0, false, false, []⟩ 1 = 0 := by
    simp [adj_ic]
  have a3 : adj_ir ⟨e, 0, 0, 0, false, false, []⟩ 1 = 0 := by
    simp [adj_ir]
  refine ⟨⟨?_, ?_, ?_, ?_, ?_, ?_⟩, ?_, ?_⟩
  · show e.old_carry.length = n + 1
    rw [hold, length_set_horizontal, length_set_vertical, hlenrep]
  · show e.new_carry.length = n + 1
    rw [hnew, hlenrep]
  · show 0 < e.thread_data.length
    rw [hthr, List.length_replicate]; omega
  · show sized B e.old_carry
    rw [hold]
    exact sized_set_horizontal B _ 0 _ (sized_set_vertical B _ 0 _ hrep hi.1) hi.1
  · show sized B e.new_carry
    rw [hnew]; exact hrep
  · show sized B e.thread_data
    rw [hthr]; exact sized_replicate B T
  · intro _
    rw [a1, a2, a3]
    refine
      { hB := hB, hINF := hINF, same := ?_, len := ?_, hgt := ?_, ht := hht, lt := hlt,
        est := ?_, L1 := le_refl _, L2 := by omega, sh := by omega, ic0 := le_refl _,
        ir0 := le_refl _, lo := by omega, hi := by omega, jcol := by omega,
        jrow := by omega, carry := ?_ }
    · show e.same_length_strings = true
      rw [hsame]; simp
    · show e.length_in_chars = n * B
      rw [hlen]; push_cast; rfl
    · show e.height_in_chars = n * B
      rw [hhgt]; push_cast; rfl
    · show e.worst_outcome_cached = (n - 1 / 2) * B
      rw [hworst]; push_cast; norm_num
    · intro k hk1 hk2
      have hk : k = 0 := by omega
      subst hk
      show col_ok B _ _ _ (at_index e.old_carry 0).vertical ∧
        row_ok B _ _ _ (at_index e.old_carry 0).horizontal
      rw [h0]
      refine ⟨⟨hi.1, fun k hk => ?_⟩, ⟨hi.1, fun k hk => ?_⟩⟩
      · show cell_ok _ _ _ ((initial B).getD k 0)
        rw [hi.2 k hk]
        exact cell_ok_exact (Or.inl ⟨by ring, by norm_num⟩)
      · show cell_ok _ _ _ ((initial B).getD k 0)
        rw [hi.2 k hk]
        exact cell_ok_exact (Or.inr ⟨by ring, by norm_num⟩)
  · intro h2
    exfalso
    omega

theorem compute_value_self {C : Type} [DecidableEq C] (B n T : Nat) (a : List C)
    (e : EditDistance) (hB : 1 ≤ B) (hn : 1 ≤ n) (hT : 1 ≤ T)
    (hINF : (n : Int) * B ≤ infinity)
    (h : init B T fresh (n * B) (n * B) = some e) :
    (compute B e a a).value = 0 := by
  have hsc := init_scalars B T fresh e (n * B) (n * B) h
  have hdiv : n * B / B = n := Nat.mul_div_cancel n (by omega)
  simp only [min_self, max_self, hdiv] at hsc
  obtain ⟨-, -, -, -, hlev, -, -, -, -, hlt⟩ := hsc
  have h1 := linv_init B n T e hB hn hT hINF h
  have hm : e.number_of_levels.toNat = 2 * n - 1 := by rw [hlev]; omega
  have h2 := level_loop_inv a B n (2 * n - 1) 1 _ (by omega) h1
  have h3 := h2.fin rfl
  have hidx : (e.length_in_tasks - 1).toNat = n - 1 := by rw [hlt]; omega
  simp only [compute, compute_with, ite_self, hm, hidx]
  exact h3

/-- C3 (identity). For every sequence `a` whose length is a positive multiple of the tile
size `B` and does not exceed the sentinel `infinity`, and for every number `T ≥ 1` of
worker threads, `init(|a|, |a|)` on a fresh engine succeeds and `compute(a, a)` returns `0`,
whatever the number of tiles per side and whichever tiles are pruned or masked. -/
theorem compute_self_zero {C : Type} [DecidableEq C] (B T : Nat) (a : List C)
    (hB : 0 < B) (hT : 0 < T) (hpos : 0 < a.length) (hdiv : a.length % B = 0)
    (hsize : (a.length : Int) ≤ infinity) :
    (init B T fresh a.length a.length).map (fun e => (compute B e a a).value) = some 0 := by
  have hlen : a.length = a.length / B * B := (Nat.div_mul_cancel (Nat.dvd_of_mod_eq_zero hdiv)).symm
  have hn : 1 ≤ a.length / B := by
    rcases Nat.eq_zero_or_pos (a.length / B) with h0 | h0
    · rw [h0] at hlen; omega
    · exact h0
  have hINF : ((a.length / B : Nat) : Int) * B ≤ infinity := by
    have : ((a.length / B * B : Nat) : Int) ≤ infinity := by rw [← hlen]; exact hsize
    exact_mod_cast this
  cases h : init B T fresh a.length a.length with
  | none =>
    exfalso
    unfold init at h
    simp [hdiv] at h
  | some e =>
    have h1 := h
    rw [hlen] at h1
    rw [Option.map_some', compute_value_self B (a.length / B) T a e hB hn hT hINF h1]

/-- C3 (witness). Two tiles per side at the tile size of the source: a sequence of 128
equal symbols against itself. -/
theorem compute_self_zero_witness :
    (init TASK_SIZE 1 fresh (List.replicate 128 (0 : Nat)).length
        (List.replicate 128 (0 : Nat)).length).map
      (fun e => (compute TASK_SIZE e (List.replicate 128 (0 : Nat))
        (List.replicate 128 (0 : Nat))).value) = some 0 :=
  compute_self_zero TASK_SIZE 1 (List.replicate 128 (0 : Nat)) (by decide) (by decide)
    (by simp) (by simp [TASK_SIZE]) (by simp [infinity])

/-! ## The state after `init`, the flag of the oracle, and the arguments of `compute` -/

theorem replicate_succ_set_zero (n : Nat) (t u : task_info) :
    (List.replicate (n + 1) t).set 0 u = u :: List.replicate n t := by
  simp [List.replicate_succ]

/-- C15. After `init(len1, len2)` on a fresh engine, with both lengths multiples of the
tile size `B`: `old_carry` and `new_carry` hold `Wt + 1` records each, `Wt = max len1 len2 / B`;
`old_carry[0]` holds `(0, 1, …, B)` twice; every other record of `old_carry` and every
record of `new_carry` holds two vectors of `B + 1` zeros; and the estimate is
`max len1 len2`. -/
theorem init_state (B T len1 len2 : Nat) (h1 : len1 % B = 0) (h2 : len2 % B = 0) :
    ∃ e, init B T fresh len1 len2 = some e ∧
      e.old_carry = ⟨initial B, initial B⟩ ::
        List.replicate (max len1 len2 / B)
          ⟨List.replicate (B + 1) 0, List.replicate (B + 1) 0⟩ ∧
      e.new_carry = List.replicate (max len1 len2 / B + 1)
        ⟨List.replicate (B + 1) 0, List.replicate (B + 1) 0⟩ ∧
      initial B = (List.range (B + 1)).map Int.ofNat ∧
      e.worst_outcome_cached = (max len1 len2 : Nat) := by
  cases h : init B T fresh len1 len2 with
  | none =>
    exfalso
    unfold init at h
    by_cases hlt : len2 < len1 <;> simp [hlt, h1, h2] at h
  | some e =>
    obtain ⟨ho, hn, -⟩ := init_vectors B T e len1 len2 h
    obtain ⟨-, -, -, -, -, hw, -⟩ := init_scalars B T fresh e len1 len2 h
    refine ⟨e, rfl, ?_, ?_, rfl, hw⟩
    · rw [ho]
      simp only [set_vertical, set_horizontal, at_index, replicate_succ_set_zero, List.set_cons_zero,
        List.getD_cons_zero]
      rfl
    · rw [hn]; rfl

/-- C15 (witness). The engine after `init(128, 64)` at the tile size of the source. -/
theorem init_state_witness :
    ∃ e, init TASK_SIZE 1 fresh 128 64 = some e ∧
      e.old_carry = ⟨initial TASK_SIZE, initial TASK_SIZE⟩ ::
        List.replicate (max 128 64 / TASK_SIZE)
          ⟨List.replicate (TASK_SIZE + 1) 0, List.replicate (TASK_SIZE + 1) 0⟩ ∧
      e.new_carry = List.replicate (max 128 64 / TASK_SIZE + 1)
        ⟨List.replicate (TASK_SIZE + 1) 0, List.replicate (TASK_SIZE + 1) 0⟩ ∧
      initial TASK_SIZE = (List.range (TASK_SIZE + 1)).map Int.ofNat ∧
      e.worst_outcome_cached = (max 128 64 : Nat) :=
  init_state TASK_SIZE 1 128 64 (by decide) (by decide)

theorem all_too_big_loop_flag (e : EditDistance) (inp : task_info) (y x : Int)
    (h : e.length_in_chars = e.height_in_chars) :
    ∀ (n : Nat) (i : Int),
      all_too_big_loop { e with same_length_strings := true } inp y x n i
        = all_too_big_loop { e with same_length_strings := false } inp y x n i := by
  intro n
  induction n with
  | zero => intro i; rfl
  | succ n ih =>
    intro i
    have e1 : |e.length_in_chars - (x + i) - (e.height_in_chars - y)| = |x + i - y| := by
      rw [h, ← abs_neg]; congr 1; ring
    have e2 : |e.length_in_chars - x - (e.height_in_chars - (y + i))| = |x - y - i| := by
      rw [h, ← abs_neg]; congr 1; ring
    simp only [all_too_big_loop, worst_outcome, min_heuristic, if_true, Bool.false_eq_true,
      if_false, e1, e2, ih]

/-- C18. When `H = W` the two branches of `all_too_big` decide identically: for every
carry record, every origin and every estimate, the result with the flag
`same_length_strings` set equals the result with the flag cleared. -/
theorem all_too_big_flag_irrelevant (B : Nat) (e : EditDistance) (inp : task_info) (y x : Int)
    (h : e.length_in_chars = e.height_in_chars) :
    all_too_big B { e with same_length_strings := true } inp y x
      = all_too_big B { e with same_length_strings := false } inp y x :=
  all_too_big_loop_flag e inp y x h (B + 1) 0

/-- C18 (witness). An engine for `64` by `64` symbols, the carry of `init`, the tile at the
origin. -/
theorem all_too_big_flag_irrelevant_witness :
    all_too_big TASK_SIZE
        { (⟨false, false, 1, 64, 64, 64, 1, 1, [], [], []⟩ : EditDistance) with
          same_length_strings := true }
        ⟨initial TASK_SIZE, initial TASK_SIZE⟩ 0 0
      = all_too_big TASK_SIZE
        { (⟨false, false, 1, 64, 64, 64, 1, 1, [], [], []⟩ : EditDistance) with
          same_length_strings := false }
        ⟨initial TASK_SIZE, initial TASK_SIZE⟩ 0 0 :=
  all_too_big_flag_irrelevant TASK_SIZE ⟨false, false, 1, 64, 64, 64, 1, 1, [], [], []⟩
    ⟨initial TASK_SIZE, initial TASK_SIZE⟩ 0 0 rfl

theorem compute_strings {C : Type} [DecidableEq C] (B T : Nat) (a b : List C)
    (e : EditDistance) (hlen : b.length < a.length)
    (h : init B T fresh a.length b.length = some e) :
    (compute B e a b).str1 = b ∧ (compute B e a b).str2 = a := by
  obtain ⟨-, -, hsw, -⟩ := init_scalars B T fresh e _ _ h
  have hs : e.swap_strings = true := by simp [hsw, hlen]
  simp [compute, compute_with, hs]

/-- C20 (failing input). After `init(128, 64)`, the call `compute(str1, str2)` with
`str1 = 0¹²⁸` and `str2 = 1⁶⁴` leaves the `64` symbols of `str2` in `str1` and the `128`
symbols of `str1` in `str2`. -/
theorem compute_swaps_arguments :
    (init TASK_SIZE 1 fresh 128 64).map
      (fun e => ((compute TASK_SIZE e (List.replicate 128 (0 : Nat)) (List.replicate 64 1)).str1,
        (compute TASK_SIZE e (List.replicate 128 (0 : Nat)) (List.replicate 64 1)).str2))
      = some (List.replicate 64 1, List.replicate 128 0) := by
  cases h : init TASK_SIZE 1 fresh 128 64 with
  | none => exact absurd h (by simp [init, TASK_SIZE])
  | some e =>
    have h1 : init TASK_SIZE 1 fresh (List.replicate 128 (0 : Nat)).length
        (List.replicate 64 (1 : Nat)).length = some e := by simpa using h
    have := compute_strings TASK_SIZE 1 (List.replicate 128 (0 : Nat)) (List.replicate 64 1) e
      (by simp) h1
    rw [Option.map_some', this.1, this.2]

/-! ## The full table of two sequences -/

theorem lev_cell_zero_left {C : Type} [DecidableEq C] (a b : List C) (i : Nat) :
    lev_cell a b i 0 = i := by
  cases i <;> simp [lev_cell]

theorem lev_cell_succ {C : Type} [DecidableEq C] (a b : List C) (i j : Nat) :
    lev_cell a b (i + 1) (j + 1) =
      min (min (lev_cell a b i (j + 1) + 1) (lev_cell a b (i + 1) j + 1))
        (lev_cell a b i j + if a[i]? = b[j]? then 0 else 1) := by
  rw [lev_cell]

/-- Neighbouring cells of the full table differ by at most one, along a row and along a
column. -/
theorem lev_cell_lipschitz {C : Type} [DecidableEq C] (a b : List C) :
    ∀ i j : Nat,
      (lev_cell a b i (j + 1) ≤ lev_cell a b i j + 1 ∧
        lev_cell a b i j ≤ lev_cell a b i (j + 1) + 1) ∧
      (lev_cell a b (i + 1) j ≤ lev_cell a b i j + 1 ∧
        lev_cell a b i j ≤ lev_cell a b (i + 1) j + 1) := by
  have hrow : ∀ i : Nat, ∀ j : Nat,
      lev_cell a b i (j + 1) ≤ lev_cell a b i j + 1 ∧
        lev_cell a b i j ≤ lev_cell a b i (j + 1) + 1 := by
    intro i
    induction i with
    | zero => intro j; simp only [lev_cell]; omega
    | succ i ih =>
      have hcol : ∀ j : Nat, lev_cell a b (i + 1) j ≤ lev_cell a b i j + 1 ∧
          lev_cell a b i j ≤ lev_cell a b (i + 1) j + 1 := by
        intro j
        induction j with
        | zero => simp only [lev_cell_zero_left]; omega
        | succ j ihj =>
          have h := ih j
          rw [lev_cell_succ]
          split <;> omega
      intro j
      have h := ih j
      have v := hcol j
      rw [lev_cell_succ]
      split <;> omega
  intro i j
  refine ⟨hrow i j, ?_⟩
  induction j with
  | zero => simp only [lev_cell_zero_left]; omega
  | succ j ihj =>
    have h := hrow i j
    rw [lev_cell_succ]
    split <;> omega

/-- From a cell of the full table the corner `(H, W)` costs at most the larger of the
remaining rows and the remaining columns. -/
theorem lev_cell_to_corner {C : Type} [DecidableEq C] (a b : List C) (i j : Nat) :
    ∀ (n p q : Nat), p ≤ n → q ≤ n →
      lev_cell a b (i + p) (j + q) ≤ lev_cell a b i j + n := by
  intro n
  induction n with
  | zero =>
    intro p q hp hq
    have hp0 : p = 0 := by omega
    have hq0 : q = 0 := by omega
    subst hp0; subst hq0; simp
  | succ n ih =>
    intro p q hp hq
    cases p with
    | zero =>
      cases q with
      | zero => simp
      | succ q =>
        have h := ih 0 q (by omega) (by omega)
        have l := (lev_cell_lipschitz a b (i + 0) (j + q)).1.1
        simp only [Nat.add_zero] at h l ⊢
        rw [← Nat.add_assoc]; omega
    | succ p =>
      cases q with
      | zero =>
        have h := ih p 0 (by omega) (by omega)
        have l := (lev_cell_lipschitz a b (i + p) (j + 0)).2.1
        simp only [Nat.add_zero] at h l ⊢
        rw [← Nat.add_assoc]; omega
      | succ q =>
        have h := ih p q (by omega) (by omega)
        rw [← Nat.add_assoc, ← Nat.add_assoc, lev_cell_succ]
        split <;> omega

theorem naive_row_cells {C : Type} [DecidableEq C] (a b : List C) (i : Nat) (x : C)
    (hx : a[i]? = some x) :
    ∀ (n j : Nat), j + n = b.length →
      naive_row x (b.drop j) (lev_cell a b i j) (lev_cell a b (i + 1) j)
          ((List.range' (j + 1) n).map (lev_cell a b i))
        = (List.range' (j + 1) n).map (lev_cell a b (i + 1)) := by
  intro n
  induction n with
  | zero =>
    intro j hj
    have : b.drop j = [] := List.drop_eq_nil_of_le (by omega)
    simp [this, naive_row]
  | succ n ih =>
    intro j hj
    have hjlt : j < b.length := by omega
    have hd : b.drop j = b[j] :: b.drop (j + 1) := List.drop_eq_getElem_cons hjlt
    have hb : b[j]? = some b[j] := List.getElem?_eq_getElem hjlt
    have hcell : lev_cell a b (i + 1) (j + 1) =
        min (min (lev_cell a b i (j + 1) + 1) (lev_cell a b (i + 1) j + 1))
          (lev_cell a b i j + if x = b[j] then 0 else 1) := by
      rw [lev_cell_succ, hx, hb]
      simp only [Option.some.injEq]
    rw [hd, List.range'_succ, List.map_cons, List.map_cons, naive_row, ← hcell,
      ih (j + 1) (by omega)]

theorem map_range_succ (f : Nat → Nat) (n : Nat) :
    (List.range (n + 1)).map f = f 0 :: (List.range' 1 n).map f := by
  rw [List.range_eq_range', List.range'_succ, List.map_cons]

/-- The rows computed by `naive_next` are the rows of the full table. -/
theorem naive_rows_eq {C : Type} [DecidableEq C] (a b : List C) :
    ∀ i : Nat, i ≤ a.length →
      (a.take i).foldl (naive_next b) (List.range (b.length + 1))
        = (List.range (b.length + 1)).map (lev_cell a b i) := by
  intro i
  induction i with
  | zero =>
    intro _
    have : lev_cell a b 0 = id := by funext j; simp [lev_cell]
    simp [this]
  | succ i ih =>
    intro hi
    have hlt : i < a.length := by omega
    have hx : a[i]? = some a[i] := List.getElem?_eq_getElem hlt
    rw [List.take_succ, hx, Option.toList_some, List.foldl_append, ih (by omega)]
    simp only [List.foldl_cons, List.foldl_nil, naive_next]
    rw [map_range_succ, map_range_succ]
    simp only [List.headD_cons, List.tail_cons, lev_cell_zero_left]
    have key := naive_row_cells a b i a[i] hx b.length 0 (by omega)
    simp only [List.drop_zero, Nat.zero_add, lev_cell_zero_left] at key
    rw [key]

/-- The distance computed row by row is the corner cell of the full table. -/
theorem naive_levenshtein_eq {C : Type} [DecidableEq C] (a b : List C) :
    naive_levenshtein a b = lev_cell a b a.length b.length := by
  have h := naive_rows_eq a b a.length (le_refl _)
  rw [List.take_length] at h
  unfold naive_levenshtein
  rw [h, List.getD_eq_getElem?_getD, List.getElem?_map, List.getElem?_range (by omega)]
  rfl

/-- One row of the kernel carries a property of cells from row `i` to row `i + 1`, when the
property is kept by the step of the recurrence. -/
theorem row_loop_inv {C : Type} [DecidableEq C] (down left : List C)
    (P : Nat → Nat → Int → Prop)
    (hP : ∀ (i j : Nat) (diag prev h : Int), P i j diag → P (i + 1) j prev → P i (j + 1) h →
      P (i + 1) (j + 1) (if down[i]? = left[j]? then diag else min diag (min prev h) + 1))
    (i : Nat) (d : Option C) (hdi : d = down[i]?) :
    ∀ (hs : List Int) (j : Nat) (diagonal prev : Int),
      P i j diagonal → P (i + 1) j prev →
      (∀ k : Nat, k < hs.length → P i (j + 1 + k) (hs.getD k 0)) →
      ∀ k : Nat, k < hs.length →
        P (i + 1) (j + 1 + k) ((row_loop d hs.length (left.drop j) diagonal prev hs).getD k 0) := by
  intro hs
  induction hs with
  | nil => intro j diagonal prev _ _ _ k hk; simp at hk
  | cons h hs ih =>
    intro j diagonal prev hd hp hh k hk
    have hh0 : P i (j + 1) h := by
      have := hh 0 (by simp)
      simpa using this
    have hrest : ∀ k : Nat, k < hs.length → P i (j + 1 + 1 + k) (hs.getD k 0) := by
      intro k hk
      have := hh (k + 1) (by simp; omega)
      simp only [List.getD_cons_succ] at this
      have e : j + 1 + (k + 1) = j + 1 + 1 + k := by omega
      rw [e] at this
      exact this
    have htail : List.tail (List.drop j left) = List.drop (j + 1) left := by
      simp [List.tail_drop]
    have hnew := hP i j diagonal prev h hd hp hh0
    have hhead : (left.drop j).head? = left[j]? := head_drop_self left j
    simp only [List.length_cons, row_loop, htail, hhead]
    rw [← hdi] at hnew
    by_cases hm : d = left[j]?
    · rw [if_pos hm] at hnew ⊢
      cases k with
      | zero => simpa using hnew
      | succ k =>
        have hk1 : k < hs.length := by simpa using hk
        have := ih (j + 1) h diagonal hh0 hnew hrest k hk1
        simp only [List.getD_cons_succ]
        have e : j + 1 + (k + 1) = j + 1 + 1 + k := by omega
        rw [e]
        exact this
    · rw [if_neg hm] at hnew ⊢
      cases k with
      | zero => simpa using hnew
      | succ k =>
        have hk1 : k < hs.length := by simpa using hk
        have := ih (j + 1) h (min diagonal (min prev h) + 1) hh0 hnew hrest k hk1
        simp only [List.getD_cons_succ]
        have e : j + 1 + (k + 1) = j + 1 + 1 + k := by omega
        rw [e]
        exact this

/-- The rows of the kernel carry a property of cells from the top and left edges of a tile
to its bottom and right edges. -/
theorem rows_loop_inv {C : Type} [DecidableEq C] (down left : List C)
    (P : Nat → Nat → Int → Prop)
    (hP : ∀ (i j : Nat) (diag prev h : Int), P i j diag → P (i + 1) j prev → P i (j + 1) h →
      P (i + 1) (j + 1) (if down[i]? = left[j]? then diag else min diag (min prev h) + 1))
    (B : Nat) (y0 x0 : Nat) (iv : List Int)
    (hiv : ∀ k : Nat, k ≤ B → P (y0 + k) x0 (iv.getD k 0)) :
    ∀ (n height : Nat) (hor ov : List Int), n + height = B →
      hor.length = B + 1 →
      (∀ k : Nat, 1 ≤ k → k ≤ B → P (y0 + height) (x0 + k) (hor.getD k 0)) →
      ov.length = B + 1 →
      (∀ k : Nat, k ≤ height → P (y0 + k) (x0 + B) (ov.getD k 0)) →
      ((rows_loop B iv (left.drop x0) n height (down.drop (y0 + height)) hor ov).1.length = B + 1 ∧
        (∀ k : Nat, 1 ≤ k → k ≤ B → P (y0 + B) (x0 + k)
          ((rows_loop B iv (left.drop x0) n height (down.drop (y0 + height)) hor ov).1.getD k 0))) ∧
      ((rows_loop B iv (left.drop x0) n height (down.drop (y0 + height)) hor ov).2.length = B + 1 ∧
        (∀ k : Nat, k ≤ B → P (y0 + k) (x0 + B)
          ((rows_loop B iv (left.drop x0) n height (down.drop (y0 + height)) hor ov).2.getD k 0))) := by
  intro n
  induction n with
  | zero =>
    intro height hor ov hn hl hh ol oh
    have : height = B := by omega
    subst this
    simp only [rows_loop]
    exact ⟨⟨hl, hh⟩, ol, oh⟩
  | succ n ih =>
    intro height hor ov hn hl hh ol oh
    have htl : hor.tail.length = B := by simp [hl]
    have hdiag : P (y0 + height) x0 (iv.getD height 0) := hiv height (by omega)
    have hfirst : P (y0 + height + 1) x0 (iv.getD (height + 1) 0) := hiv (height + 1) (by omega)
    have hcells : ∀ k : Nat, k < hor.tail.length →
        P (y0 + height) (x0 + 1 + k) (hor.tail.getD k 0) := by
      intro k hk
      have := hh (k + 1) (by omega) (by omega)
      have e : hor.getD (k + 1) 0 = hor.tail.getD k 0 := by
        cases hor with
        | nil => simp at hl
        | cons h0 hs => simp
      rw [e] at this
      have e2 : x0 + (k + 1) = x0 + 1 + k := by omega
      rw [e2] at this; exact this
    have hrow := row_loop_inv down left P hP (y0 + height) (down.drop (y0 + height)).head?
      (head_drop_self down (y0 + height)) hor.tail x0
      (iv.getD height 0) (iv.getD (height + 1) 0) hdiag hfirst hcells
    rw [htl] at hrow
    have htail : (down.drop (y0 + height)).tail = down.drop (y0 + (height + 1)) := by
      simp [List.tail_drop, Nat.add_assoc]
    simp only [rows_loop, htail]
    apply ih (height + 1)
    · omega
    · simp [row_loop_length, htl]
    · intro k hk1 hkB
      obtain ⟨k1, rfl⟩ : ∃ k1, k = k1 + 1 := ⟨k - 1, by omega⟩
      have := hrow k1 (by omega)
      simp only [List.getD_cons_succ]
      have e1 : y0 + (height + 1) = y0 + height + 1 := by omega
      have e2 : x0 + (k1 + 1) = x0 + 1 + k1 := by omega
      rw [e1, e2]; exact this
    · simp [ol]
    · intro k hk
      by_cases hk1 : k = height + 1
      · subst hk1
        rw [List.getD_eq_getElem _ _ (by simp [ol]; omega)]
        simp only [List.getElem_set_self]
        obtain ⟨b1, hb1⟩ : ∃ b1, B = b1 + 1 := ⟨B - 1, by omega⟩
        have := hrow b1 (by omega)
        rw [hb1]
        simp only [List.getD_cons_succ]
        rw [← hb1]
        have e1 : y0 + (height + 1) = y0 + height + 1 := by omega
        have e2 : x0 + B = x0 + 1 + b1 := by omega
        rw [e1, e2]; exact this
      · have hk2 : k ≤ height := by omega
        have := oh k hk2
        rw [List.getD_eq_getElem _ _ (by simp [ol]; omega)]
        rw [List.getElem_set_ne (by omega)]
        rw [List.getD_eq_getElem _ _ (by omega)] at this
        exact this

/-- The tile kernel carries a property of cells from the left edge (indices `0..B`) and the
top edge (indices `1..B`) of the tile with origin `(y0, x0)` to its bottom and right
edges, indices `0..B`. -/
theorem compute_one_task_inv {C : Type} [DecidableEq C] (down left : List C)
    (P : Nat → Nat → Int → Prop)
    (hP : ∀ (i j : Nat) (diag prev h : Int), P i j diag → P (i + 1) j prev → P i (j + 1) h →
      P (i + 1) (j + 1) (if down[i]? = left[j]? then diag else min diag (min prev h) + 1))
    (B : Nat) (hB : 1 ≤ B) (e : EditDistance) (inp out : task_info) (y0 x0 : Nat)
    (hv : ∀ k : Nat, k ≤ B → P (y0 + k) x0 (inp.vertical.getD k 0))
    (hhl : inp.horizontal.length = B + 1)
    (hh : ∀ k : Nat, 1 ≤ k → k ≤ B → P y0 (x0 + k) (inp.horizontal.getD k 0))
    (ho : out.vertical.length = B + 1) :
    ((compute_one_task B e inp out down left y0 x0).2.1.horizontal.length = B + 1 ∧
      ∀ k : Nat, k ≤ B → P (y0 + B) (x0 + k)
        ((compute_one_task B e inp out down left y0 x0).2.1.horizontal.getD k 0)) ∧
    ((compute_one_task B e inp out down left y0 x0).2.1.vertical.length = B + 1 ∧
      ∀ k : Nat, k ≤ B → P (y0 + k) (x0 + B)
        ((compute_one_task B e inp out down left y0 x0).2.1.vertical.getD k 0)) := by
  have hov : ∀ k : Nat, k ≤ 0 → P (y0 + k) (x0 + B)
      ((out.vertical.set 0 (inp.horizontal.getD B 0)).getD k 0) := by
    intro k hk
    have hk0 : k = 0 := by omega
    subst hk0
    rw [List.getD_eq_getElem _ _ (by simp [ho])]
    simp only [List.getElem_set_self]
    exact hh B hB (le_refl _)
  have key := rows_loop_inv down left P hP B y0 x0 inp.vertical hv B 0 inp.horizontal
    (out.vertical.set 0 (inp.horizontal.getD B 0)) (by omega) hhl hh (by simp [ho]) hov
  simp only [Nat.add_zero] at key
  obtain ⟨⟨k1, k2⟩, k3, k4⟩ := key
  simp only [compute_one_task, Int.toNat_ofNat]
  have hlen : (List.set (rows_loop B inp.vertical (List.drop x0 left) B 0 (List.drop y0 down)
      inp.horizontal (out.vertical.set 0 (inp.horizontal.getD B 0))).1 0
      (inp.vertical.getD B 0)).length = B + 1 := by
    rw [List.length_set]; exact k1
  refine ⟨⟨hlen, ?_⟩, k3, k4⟩
  intro k hk
  by_cases hk0 : k = 0
  · subst hk0
    rw [List.getD_eq_getElem _ _ (by omega)]
    simp only [List.getElem_set_self]
    exact hv B (le_refl _)
  · rw [List.getD_eq_getElem _ _ (by omega)]
    rw [List.getElem_set_ne (by omega)]
    have := k2 k (by omega) hk
    rw [List.getD_eq_getElem _ _ (by omega)] at this
    exact this

/-! ## The tile kernel on exact edges, and the value it returns -/

/-- The step of the kernel computes the next cell of the full table from exact
neighbours: a match copies the diagonal, which is then the least of the three
candidates. -/
theorem kernel_step_exact {C : Type} [DecidableEq C] (down left : List C)
    (i j : Nat) (diag prev h : Int)
    (hd : diag = lev_cell down left i j) (hp : prev = lev_cell down left (i + 1) j)
    (hh : h = lev_cell down left i (j + 1)) :
    (if down[i]? = left[j]? then diag else min diag (min prev h) + 1)
      = lev_cell down left (i + 1) (j + 1) := by
  have l := lev_cell_lipschitz down left i j
  rw [lev_cell_succ, hd, hp, hh]
  split
  · push_cast; omega
  · push_cast; omega

/-- The tile kernel on exact edges: the cells of the bottom and right edges. -/
theorem compute_one_task_cells {C : Type} [DecidableEq C] (B : Nat) (e : EditDistance)
    (inp out : task_info) (down left : List C) (y x : Nat) (hB : 0 < B)
    (hhl : inp.horizontal.length = B + 1) (hol : out.vertical.length = B + 1)
    (hv : ∀ i : Nat, i ≤ B → inp.vertical.getD i 0 = lev_cell down left (y + i) x)
    (hh : ∀ i : Nat, 1 ≤ i → i ≤ B → inp.horizontal.getD i 0 = lev_cell down left y (x + i)) :
    ∀ i : Nat, i ≤ B →
      (compute_one_task B e inp out down left y x).2.1.horizontal.getD i 0
        = lev_cell down left (y + B) (x + i) ∧
      (compute_one_task B e inp out down left y x).2.1.vertical.getD i 0
        = lev_cell down left (y + i) (x + B) := by
  intro i hi
  have key := compute_one_task_inv down left (fun i j v => v = (lev_cell down left i j : Int))
    (fun i j diag prev h hd hp hh => kernel_step_exact down left i j diag prev h hd hp hh)
    B hB e inp out y x hv hhl hh hol
  exact ⟨key.1.2 i hi, key.2.2 i hi⟩

/-- C11 (tile kernel). For a tile with origin `(y, x)` inside the matrix: when
`in.vertical[i]` is the cell `D[y+i][x]` for `i` in `[0, B]` and `in.horizontal[i]` is the
cell `D[y][x+i]` for `i` in `[1, B]` of the full table of `down` and `left`, then after
`compute_one_task` the vector `out.horizontal` holds the cells `D[y+B][x+i]` and
`out.vertical` holds the cells `D[y+i][x+B]`, for every `i` in `[0, B]`. -/
theorem compute_one_task_exact {C : Type} [DecidableEq C] (B : Nat) (e : EditDistance)
    (inp out : task_info) (down left : List C) (y x : Nat) (hB : 0 < B)
    (_hy : y + B ≤ down.length) (_hx : x + B ≤ left.length)
    (hhl : inp.horizontal.length = B + 1) (hol : out.vertical.length = B + 1)
    (hv : ∀ i : Nat, i ≤ B → inp.vertical.getD i 0 = lev_cell down left (y + i) x)
    (hh : ∀ i : Nat, 1 ≤ i → i ≤ B → inp.horizontal.getD i 0 = lev_cell down left y (x + i)) :
    ∀ i : Nat, i ≤ B →
      (compute_one_task B e inp out down left y x).2.1.horizontal.getD i 0
        = lev_cell down left (y + B) (x + i) ∧
      (compute_one_task B e inp out down left y x).2.1.vertical.getD i 0
        = lev_cell down left (y + i) (x + B) :=
  compute_one_task_cells B e inp out down left y x hB hhl hol hv hh

/-- C11 (witness). The tile at the origin of the table of `[0, 1]` and `[1, 1]` with tile
size `2`, from the boundary values `(0, 1, 2)`: the corner cell. -/
theorem compute_one_task_exact_witness :
    (compute_one_task 2 fresh ⟨initial 2, initial 2⟩ (task_info.new 2) [0, 1] [1, 1]
        ((0 : Nat) : Int) ((0 : Nat) : Int)).2.1.horizontal.getD 2 0
      = lev_cell [0, 1] [1, 1] (0 + 2) (0 + 2) ∧
    (compute_one_task 2 fresh ⟨initial 2, initial 2⟩ (task_info.new 2) [0, 1] [1, 1]
        ((0 : Nat) : Int) ((0 : Nat) : Int)).2.1.vertical.getD 2 0
      = lev_cell [0, 1] [1, 1] (0 + 2) (0 + 2) :=
  compute_one_task_exact 2 fresh ⟨initial 2, initial 2⟩ (task_info.new 2) [0, 1] [1, 1] 0 0
    (by decide) (by decide) (by decide) (by decide) (by decide)
    (fun i hi => by rw [Nat.zero_add, lev_cell_zero_left]; exact (initial_spec 2).2 i hi)
    (fun i _ hi => by
      rw [Nat.zero_add, (initial_spec 2).2 i hi]; simp [lev_cell])
    2 (le_refl _)

/-- The kernel keeps a common lower bound of the values it is given. -/
theorem compute_one_task_above {C : Type} [DecidableEq C] (down left : List C) (c : Int)
    (B : Nat) (hB : 1 ≤ B) (e : EditDistance) (inp out : task_info) (y0 x0 : Nat)
    (hv : ∀ k : Nat, k ≤ B → c ≤ inp.vertical.getD k 0)
    (hhl : inp.horizontal.length = B + 1)
    (hh : ∀ k : Nat, 1 ≤ k → k ≤ B → c ≤ inp.horizontal.getD k 0)
    (ho : out.vertical.length = B + 1) :
    (∀ k : Nat, k ≤ B →
      c ≤ (compute_one_task B e inp out down left y0 x0).2.1.horizontal.getD k 0) ∧
    (∀ k : Nat, k ≤ B →
      c ≤ (compute_one_task B e inp out down left y0 x0).2.1.vertical.getD k 0) := by
  have key := compute_one_task_inv down left (fun _ _ v => c ≤ v)
    (fun i j diag prev h hd hp hh => by
      show c ≤ (if _ then diag else min diag (min prev h) + 1)
      split
      · exact hd
      · have : c ≤ min diag (min prev h) := le_min hd (le_min hp hh)
        exact le_trans this (le_add_of_nonneg_right (by decide)))
    B hB e inp out y0 x0 hv hhl hh ho
  exact ⟨key.1.2, key.2.2⟩

/-- The value returned by the kernel is the sentinel as soon as no candidate of the
minimum is below it. -/
theorem compute_one_task_ret_capped {C : Type} [DecidableEq C] (B : Nat) (e : EditDistance)
    (inp out : task_info) (down left : List C) (y x : Int)
    (hc : e.length_in_chars - x > e.height_in_chars - y)
    (hv : ∀ k : Nat, k ≤ B → infinity ≤ e.length_in_chars - x - B +
      (compute_one_task B e inp out down left y x).2.1.vertical.getD k 0) :
    (compute_one_task B e inp out down left y x).2.2 = infinity := by
  rw [compute_one_task_ret, if_pos hc]
  apply le_antisymm (min_loop_le_init _ _ _ _ _)
  apply le_min_loop _ _ _ _ _ _ (le_refl _)
  intro k _ hk
  exact hv k (by omega)

/-! ## The oracle at one tile -/

theorem lev_cell_zero_top {C : Type} [DecidableEq C] (a b : List C) (j : Nat) :
    lev_cell a b 0 j = j := by
  rw [lev_cell]

theorem on_optimal_path_start {C : Type} [DecidableEq C] (a b : List C) :
    on_optimal_path a b 0 0 := by
  unfold on_optimal_path
  have : naive_levenshtein ([] : List C) ([] : List C) = 0 := rfl
  simp [this]

/-! ## A single tile -/

/-- C17 (single tile). For `a`, `b` of length `B`: `init(B, B)` succeeds with one level,
the oracle does not reject the tile at the origin, `compute(a, b)` evaluates exactly
that tile and returns the distance of `a` and `b`. -/
theorem single_tile_distance {C : Type} [DecidableEq C] (B T : Nat) (a b : List C)
    (hB : 0 < B) (hT : 0 < T) (ha : a.length = B) (hb : b.length = B) :
    (init B T fresh a.length b.length).map
      (fun e => (e.number_of_levels, all_too_big B e (at_index e.old_carry 0) 0 0,
        (compute B e a b).value, (compute B e a b).evaluated))
      = some (1, false, (naive_levenshtein a b : Int), [(1, 0)]) := by
  cases h : init B T fresh a.length b.length with
  | none =>
    exfalso
    unfold init at h
    simp [ha, hb] at h
  | some e =>
    rw [ha, hb] at h
    have hsc := init_scalars B T fresh e B B h
    have hvec := init_vectors B T e B B h
    have hdiv : B / B = 1 := Nat.div_self hB
    simp only [min_self, max_self, hdiv] at hsc hvec
    obtain ⟨-, -, hsw, hsame, hlev, hworst, hlen, hhgt, hht, hlt⟩ := hsc
    obtain ⟨hold, hnew, hthr⟩ := hvec
    have hsw0 : e.swap_strings = false := by simp [hsw, fresh]
    have hsame1 : e.same_length_strings = true := by simp [hsame]
    have hlev1 : e.number_of_levels = 1 := by rw [hlev]; norm_num
    have hi := initial_spec B
    have hlenrep : (List.replicate (1 + 1) (task_info.new B)).length = 2 := by simp
    have h0 : at_index e.old_carry 0 = ⟨initial B, initial B⟩ := by
      rw [hold, at_index_set_horizontal_self _ _ _
        (by rw [length_set_vertical, hlenrep]; omega),
        at_index_set_vertical_self _ _ _ (by rw [hlenrep]; omega)]
    have hthr0 : (at_index e.thread_data 0).vertical.length = B + 1 := by
      have := sized_replicate B T 0 (by simpa using hT)
      rw [hthr]; exact this.1
    -- the oracle keeps the tile
    have horacle : all_too_big B e (at_index e.old_carry 0) 0 0 = false := by
      apply all_too_big_false B e _ 0 0 hsame1 0 (Nat.zero_le _)
      left
      rw [h0, hworst]
      have := hi.2 0 (Nat.zero_le _)
      simp only [this]
      simp
    -- the level
    have a1 : adj_shift ⟨e, 0, 0, 0, false, false, []⟩ 1 = 0 := by
      simp [adj_shift, hht]
    have a2 : adj_ic ⟨e, 0, 0, 0, false, false, []⟩ 1 = 0 := by simp [adj_ic]
    have a3 : adj_ir ⟨e, 0, 0, 0, false, false, []⟩ 1 = 0 := by simp [adj_ir]
    have horacle' : all_too_big B e (at_index e.old_carry (0 : Int).toNat)
        (((1 : Int) - 1 - 0) * B) ((0 : Int) * B) = false := by
      simpa using horacle
    have hbody := task_body_evaluated B (all_too_big B) e a b 1 0 0 0 1
      { thread_data := e.thread_data, old_carry := e.old_carry, new_carry := e.new_carry,
        global_minimum := infinity, add_infinity_column := false, add_infinity_row := false,
        evaluated := [] } 0 horacle'
    have hsv : seed_code_v e 1 0 0 0 = 0 := by simp [seed_code_v, hht]
    have hsh : seed_code_h e 0 1 0 = 0 := by simp [seed_code_h, hlt]
    have htasks : level_tasks B (all_too_big B) a b ⟨e, 0, 0, 0, false, false, []⟩ 1
        = task_body B (all_too_big B) e a b 1 0 0 0 1
          { thread_data := e.thread_data, old_carry := e.old_carry, new_carry := e.new_carry,
            global_minimum := infinity, add_infinity_column := false,
            add_infinity_row := false, evaluated := [] } 0 := by
      simp only [level_tasks, a1, a2, a3, hlt]
      norm_num [task_loop]
    have hcells := compute_one_task_cells B e (at_index e.old_carry 0) (at_index e.thread_data 0)
      a b 0 0 hB (by rw [h0]; exact hi.1) hthr0
      (fun i hi' => by rw [h0, Nat.zero_add, lev_cell_zero_left]; exact hi.2 i hi')
      (fun i _ hi' => by rw [h0, Nat.zero_add, lev_cell_zero_top]; exact hi.2 i hi')
      B (le_refl _)
    have hspec := evaluated_carry_spec B 1 e.new_carry 0
      (compute_one_task B e (at_index e.old_carry 0) (at_index e.thread_data 0) a b
        (((1 : Int) - 1 - 0) * B) ((0 : Int) * B)).2.1.horizontal
      (compute_one_task B e (at_index e.old_carry 0) (at_index e.thread_data 0) a b
        (((1 : Int) - 1 - 0) * B) ((0 : Int) * B)).2.1.vertical
      (1 * B) 0 0 (by rw [hnew]; simp) (by rw [hnew]; exact sized_replicate B 2) (by omega)
      (by
        have := (compute_one_task_inv a b (fun _ _ _ => True) (fun _ _ _ _ _ _ _ _ => trivial)
          B hB e (at_index e.old_carry 0) (at_index e.thread_data 0) 0 0
          (fun _ _ => trivial) (by rw [h0]; exact hi.1) (fun _ _ _ => trivial) hthr0).1.1
        simpa using this)
      (by
        have := (compute_one_task_inv a b (fun _ _ _ => True) (fun _ _ _ _ _ _ _ _ => trivial)
          B hB e (at_index e.old_carry 0) (at_index e.thread_data 0) 0 0
          (fun _ _ => trivial) (by rw [h0]; exact hi.1) (fun _ _ _ => trivial) hthr0).2.1
        simpa using this)
    have hval : (compute B e a b).value = (naive_levenshtein a b : Int) := by
      have hidx : (e.length_in_tasks - 1).toNat = 0 := by rw [hlt]; rfl
      simp only [compute, compute_with, hsw0, Bool.false_eq_true, if_false, hlev1, hidx]
      show ((at_index (level_body B (all_too_big B) a b ⟨e, 0, 0, 0, false, false, []⟩ 1).engine.old_carry
        0).horizontal).getD B 0 = _
      rw [level_body_eq]
      simp only [htasks, hbody, hsv, hsh, Int.toNat_zero]
      rw [hspec.2.2.1, naive_levenshtein_eq, ha, hb]
      have := hcells.1
      simp only [Nat.zero_add, Nat.cast_zero] at this
      simpa using this
    have hev : (compute B e a b).evaluated = [(1, 0)] := by
      simp only [compute, compute_with, hsw0, Bool.false_eq_true, if_false, hlev1]
      show (level_body B (all_too_big B) a b ⟨e, 0, 0, 0, false, false, []⟩ 1).evaluated = _
      rw [level_body_eq]
      simp only [htasks, hbody]
      rfl
    rw [Option.map_some', hlev1, horacle, hval, hev]

/-- C17 (witness). Tile size `4`: `("AAAA", "AAAA")` gives `0` and `("AAAA", "BBBB")`
gives `4`, each in one level with the single tile evaluated. -/
theorem single_tile_distance_witness :
    (init 4 1 fresh 4 4).map
        (fun e => (e.number_of_levels, all_too_big 4 e (at_index e.old_carry 0) 0 0,
          (compute 4 e ['A', 'A', 'A', 'A'] ['A', 'A', 'A', 'A']).value,
          (compute 4 e ['A', 'A', 'A', 'A'] ['A', 'A', 'A', 'A']).evaluated))
        = some (1, false, 0, [(1, 0)]) ∧
    (init 4 1 fresh 4 4).map
        (fun e => (e.number_of_levels, all_too_big 4 e (at_index e.old_carry 0) 0 0,
          (compute 4 e ['A', 'A', 'A', 'A'] ['B', 'B', 'B', 'B']).value,
          (compute 4 e ['A', 'A', 'A', 'A'] ['B', 'B', 'B', 'B']).evaluated))
        = some (1, false, 4, [(1, 0)]) := by
  have h1 := single_tile_distance 4 1 ['A', 'A', 'A', 'A'] ['A', 'A', 'A', 'A']
    (by decide) (by decide) rfl rfl
  have h2 := single_tile_distance 4 1 ['A', 'A', 'A', 'A'] ['B', 'B', 'B', 'B']
    (by decide) (by decide) rfl rfl
  have n1 : naive_levenshtein ['A', 'A', 'A', 'A'] ['A', 'A', 'A', 'A'] = 0 := by decide
  have n2 : naive_levenshtein ['A', 'A', 'A', 'A'] ['B', 'B', 'B', 'B'] = 4 := by decide
  rw [n1] at h1
  rw [n2] at h2
  exact ⟨h1, h2⟩

/-! ## Repeated calls on one engine -/

set_option maxRecDepth 100000 in
/-- C19 (failing run). One engine after `init(64, 64)`: the first call of `compute` on
`0³² 1³²` and `1³² 0³²` returns `64`, the second call on the same engine and the same
sequences returns `32`, and the distance of the two sequences by the full table is `64`. -/
theorem compute_twice_differs :
    (init TASK_SIZE 1 fresh 64 64).map
      (fun e => ((compute TASK_SIZE e repeatA repeatB).value,
        (compute TASK_SIZE (compute TASK_SIZE e repeatA repeatB).engine repeatA repeatB).value,
        naive_levenshtein repeatA repeatB))
      = some (64, 32, 64) := by
  decide!

/-! ## The anchors produced by the tile kernel -/

/-- The step of the kernel keeps upper bounds of the cells of the full table. -/
theorem kernel_step_above {C : Type} [DecidableEq C] (down left : List C)
    (i j : Nat) (diag prev h : Int)
    (hd : (lev_cell down left i j : Int) ≤ diag)
    (hp : (lev_cell down left (i + 1) j : Int) ≤ prev)
    (hh : (lev_cell down left i (j + 1) : Int) ≤ h) :
    (lev_cell down left (i + 1) (j + 1) : Int)
      ≤ (if down[i]? = left[j]? then diag else min diag (min prev h) + 1) := by
  rw [lev_cell_succ]
  split
  · push_cast; omega
  · push_cast; omega

/-- From a cell with `p` rows and `q` columns left to the corner `(H, W)`, the distance is at
most the value of the cell plus the larger of `p` and `q`. -/
theorem distance_le_cell_add {C : Type} [DecidableEq C] (down left : List C) (i j n : Nat)
    (hi : i ≤ down.length) (hj : j ≤ left.length) (hp : down.length - i ≤ n)
    (hq : left.length - j ≤ n) :
    naive_levenshtein down left ≤ lev_cell down left i j + n := by
  rw [naive_levenshtein_eq]
  have := lev_cell_to_corner down left i j n (down.length - i) (left.length - j) hp hq
  have e1 : i + (down.length - i) = down.length := by omega
  have e2 : j + (left.length - j) = left.length := by omega
  rw [e1, e2] at this
  exact this

/-- A tile whose origin and whose table have sides that are multiples of `B`, entered with
carries that are at least the true cells of its left and top edges: the edges it produces
are at least the true cells again, and the value it returns is at least the distance of
`down` and `left` (as long as the distance does not exceed the sentinel). -/
theorem compute_one_task_bounds_distance {C : Type} [DecidableEq C] (B : Nat)
    (e : EditDistance) (inp out : task_info) (down left : List C) (ty tx th tw : Nat)
    (hB : 1 ≤ B)
    (hW : e.length_in_chars = left.length) (hH : e.height_in_chars = down.length)
    (hth : down.length = th * B) (htw : left.length = tw * B)
    (hy : ty < th) (hx : tx < tw)
    (hhl : inp.horizontal.length = B + 1) (hol : out.vertical.length = B + 1)
    (hv : ∀ i : Nat, i ≤ B →
      (lev_cell down left (ty * B + i) (tx * B) : Int) ≤ inp.vertical.getD i 0)
    (hh : ∀ i : Nat, 1 ≤ i → i ≤ B →
      (lev_cell down left (ty * B) (tx * B + i) : Int) ≤ inp.horizontal.getD i 0)
    (hinf : (naive_levenshtein down left : Int) ≤ infinity) :
    (∀ i : Nat, i ≤ B → (lev_cell down left (ty * B + B) (tx * B + i) : Int)
      ≤ (compute_one_task B e inp out down left ((ty * B : Nat) : Int)
          ((tx * B : Nat) : Int)).2.1.horizontal.getD i 0) ∧
    (∀ i : Nat, i ≤ B → (lev_cell down left (ty * B + i) (tx * B + B) : Int)
      ≤ (compute_one_task B e inp out down left ((ty * B : Nat) : Int)
          ((tx * B : Nat) : Int)).2.1.vertical.getD i 0) ∧
    (naive_levenshtein down left : Int)
      ≤ (compute_one_task B e inp out down left ((ty * B : Nat) : Int)
          ((tx * B : Nat) : Int)).2.2 := by
  have key := compute_one_task_inv down left
    (fun i j v => (lev_cell down left i j : Int) ≤ v)
    (fun i j diag prev h hd hp hh => kernel_step_above down left i j diag prev h hd hp hh)
    B hB e inp out (ty * B) (tx * B) hv hhl hh hol
  obtain ⟨⟨-, kh⟩, -, kv⟩ := key
  refine ⟨kh, kv, ?_⟩
  -- the remaining rows and columns, in tiles
  obtain ⟨ry, hry⟩ : ∃ ry, th = ty + 1 + ry := ⟨th - ty - 1, by omega⟩
  obtain ⟨rx, hrx⟩ : ∃ rx, tw = tx + 1 + rx := ⟨tw - tx - 1, by omega⟩
  have eH : down.length = ty * B + B + ry * B := by rw [hth, hry]; ring
  have eW : left.length = tx * B + B + rx * B := by rw [htw, hrx]; ring
  have hΔW : e.length_in_chars - ((tx * B : Nat) : Int) - B = ((rx * B : Nat) : Int) := by
    rw [hW, eW]; push_cast; ring
  have hΔH : e.height_in_chars - ((ty * B : Nat) : Int) - B = ((ry * B : Nat) : Int) := by
    rw [hH, eH]; push_cast; ring
  have hcmp1 : e.length_in_chars - ((tx * B : Nat) : Int) > e.height_in_chars - ((ty * B : Nat) : Int)
      ↔ ry < rx := by
    have h1 : e.length_in_chars - ((tx * B : Nat) : Int) = ((rx * B : Nat) : Int) + B := by
      rw [← hΔW]; ring
    have h2 : e.height_in_chars - ((ty * B : Nat) : Int) = ((ry * B : Nat) : Int) + B := by
      rw [← hΔH]; ring
    rw [h1, h2]
    constructor
    · intro h
      have h3 : ry * B < rx * B := by exact_mod_cast (by linarith : ((ry * B : Nat) : Int) < ((rx * B : Nat) : Int))
      exact lt_of_mul_lt_mul_right h3 (Nat.zero_le _)
    · intro h
      have h3 : ry * B < rx * B := Nat.mul_lt_mul_of_pos_right h (by omega)
      have : ((ry * B : Nat) : Int) < ((rx * B : Nat) : Int) := by exact_mod_cast h3
      linarith
  have hcmp2 : e.length_in_chars - ((tx * B : Nat) : Int) < e.height_in_chars - ((ty * B : Nat) : Int)
      ↔ rx < ry := by
    have h1 : e.length_in_chars - ((tx * B : Nat) : Int) = ((rx * B : Nat) : Int) + B := by
      rw [← hΔW]; ring
    have h2 : e.height_in_chars - ((ty * B : Nat) : Int) = ((ry * B : Nat) : Int) + B := by
      rw [← hΔH]; ring
    rw [h1, h2]
    constructor
    · intro h
      have h3 : rx * B < ry * B := by exact_mod_cast (by linarith : ((rx * B : Nat) : Int) < ((ry * B : Nat) : Int))
      exact lt_of_mul_lt_mul_right h3 (Nat.zero_le _)
    · intro h
      have h3 : rx * B < ry * B := Nat.mul_lt_mul_of_pos_right h (by omega)
      have : ((rx * B : Nat) : Int) < ((ry * B : Nat) : Int) := by exact_mod_cast h3
      linarith
  rw [compute_one_task_ret]
  by_cases c1 : ry < rx
  · -- more columns than rows are left: the right edge
    rw [if_pos (hcmp1.mpr c1), hΔW]
    apply le_min_loop _ _ _ _ _ _ hinf
    intro k _ hk
    have hk' : k ≤ B := by omega
    have hmul : ry * B + B ≤ rx * B := by
      have : (ry + 1) * B ≤ rx * B := Nat.mul_le_mul_right B c1
      rw [Nat.add_mul, Nat.one_mul] at this; exact this
    have hd := distance_le_cell_add down left (ty * B + k) (tx * B + B) (rx * B)
      (by omega) (by omega) (by omega) (by omega)
    have := kv k hk'
    have hd' : (naive_levenshtein down left : Int)
        ≤ (lev_cell down left (ty * B + k) (tx * B + B) : Int) + ((rx * B : Nat) : Int) := by
      exact_mod_cast hd
    linarith
  · by_cases c2 : rx < ry
    · -- more rows than columns are left: the bottom edge
      rw [if_neg (fun h => c1 (hcmp1.mp h)), if_pos (hcmp2.mpr c2), hΔH]
      apply le_min_loop _ _ _ _ _ _ hinf
      intro k _ hk
      have hk' : k ≤ B := by omega
      have hmul : rx * B + B ≤ ry * B := by
        have : (rx + 1) * B ≤ ry * B := Nat.mul_le_mul_right B c2
        rw [Nat.add_mul, Nat.one_mul] at this; exact this
      have hd := distance_le_cell_add down left (ty * B + B) (tx * B + k) (ry * B)
        (by omega) (by omega) (by omega) (by omega)
      have := kh k hk'
      have hd' : (naive_levenshtein down left : Int)
          ≤ (lev_cell down left (ty * B + B) (tx * B + k) : Int) + ((ry * B : Nat) : Int) := by
        exact_mod_cast hd
      linarith
    · -- as many rows as columns are left: the corner
      have hrr : rx = ry := by omega
      rw [if_neg (fun h => c1 (hcmp1.mp h)), if_neg (fun h => c2 (hcmp2.mp h))]
      have hd := distance_le_cell_add down left (ty * B + B) (tx * B + B) (rx * B)
        (by rw [eH]; omega) (by omega) (by rw [eH, hrr]; omega) (by omega)
      have := kh B (le_refl _)
      have hd' : (naive_levenshtein down left : Int)
          ≤ (lev_cell down left (ty * B + B) (tx * B + B) : Int) + ((rx * B : Nat) : Int) := by
        exact_mod_cast hd
      have e3 : ∀ z : Int, z + e.length_in_chars - ((tx * B : Nat) : Int) - B
          = z + ((rx * B : Nat) : Int) := by
        intro z; rw [← hΔW]; ring
      rw [e3]
      linarith

/-! ## The anchors in a run of `compute` before any tile is rejected -/

/-- The method `compute` is the loop over the levels run with the oracle `all_too_big`
from the state `init` has left, on `down` and `left` as the swap flag orders them. -/
theorem compute_runs_level_loop {C : Type} [DecidableEq C] (B : Nat) (e : EditDistance)
    (str1 str2 : List C) :
    (compute B e str1 str2).engine
      = (level_loop B (all_too_big B) (if e.swap_strings then str2 else str1)
          (if e.swap_strings then str1 else str2) e.number_of_levels.toNat 1
          ⟨e, 0, 0, 0, false, false, []⟩).engine := rfl

/-- The method `compute` runs all the levels: its engine is the state after
`number_of_levels` levels. -/
theorem compute_engine_levels {C : Type} [DecidableEq C] (B : Nat) (e : EditDistance)
    (str1 str2 : List C) :
    (compute B e str1 str2).engine
      = (compute_levels B e str1 str2 e.number_of_levels.toNat).engine := rfl

end Wavefront
